import Mathlib

/-!
# lowdown `buffer.c`: the growable byte buffer

A shallow embedding of `struct lowdown_buf` and of the `hbuf_*` functions of
`buffer.c`, followed by theorems about them.

Modelling conventions.

* A heap block is the list of its bytes, so the length of the list is the
  number of bytes really allocated; a pointer is `none` (NULL) or `some block`.
  The real allocation is therefore visible next to the recorded `maxsize`.
* `size_t` values are natural numbers, and the functions that add them are
  given twice.  The functions whose names end in `64` (`hbuf_grow64`,
  `hbuf_put64`, `hbuf_putc64`, `hbuf_putf64`, `hbuf_printf64`, ...) form every
  sum modulo `2 ^ 64` (`size_add`), as the code does on a 64-bit machine; they
  decide what depends on the value of a sum: the capacity `hbuf_grow` records,
  whether its loop ends, the target `hbuf_putf` asks for.  The functions
  without the suffix form the same sums over the unbounded naturals: they are
  the code for as long as no sum reaches `2 ^ 64`, and each is shown equal to
  its 64-bit counterpart under that bound (`hbuf_grow64_eq`, `hbuf_put64_eq`,
  `hbuf_putc64_eq`, `hbuf_putf64_eq`, `hbuf_printf64_eq`).  The one
  subtraction of the file (`maxsize - size` in `hbuf_printf`) is taken modulo
  `2 ^ 64` in both.
* Every call of the allocator takes its outcome as a parameter (`Alloc`): it
  fails, or it succeeds and hands out storage whose fresh bytes are arbitrary.
* A C function that writes through `buf` becomes a function returning the new
  value of `*buf`.  Behaviour that C leaves undefined or that stops the
  program is a `Fault`.
-/

namespace Lowdown

/-- One `char` of storage. -/
abbrev Byte := Fin 256

/-- Ways in which a call fails to return normally. -/
inductive Fault where
  /-- An `assert` does not hold: the program aborts. -/
  | assertion
  /-- A read or write outside the allocated storage (a NULL access included). -/
  | bounds
  /-- A loop that never ends. -/
  | hang
  /-- The function `xmalloc` got no memory and ended the program. -/
  | nomem
deriving DecidableEq

/-- Outcome of a call: a normal return with a value, or a fault. -/
inductive Res (α : Type) where
  | ok (a : α)
  | fault (f : Fault)
deriving DecidableEq

/-- The record `struct lowdown_buf` (declared in `lowdown.h`): the fields that
`buffer.c` reads and writes. -/
structure lowdown_buf where
  data : Option (List Byte)
  size : Nat
  maxsize : Nat
  unit : Nat
  buffer_free : Int
deriving DecidableEq

/-- Outcome of one allocator call: failure, or success together with the
contents of the bytes that the allocator leaves indeterminate. -/
inductive Alloc where
  | fail
  | grant (junk : Nat → Byte)

/-- The bytes of the storage a pointer refers to (none for NULL). -/
def block (p : Option (List Byte)) : List Byte :=
  match p with
  | none => []
  | some blk => blk

/-- Number of bytes really allocated behind `buf->data`. -/
def allocated (buf : lowdown_buf) : Nat := (block buf.data).length

/-- The bytes at offsets `[0, size)` that the storage holds. -/
def content (buf : lowdown_buf) : List Byte := (block buf.data).take buf.size

/-- The byte at offset `i` of the storage, when there is one. -/
def byteAt (buf : lowdown_buf) (i : Nat) : Option Byte := (block buf.data)[i]?

/-- The library call `realloc(p, n)`: NULL on failure (the old block stays as
it is); on success a block of `n` bytes that starts with the old bytes. -/
def realloc (a : Alloc) (p : Option (List Byte)) (n : Nat) : Option (List Byte) :=
  match a with
  | Alloc.fail => none
  | Alloc.grant junk =>
    some ((block p).take n ++ (List.range (n - (block p).length)).map junk)

/-- The function `xmalloc(n)` (declared in `extern.h`): a fresh block of `n`
bytes, or the end of the program when there is no memory. -/
def xmalloc (a : Alloc) (n : Nat) : Res (List Byte) :=
  match a with
  | Alloc.fail => Res.fault Fault.nomem
  | Alloc.grant junk => Res.ok ((List.range n).map junk)

/-- The library call `memcpy(dst + off, src, n)`: the storage behind `dst`
after the call. The `n` bytes read and the `n` bytes written must lie in
allocated storage. -/
def memcpy (dst : Option (List Byte)) (off : Nat) (src : Option (List Byte)) (n : Nat) :
    Res (Option (List Byte)) :=
  if off + n ≤ (block dst).length ∧ n ≤ (block src).length then
    Res.ok (dst.map fun blk => blk.take off ++ (block src).take n ++ blk.drop (off + n))
  else Res.fault Fault.bounds

/-- The assignment `p[off] = c`: the storage behind `p` after it. -/
def store (p : Option (List Byte)) (off : Nat) (c : Byte) : Res (Option (List Byte)) :=
  if off < (block p).length then Res.ok (p.map fun blk => blk.set off c)
  else Res.fault Fault.bounds

/-- Lexicographic comparison of two byte sequences as `memcmp` does it. -/
def memcmp_bytes : List Byte → List Byte → Int
  | x :: xs, y :: ys => if x < y then -1 else if y < x then 1 else memcmp_bytes xs ys
  | _, _ => 0

/-- The library call `memcmp(p, q, n)`; it reads `n` bytes of both blocks. -/
def memcmp (p q : Option (List Byte)) (n : Nat) : Res Int :=
  if n ≤ (block p).length ∧ n ≤ (block q).length then
    Res.ok (memcmp_bytes ((block p).take n) ((block q).take n))
  else Res.fault Fault.bounds

/-- The library call `strlen(s)` on the bytes `s` points to: the number of
bytes before the first NUL; reading past the block is a fault. -/
def strlen : List Byte → Res Nat
  | [] => Res.fault Fault.bounds
  | c :: cs =>
    if c = 0 then Res.ok 0
    else
      match strlen cs with
      | Res.ok n => Res.ok (n + 1)
      | Res.fault f => Res.fault f

/-- The subtraction `a - b` of two `size_t` values: it wraps around modulo
`2 ^ 64` when `b` exceeds `a`. -/
def size_sub (a b : Nat) : Nat := if b ≤ a then a - b else 2 ^ 64 - (b - a)

/-- The static function `hbuf_init`. -/
def hbuf_init (unit : Nat) (buffer_free : Int) : lowdown_buf :=
  { data := none, size := 0, maxsize := 0, unit := unit, buffer_free := buffer_free }

/-- The loop `while (neoasz < neosz) neoasz += buf->unit;` of `hbuf_grow` with
the sums taken over the unbounded naturals, run for at most `fuel` executions
of its body: `none` when it is still running. It is the loop of the code as
long as `neosz + unit <= 2 ^ 64`; `hbuf_grow_loop64` is the loop with the sums
of a 64-bit machine. -/
def hbuf_grow_loop (unit neosz : Nat) : Nat → Nat → Option Nat
  | 0, neoasz => if neoasz < neosz then none else some neoasz
  | fuel + 1, neoasz =>
    if neoasz < neosz then hbuf_grow_loop unit neosz fuel (neoasz + unit) else some neoasz

/-- The value of `neoasz` that `hbuf_grow` passes to `realloc` when no sum
reaches `2 ^ 64` (`hbuf_grow_neoasz64` is the value on a 64-bit machine, with
the sums that wrap). With a positive `unit` the loop body runs fewer than
`neosz` times, so `neosz` is enough fuel; with `unit = 0` the loop never ends
(`hbuf_grow_neoasz_complete`, `hbuf_grow_loop_zero`). -/
def hbuf_grow_neoasz (buf : lowdown_buf) (neosz : Nat) : Option Nat :=
  hbuf_grow_loop buf.unit neosz neosz (buf.maxsize + buf.unit)

/-- The function `hbuf_grow` with the sums of its loop over the unbounded
naturals: the returned `int` and the new `*buf`. It is `hbuf_grow64`, the
function on a 64-bit machine, when `neosz <= maxsize` or
`neosz + unit <= 2 ^ 64` (`hbuf_grow64_eq`). -/
def hbuf_grow (a : Alloc) (buf : lowdown_buf) (neosz : Nat) : Res (Int × lowdown_buf) :=
  if buf.maxsize ≥ neosz then Res.ok (1, buf)
  else
    match hbuf_grow_neoasz buf neosz with
    | none => Res.fault Fault.hang
    | some neoasz =>
      match realloc a buf.data neoasz with
      | none => Res.ok (0, buf)
      | some pp => Res.ok (1, { buf with data := some pp, maxsize := neoasz })

/-- A statement `hbuf_grow(buf, neosz);` whose returned value is not looked at. -/
def hbuf_grow_drop (a : Alloc) (buf : lowdown_buf) (neosz : Nat) : Res lowdown_buf :=
  match hbuf_grow a buf neosz with
  | Res.ok (_, buf1) => Res.ok buf1
  | Res.fault f => Res.fault f

/-- The function `hbuf_clone`: the values of `*buf` and `*v` after the call
(two distinct objects; `buf` is only read). -/
def hbuf_clone (a : Alloc) (buf v : lowdown_buf) : Res (lowdown_buf × lowdown_buf) :=
  match
    (if buf.size ≠ 0 then
      match xmalloc a buf.size with
      | Res.fault f => Res.fault f
      | Res.ok blk => memcpy (some blk) 0 buf.data buf.size
    else Res.ok none) with
  | Res.fault f => Res.fault f
  | Res.ok d =>
    Res.ok (buf, { v with data := d, size := buf.size, maxsize := buf.maxsize,
                          unit := buf.unit, buffer_free := buf.buffer_free })

/-- The function `hbuf_truncate`. -/
def hbuf_truncate (buf : lowdown_buf) : lowdown_buf := { buf with size := 0 }

/-- The function `hbuf_streq`; `buf2` is the block the string pointer refers to. -/
def hbuf_streq (buf1 : lowdown_buf) (buf2 : List Byte) : Res Int :=
  match strlen buf2 with
  | Res.fault f => Res.fault f
  | Res.ok sz =>
    if buf1.size = sz then
      match memcmp buf1.data (some buf2) sz with
      | Res.fault f => Res.fault f
      | Res.ok r => Res.ok (if r = 0 then 1 else 0)
    else Res.ok 0

/-- The function `hbuf_strprefix`. -/
def hbuf_strprefix (buf1 : lowdown_buf) (buf2 : List Byte) : Res Int :=
  match strlen buf2 with
  | Res.fault f => Res.fault f
  | Res.ok sz =>
    if buf1.size ≥ sz then
      match memcmp buf1.data (some buf2) sz with
      | Res.fault f => Res.fault f
      | Res.ok r => Res.ok (if r = 0 then 1 else 0)
    else Res.ok 0

/-- The function `hbuf_eq`. -/
def hbuf_eq (buf1 buf2 : lowdown_buf) : Res Int :=
  if buf1.size = buf2.size then
    match memcmp buf1.data buf2.data buf1.size with
    | Res.fault f => Res.fault f
    | Res.ok r => Res.ok (if r = 0 then 1 else 0)
  else Res.ok 0

/-- The function `hbuf_new`: NULL when `malloc` fails. -/
def hbuf_new (a : Alloc) (unit : Nat) : Option lowdown_buf :=
  match a with
  | Alloc.fail => none
  | Alloc.grant _ => some (hbuf_init unit 1)

/-- The function `hbuf_put` with `buf->size + size` over the unbounded naturals;
`data` is the block the source pointer refers to. It is `hbuf_put64` when
`size + n + unit <= 2 ^ 64` (`hbuf_put64_eq`). -/
def hbuf_put (a : Alloc) (buf : lowdown_buf) (data : Option (List Byte)) (size : Nat) :
    Res lowdown_buf :=
  if buf.unit = 0 then Res.fault Fault.assertion
  else if data = none ∨ size = 0 then Res.ok buf
  else
    match
      (if buf.size + size > buf.maxsize then hbuf_grow_drop a buf (buf.size + size)
       else Res.ok buf) with
    | Res.fault f => Res.fault f
    | Res.ok buf1 =>
      match memcpy buf1.data buf1.size data size with
      | Res.fault f => Res.fault f
      | Res.ok d => Res.ok { buf1 with data := d, size := buf1.size + size }

/-- The function `hbuf_putb`. -/
def hbuf_putb (a : Alloc) (buf b : lowdown_buf) : Res lowdown_buf :=
  hbuf_put a buf b.data b.size

/-- The function `hbuf_puts`; `str` is the string pointer (`none` for NULL). -/
def hbuf_puts (a : Alloc) (buf : lowdown_buf) (str : Option (List Byte)) : Res lowdown_buf :=
  match str with
  | none => Res.fault Fault.assertion
  | some s =>
    match strlen s with
    | Res.fault f => Res.fault f
    | Res.ok n => hbuf_put a buf (some s) n

/-- The function `hbuf_putc` with `size + 1` over the unbounded naturals. It is
`hbuf_putc64` when `size + 1 + unit <= 2 ^ 64` (`hbuf_putc64_eq`). -/
def hbuf_putc (a : Alloc) (buf : lowdown_buf) (c : Byte) : Res lowdown_buf :=
  if buf.unit = 0 then Res.fault Fault.assertion
  else
    match
      (if buf.size ≥ buf.maxsize then hbuf_grow_drop a buf (buf.size + 1)
       else Res.ok buf) with
    | Res.fault f => Res.fault f
    | Res.ok buf1 =>
      match store buf1.data buf1.size c with
      | Res.fault f => Res.fault f
      | Res.ok d => Res.ok { buf1 with data := d, size := buf1.size + 1 }

/-- The library call `vsnprintf(dst + off, avail, fmt, ap)` where `out` is the
text the format expands to: the returned `int` and the storage behind `dst`.
It writes the first `min n (avail - 1)` bytes of the text and a NUL, nothing
at all when `avail` is zero, and returns the full length `n`. The value `none`
stands for a conversion that fails before a byte is stored; a conversion that
fails after it has stored bytes is covered by `vsnprintf_fmt`. -/
def vsnprintf (dst : Option (List Byte)) (off avail : Nat) (out : Option (List Byte)) :
    Res (Int × Option (List Byte)) :=
  match out with
  | none => Res.ok (-1, dst)
  | some f =>
    if avail = 0 then Res.ok (f.length, dst)
    else if off + min f.length (avail - 1) + 1 ≤ (block dst).length then
      Res.ok (f.length, dst.map fun blk =>
        blk.take off ++ f.take (min f.length (avail - 1)) ++ [0] ++
          blk.drop (off + min f.length (avail - 1) + 1))
    else Res.fault Fault.bounds

/-- The function `hbuf_printf` with its sums over the unbounded naturals; `a1`
and `a2` are the outcomes of the allocator for its first and second call of
`hbuf_grow`. The function `hbuf_printf64` has the sums of a 64-bit machine and
every outcome of the conversion; on a text the two agree when
`size + n + 1 + unit <= 2 ^ 64` (`hbuf_printf64_eq`). -/
def hbuf_printf (a1 a2 : Alloc) (buf : lowdown_buf) (out : Option (List Byte)) :
    Res lowdown_buf :=
  if buf.unit = 0 then Res.fault Fault.assertion
  else
    match
      (if buf.size ≥ buf.maxsize then hbuf_grow_drop a1 buf (buf.size + 1)
       else Res.ok buf) with
    | Res.fault f => Res.fault f
    | Res.ok buf1 =>
      match vsnprintf buf1.data buf1.size (size_sub buf1.maxsize buf1.size) out with
      | Res.fault f => Res.fault f
      | Res.ok (n, d1) =>
        if n < 0 then Res.ok { buf1 with data := d1 }
        else if n.toNat ≥ size_sub buf1.maxsize buf1.size then
          match hbuf_grow_drop a2 { buf1 with data := d1 } (buf1.size + n.toNat + 1) with
          | Res.fault f => Res.fault f
          | Res.ok buf2 =>
            match vsnprintf buf2.data buf2.size (size_sub buf2.maxsize buf2.size) out with
            | Res.fault f => Res.fault f
            | Res.ok (n2, d2) =>
              if n2 < 0 then Res.ok { buf2 with data := d2 }
              else Res.ok { buf2 with data := d2, size := buf2.size + n2.toNat }
        else Res.ok { buf1 with data := d1, size := buf1.size + n.toNat }

/-- The state of a `FILE` open for reading: the bytes not read yet, whether
running out of bytes is a read error (`fails`) or the end of the file, and the
two indicators that `feof` and `ferror` test. -/
structure FILE where
  rest : List Byte
  fails : Bool
  eof : Bool
  err : Bool
deriving DecidableEq

/-- A fresh stream that delivers the bytes `s` and then reports the end of
the input, or an error when `fails` is set. -/
def stream (s : List Byte) (fails : Bool) : FILE :=
  { rest := s, fails := fails, eof := false, err := false }

/-- The library call `feof(file)`. -/
def feof (file : FILE) : Bool := file.eof

/-- The library call `ferror(file)`. -/
def ferror (file : FILE) : Bool := file.err

/-- The library call `fread(dst + off, 1, n, file)`: the number of bytes read,
the storage behind `dst` and the stream afterwards. It reads `n` bytes unless
the stream runs out first, and then sets the end-of-file or error indicator. -/
def fread (dst : Option (List Byte)) (off n : Nat) (file : FILE) :
    Res (Nat × Option (List Byte) × FILE) :=
  if off + min n file.rest.length ≤ (block dst).length then
    Res.ok (min n file.rest.length,
      dst.map (fun blk =>
        blk.take off ++ file.rest.take (min n file.rest.length) ++
          blk.drop (off + min n file.rest.length)),
      { file with
        rest := file.rest.drop (min n file.rest.length)
        eof := file.eof || (decide (file.rest.length < n) && !file.fails)
        err := file.err || (decide (file.rest.length < n) && file.fails) })
  else Res.fault Fault.bounds

/-- What a call of `hbuf_putf` leaves behind: the returned `int`, `*buf`, the
stream, and the values its calls of `hbuf_grow` returned, in order. -/
structure putf_run where
  ret : Int
  buf : lowdown_buf
  file : FILE
  grows : List Int
deriving DecidableEq

/-- The loop of `hbuf_putf` followed by its `return`, with the sums
`size + unit` and `size += ...` over the unbounded naturals, run for at most
`fuel` executions of the loop body; `alloc i` is the outcome of the allocator
in the execution number `i`. It is `hbuf_putf_loop64`, the loop on a 64-bit
machine, when `size + (bytes not read yet) + 2 * unit <= 2 ^ 64`
(`hbuf_putf_loop64_eq`). -/
def hbuf_putf_loop (alloc : Nat → Alloc) : Nat → Nat → lowdown_buf → FILE → Res putf_run
  | 0, _, buf, file =>
    if feof file || ferror file then
      Res.ok { ret := if ferror file then 0 else 1, buf := buf, file := file, grows := [] }
    else Res.fault Fault.hang
  | fuel + 1, i, buf, file =>
    if feof file || ferror file then
      Res.ok { ret := if ferror file then 0 else 1, buf := buf, file := file, grows := [] }
    else
      match hbuf_grow (alloc i) buf (buf.size + buf.unit) with
      | Res.fault f => Res.fault f
      | Res.ok (r, buf1) =>
        if r = 0 then Res.ok { ret := 0, buf := buf1, file := file, grows := [r] }
        else
          match fread buf1.data buf1.size buf1.unit file with
          | Res.fault f => Res.fault f
          | Res.ok (k, d, file1) =>
            match hbuf_putf_loop alloc fuel (i + 1)
                { buf1 with data := d, size := buf1.size + k } file1 with
            | Res.fault f => Res.fault f
            | Res.ok run => Res.ok { run with grows := r :: run.grows }

/-- The function `hbuf_putf` over the loop above. Every execution of the loop
body with a positive unit consumes a byte or sets an indicator, so one more
than the number of unread bytes is enough fuel. -/
def hbuf_putf (alloc : Nat → Alloc) (buf : lowdown_buf) (file : FILE) : Res putf_run :=
  if buf.unit = 0 then Res.fault Fault.assertion
  else hbuf_putf_loop alloc (file.rest.length + 1) 0 buf file

/-- The addition `a + b` of two `size_t` values on a 64-bit machine: the sum
modulo `2 ^ 64`, and whether it wrapped around. -/
def size_add (a b : Nat) : Nat × Bool := ((a + b) % 2 ^ 64, decide (2 ^ 64 ≤ a + b))

/-- The loop of `hbuf_grow` with 64-bit additions, run for at most `fuel`
executions of its body: the value reached and whether an addition wrapped
around so far (`w`), or `none` when it is still running. -/
def hbuf_grow_loop64 (unit neosz : Nat) : Nat → Nat → Bool → Option (Nat × Bool)
  | 0, neoasz, w => if neoasz < neosz then none else some (neoasz, w)
  | fuel + 1, neoasz, w =>
    if neoasz < neosz then
      hbuf_grow_loop64 unit neosz fuel (size_add neoasz unit).1 (w || (size_add neoasz unit).2)
    else some (neoasz, w)

/-- The statement `neoasz = buf->maxsize + buf->unit;` and the loop of
`hbuf_grow` with 64-bit additions. -/
def hbuf_grow_neoasz64 (buf : lowdown_buf) (neosz fuel : Nat) : Option (Nat × Bool) :=
  hbuf_grow_loop64 buf.unit neosz fuel (size_add buf.maxsize buf.unit).1
    (size_add buf.maxsize buf.unit).2

/-- Two buffers that agree on `size`, `maxsize`, `unit`, the amount of storage
and every byte below `size`; the bytes from `size` on may differ. -/
def same_below_size (b1 b2 : lowdown_buf) : Prop :=
  b1.size = b2.size ∧ b1.maxsize = b2.maxsize ∧ b1.unit = b2.unit ∧
  allocated b1 = allocated b2 ∧ content b1 = content b2

instance (b1 b2 : lowdown_buf) : Decidable (same_below_size b1 b2) := by
  unfold same_below_size
  infer_instance

/-- What a reader of a buffer sees: its size and the bytes below it. -/
def view (b : lowdown_buf) : Nat × List Byte := (b.size, content b)

/-- The outcome of a call with `f` applied to the value returned. -/
def Res.map {α β : Type} (f : α → β) : Res α → Res β
  | Res.ok a => Res.ok (f a)
  | Res.fault e => Res.fault e

/-- The capacity of `buf2` is the capacity of `buf` plus a whole number of
growth units, and the unit is the same. -/
def grown_by_units (buf buf2 : lowdown_buf) : Prop :=
  buf2.unit = buf.unit ∧ ∃ k, buf2.maxsize = buf.maxsize + k * buf.unit

/-- The function `hbuf_grow` with the `size_t` sums of its loop taken modulo
`2 ^ 64`, as a 64-bit machine forms them. The loop runs through at most
`2 ^ 64` different values, so `2 ^ 64` is enough fuel for every run that ends
(`hbuf_grow_neoasz64_complete`); without an end the call never returns. -/
def hbuf_grow64 (a : Alloc) (buf : lowdown_buf) (neosz : Nat) : Res (Int × lowdown_buf) :=
  if buf.maxsize ≥ neosz then Res.ok (1, buf)
  else
    match hbuf_grow_neoasz64 buf neosz (2 ^ 64) with
    | none => Res.fault Fault.hang
    | some (neoasz, _) =>
      match realloc a buf.data neoasz with
      | none => Res.ok (0, buf)
      | some pp => Res.ok (1, { buf with data := some pp, maxsize := neoasz })

/-- A statement `hbuf_grow(buf, neosz);` on the 64-bit machine whose returned
value is not looked at. -/
def hbuf_grow_drop64 (a : Alloc) (buf : lowdown_buf) (neosz : Nat) : Res lowdown_buf :=
  match hbuf_grow64 a buf neosz with
  | Res.ok (_, buf1) => Res.ok buf1
  | Res.fault f => Res.fault f

/-- The function `hbuf_put` with every `size_t` sum taken modulo `2 ^ 64`. -/
def hbuf_put64 (a : Alloc) (buf : lowdown_buf) (data : Option (List Byte)) (size : Nat) :
    Res lowdown_buf :=
  if buf.unit = 0 then Res.fault Fault.assertion
  else if data = none ∨ size = 0 then Res.ok buf
  else
    match
      (if (size_add buf.size size).1 > buf.maxsize then
        hbuf_grow_drop64 a buf (size_add buf.size size).1
       else Res.ok buf) with
    | Res.fault f => Res.fault f
    | Res.ok buf1 =>
      match memcpy buf1.data buf1.size data size with
      | Res.fault f => Res.fault f
      | Res.ok d => Res.ok { buf1 with data := d, size := (size_add buf1.size size).1 }

/-- The function `hbuf_putb` on the 64-bit machine. -/
def hbuf_putb64 (a : Alloc) (buf b : lowdown_buf) : Res lowdown_buf :=
  hbuf_put64 a buf b.data b.size

/-- The function `hbuf_puts` on the 64-bit machine. -/
def hbuf_puts64 (a : Alloc) (buf : lowdown_buf) (str : Option (List Byte)) : Res lowdown_buf :=
  match str with
  | none => Res.fault Fault.assertion
  | some s =>
    match strlen s with
    | Res.fault f => Res.fault f
    | Res.ok n => hbuf_put64 a buf (some s) n

/-- The function `hbuf_putc` with every `size_t` sum taken modulo `2 ^ 64`. -/
def hbuf_putc64 (a : Alloc) (buf : lowdown_buf) (c : Byte) : Res lowdown_buf :=
  if buf.unit = 0 then Res.fault Fault.assertion
  else
    match
      (if buf.size ≥ buf.maxsize then hbuf_grow_drop64 a buf (size_add buf.size 1).1
       else Res.ok buf) with
    | Res.fault f => Res.fault f
    | Res.ok buf1 =>
      match store buf1.data buf1.size c with
      | Res.fault f => Res.fault f
      | Res.ok d => Res.ok { buf1 with data := d, size := (size_add buf1.size 1).1 }

/-- The loop of `hbuf_putf` and its `return` with every `size_t` sum taken
modulo `2 ^ 64`, run for at most `fuel` executions of the loop body. -/
def hbuf_putf_loop64 (alloc : Nat → Alloc) : Nat → Nat → lowdown_buf → FILE → Res putf_run
  | 0, _, buf, file =>
    if feof file || ferror file then
      Res.ok { ret := if ferror file then 0 else 1, buf := buf, file := file, grows := [] }
    else Res.fault Fault.hang
  | fuel + 1, i, buf, file =>
    if feof file || ferror file then
      Res.ok { ret := if ferror file then 0 else 1, buf := buf, file := file, grows := [] }
    else
      match hbuf_grow64 (alloc i) buf (size_add buf.size buf.unit).1 with
      | Res.fault f => Res.fault f
      | Res.ok (r, buf1) =>
        if r = 0 then Res.ok { ret := 0, buf := buf1, file := file, grows := [r] }
        else
          match fread buf1.data buf1.size buf1.unit file with
          | Res.fault f => Res.fault f
          | Res.ok (k, d, file1) =>
            match hbuf_putf_loop64 alloc fuel (i + 1)
                { buf1 with data := d, size := (size_add buf1.size k).1 } file1 with
            | Res.fault f => Res.fault f
            | Res.ok run => Res.ok { run with grows := r :: run.grows }

/-- The function `hbuf_putf` on the 64-bit machine. As for `hbuf_putf`, one
more than the number of unread bytes is enough fuel. -/
def hbuf_putf64 (alloc : Nat → Alloc) (buf : lowdown_buf) (file : FILE) : Res putf_run :=
  if buf.unit = 0 then Res.fault Fault.assertion
  else hbuf_putf_loop64 alloc (file.rest.length + 1) 0 buf file

/-- What a format and its arguments expand to: a text, or a conversion error
after some bytes have been produced. -/
inductive Fmt where
  | text (f : List Byte)
  | error (produced : List Byte)

/-- The length of the text of a format that expands without error. -/
def Fmt.length : Fmt → Nat
  | Fmt.text f => f.length
  | Fmt.error _ => 0

/-- The library call `vsnprintf(dst + off, avail, fmt, ap)` with the outcome of
the conversion given by `out`. A text is handled as by `vsnprintf` above; on
a conversion error the call returns -1 and the bytes produced before the
error, cut to `avail`, are in the array. -/
def vsnprintf_fmt (dst : Option (List Byte)) (off avail : Nat) :
    Fmt → Res (Int × Option (List Byte))
  | Fmt.text f => vsnprintf dst off avail (some f)
  | Fmt.error p =>
    if off + min p.length avail ≤ (block dst).length then
      Res.ok (-1, dst.map fun blk =>
        blk.take off ++ p.take (min p.length avail) ++ blk.drop (off + min p.length avail))
    else Res.fault Fault.bounds

/-- The function `hbuf_printf` with every `size_t` sum taken modulo `2 ^ 64`
and the conversion outcome given by `out`. -/
def hbuf_printf64 (a1 a2 : Alloc) (buf : lowdown_buf) (out : Fmt) : Res lowdown_buf :=
  if buf.unit = 0 then Res.fault Fault.assertion
  else
    match
      (if buf.size ≥ buf.maxsize then hbuf_grow_drop64 a1 buf (size_add buf.size 1).1
       else Res.ok buf) with
    | Res.fault f => Res.fault f
    | Res.ok buf1 =>
      match vsnprintf_fmt buf1.data buf1.size (size_sub buf1.maxsize buf1.size) out with
      | Res.fault f => Res.fault f
      | Res.ok (n, d1) =>
        if n < 0 then Res.ok { buf1 with data := d1 }
        else if n.toNat ≥ size_sub buf1.maxsize buf1.size then
          match hbuf_grow_drop64 a2 { buf1 with data := d1 }
              (size_add (size_add buf1.size n.toNat).1 1).1 with
          | Res.fault f => Res.fault f
          | Res.ok buf2 =>
            match vsnprintf_fmt buf2.data buf2.size (size_sub buf2.maxsize buf2.size) out with
            | Res.fault f => Res.fault f
            | Res.ok (n2, d2) =>
              if n2 < 0 then Res.ok { buf2 with data := d2 }
              else Res.ok { buf2 with data := d2, size := (size_add buf2.size n2.toNat).1 }
        else Res.ok { buf1 with data := d1, size := (size_add buf1.size n.toNat).1 }

/-- Follows the spec's words (growth, "closed-form arithmetic"): the capacity
`capacity + k * growthUnit` with `k = ceil((target - capacity) / growthUnit)`. -/
def ensureCapacity_closed_form (capacity growthUnit target : Nat) : Nat :=
  capacity + ((target - capacity + growthUnit - 1) / growthUnit) * growthUnit

/-! ## The growth loop -/

theorem hbuf_grow_loop_spec (unit neosz : Nat) :
    ∀ fuel neoasz, neosz ≤ neoasz + fuel * unit →
      ∃ j, j ≤ fuel ∧ hbuf_grow_loop unit neosz fuel neoasz = some (neoasz + j * unit) ∧
        neosz ≤ neoasz + j * unit ∧ ∀ i, i < j → neoasz + i * unit < neosz := by
  intro fuel
  induction fuel with
  | zero =>
    intro neoasz h
    refine ⟨0, le_refl 0, ?_, by omega, by intro i hi; omega⟩
    have h0 : ¬ neoasz < neosz := by omega
    simp [hbuf_grow_loop, h0]
  | succ fuel ih =>
    intro neoasz h
    by_cases hlt : neoasz < neosz
    · have hstep : neosz ≤ (neoasz + unit) + fuel * unit := by
        have e : (fuel + 1) * unit = fuel * unit + unit := Nat.succ_mul fuel unit
        omega
      obtain ⟨j, hj, hrun, hge, hmin⟩ := ih (neoasz + unit) hstep
      have e : (j + 1) * unit = j * unit + unit := Nat.succ_mul j unit
      refine ⟨j + 1, by omega, ?_, by omega, ?_⟩
      · simp only [hbuf_grow_loop, hlt, if_true]
        rw [hrun]
        congr 1
        omega
      · intro i hi
        cases i with
        | zero => simpa using hlt
        | succ i =>
          have := hmin i (by omega)
          have e2 : (i + 1) * unit = i * unit + unit := Nat.succ_mul i unit
          omega
    · refine ⟨0, by omega, ?_, by omega, by intro i hi; omega⟩
      simp [hbuf_grow_loop, hlt]

/-- More fuel does not change a result the loop has reached. -/
theorem hbuf_grow_loop_fuel (unit neosz : Nat) :
    ∀ fuel fuel2 neoasz r, fuel ≤ fuel2 → hbuf_grow_loop unit neosz fuel neoasz = some r →
      hbuf_grow_loop unit neosz fuel2 neoasz = some r := by
  intro fuel
  induction fuel with
  | zero =>
    intro fuel2 neoasz r _ h
    by_cases hlt : neoasz < neosz
    · simp [hbuf_grow_loop, hlt] at h
    · cases fuel2 <;> simpa [hbuf_grow_loop, hlt] using h
  | succ fuel ih =>
    intro fuel2 neoasz r hle h
    cases fuel2 with
    | zero => omega
    | succ fuel2 =>
      by_cases hlt : neoasz < neosz
      · simp only [hbuf_grow_loop, hlt, if_true] at h ⊢
        exact ih fuel2 _ r (by omega) h
      · simpa [hbuf_grow_loop, hlt] using h

/-- With `unit = 0` and a capacity below the target the loop runs for ever:
no amount of fuel lets it finish. -/
theorem hbuf_grow_loop_zero (neosz : Nat) :
    ∀ fuel neoasz, neoasz < neosz → hbuf_grow_loop 0 neosz fuel neoasz = none := by
  intro fuel
  induction fuel with
  | zero => intro neoasz h; simp [hbuf_grow_loop, h]
  | succ fuel ih =>
    intro neoasz h
    simp only [hbuf_grow_loop, h, if_true, Nat.add_zero]
    exact ih neoasz h

/-- What the loop of `hbuf_grow` computes when it is entered. -/
theorem hbuf_grow_neoasz_spec (buf : lowdown_buf) (neosz : Nat) (hu : 0 < buf.unit)
    (hlt : buf.maxsize < neosz) :
    ∃ k, 1 ≤ k ∧ hbuf_grow_neoasz buf neosz = some (buf.maxsize + k * buf.unit) ∧
      neosz ≤ buf.maxsize + k * buf.unit ∧ buf.maxsize + (k - 1) * buf.unit < neosz := by
  have hfuel : neosz ≤ (buf.maxsize + buf.unit) + neosz * buf.unit := by
    have : neosz * 1 ≤ neosz * buf.unit := Nat.mul_le_mul_left neosz hu
    omega
  obtain ⟨j, _, hrun, hge, hmin⟩ := hbuf_grow_loop_spec buf.unit neosz neosz _ hfuel
  have e : (j + 1) * buf.unit = j * buf.unit + buf.unit := Nat.succ_mul j buf.unit
  refine ⟨j + 1, by omega, ?_, by omega, ?_⟩
  · unfold hbuf_grow_neoasz
    rw [hrun]
    congr 1
    omega
  · cases j with
    | zero => simpa using hlt
    | succ j =>
      have := hmin j (by omega)
      have e2 : (j + 1) * buf.unit = j * buf.unit + buf.unit := Nat.succ_mul j buf.unit
      simp only [Nat.add_sub_cancel]
      omega

/-- The fuel inside `hbuf_grow_neoasz` never cuts a run short: whatever the
loop returns with some amount of fuel is what `hbuf_grow_neoasz` returns. -/
theorem hbuf_grow_neoasz_complete (buf : lowdown_buf) (neosz fuel r : Nat)
    (h : hbuf_grow_loop buf.unit neosz fuel (buf.maxsize + buf.unit) = some r) :
    hbuf_grow_neoasz buf neosz = some r := by
  have hup := hbuf_grow_loop_fuel buf.unit neosz fuel (max fuel neosz) _ r (le_max_left _ _) h
  by_cases hlt : buf.maxsize + buf.unit < neosz
  · by_cases hu : buf.unit = 0
    · rw [hu] at h hlt
      rw [hbuf_grow_loop_zero neosz fuel _ hlt] at h
      cases h
    · obtain ⟨k, _, hrun, _, _⟩ :=
        hbuf_grow_neoasz_spec buf neosz (Nat.pos_of_ne_zero hu) (by omega)
      have hup2 := hbuf_grow_loop_fuel buf.unit neosz neosz (max fuel neosz) _ _
        (le_max_right _ _) hrun
      rw [hup] at hup2
      rw [hrun, hup2]
  · unfold hbuf_grow_neoasz
    have hr : r = buf.maxsize + buf.unit := by
      cases fuel <;> simp [hbuf_grow_loop, hlt] at h <;> exact h.symm
    rw [hr]
    cases neosz <;> simp [hbuf_grow_loop, hlt]

/-- The three ways `hbuf_grow` returns when `unit` is positive. -/
theorem hbuf_grow_cases (a : Alloc) (buf : lowdown_buf) (neosz : Nat) (hu : 0 < buf.unit) :
    (neosz ≤ buf.maxsize ∧ hbuf_grow a buf neosz = Res.ok (1, buf)) ∨
    (buf.maxsize < neosz ∧ ∃ k, 1 ≤ k ∧ neosz ≤ buf.maxsize + k * buf.unit ∧
      buf.maxsize + (k - 1) * buf.unit < neosz ∧
      hbuf_grow_neoasz buf neosz = some (buf.maxsize + k * buf.unit) ∧
      ((a = Alloc.fail ∧ hbuf_grow a buf neosz = Res.ok (0, buf)) ∨
       (∃ junk, a = Alloc.grant junk ∧
          hbuf_grow a buf neosz = Res.ok (1,
            { buf with
              data := realloc (Alloc.grant junk) buf.data (buf.maxsize + k * buf.unit)
              maxsize := buf.maxsize + k * buf.unit })))) := by
  by_cases hle : neosz ≤ buf.maxsize
  · left
    exact ⟨hle, by simp [hbuf_grow, hle]⟩
  · right
    have hlt : buf.maxsize < neosz := by omega
    obtain ⟨k, hk, hrun, hge, hprev⟩ := hbuf_grow_neoasz_spec buf neosz hu hlt
    refine ⟨hlt, k, hk, hge, hprev, hrun, ?_⟩
    cases a with
    | fail =>
      left
      refine ⟨rfl, ?_⟩
      simp [hbuf_grow, hle, hrun, realloc]
    | grant junk =>
      right
      refine ⟨junk, rfl, ?_⟩
      simp [hbuf_grow, hle, hrun, realloc]

/-- A value the loop returns is at least the target. -/
theorem hbuf_grow_loop_ge (unit neosz : Nat) :
    ∀ fuel neoasz r, hbuf_grow_loop unit neosz fuel neoasz = some r → neosz ≤ r := by
  intro fuel
  induction fuel with
  | zero =>
    intro neoasz r h
    by_cases hlt : neoasz < neosz
    · simp [hbuf_grow_loop, hlt] at h
    · simp [hbuf_grow_loop, hlt] at h
      omega
  | succ fuel ih =>
    intro neoasz r h
    by_cases hlt : neoasz < neosz
    · simp only [hbuf_grow_loop, hlt, if_true] at h
      exact ih _ r h
    · simp [hbuf_grow_loop, hlt] at h
      omega

/-- The old bytes survive a successful `realloc` to a size that covers them. -/
theorem realloc_getElem (junk : Nat → Byte) (p : Option (List Byte)) (n i : Nat) (c : Byte)
    (hi : i < n) (hc : (block p)[i]? = some c) :
    ∃ pp, realloc (Alloc.grant junk) p n = some pp ∧ pp[i]? = some c := by
  refine ⟨_, rfl, ?_⟩
  have hlen : i < (block p).length := by
    rcases Nat.lt_or_ge i (block p).length with h | h
    · exact h
    · rw [List.getElem?_eq_none h] at hc
      cases hc
  rw [List.getElem?_append_left (by simp; omega)]
  rw [List.getElem?_take_of_lt hi]
  exact hc

/-- A successful `realloc` keeps the first `m` bytes when both the old and the
new block hold them. -/
theorem realloc_take (junk : Nat → Byte) (p : Option (List Byte)) (n m : Nat)
    (hn : m ≤ n) (hm : m ≤ (block p).length) :
    ∃ pp, realloc (Alloc.grant junk) p n = some pp ∧ pp.length = n ∧
      pp.take m = (block p).take m := by
  refine ⟨_, rfl, ?_, ?_⟩
  · simp
    omega
  · rw [List.take_append_of_le_length (by simp; omega)]
    rw [List.take_take]
    congr 1
    omega

/-! ## Claims about `hbuf_grow` -/

/-- C2: when the loop of `hbuf_grow` is entered with a positive unit, the
capacity it reaches is the closed form `maxsize + ceil((target - maxsize) / unit) * unit`,
which is the least `maxsize + k * unit` with `k ≥ 1` that is at least the
target; this is the `maxsize` a successful `hbuf_grow` records. -/
theorem hbuf_grow_loop_closed_form (buf : lowdown_buf) (neosz : Nat) (hu : 0 < buf.unit)
    (hlt : buf.maxsize < neosz) :
    hbuf_grow_neoasz buf neosz =
      some (ensureCapacity_closed_form buf.maxsize buf.unit neosz) ∧
    neosz ≤ ensureCapacity_closed_form buf.maxsize buf.unit neosz ∧
    (∃ k, 1 ≤ k ∧
      ensureCapacity_closed_form buf.maxsize buf.unit neosz = buf.maxsize + k * buf.unit) ∧
    (∀ k, 1 ≤ k → neosz ≤ buf.maxsize + k * buf.unit →
      ensureCapacity_closed_form buf.maxsize buf.unit neosz ≤ buf.maxsize + k * buf.unit) ∧
    (∀ junk, ∃ pp, hbuf_grow (Alloc.grant junk) buf neosz =
      Res.ok (1, { buf with
        data := some pp
        maxsize := ensureCapacity_closed_form buf.maxsize buf.unit neosz })) := by
  obtain ⟨k, hk, hrun, hge, hprev⟩ := hbuf_grow_neoasz_spec buf neosz hu hlt
  obtain ⟨j, rfl⟩ : ∃ j, k = j + 1 := ⟨k - 1, by omega⟩
  simp only [Nat.add_sub_cancel] at hprev
  have e : (j + 1) * buf.unit = j * buf.unit + buf.unit := Nat.succ_mul j buf.unit
  have hdiv : (neosz - buf.maxsize + buf.unit - 1) / buf.unit = j + 1 := by
    apply Nat.div_eq_of_lt_le
    · omega
    · have e2 : (j + 1 + 1) * buf.unit = (j + 1) * buf.unit + buf.unit :=
        Nat.succ_mul (j + 1) buf.unit
      omega
  have hcf : ensureCapacity_closed_form buf.maxsize buf.unit neosz =
      buf.maxsize + (j + 1) * buf.unit := by
    unfold ensureCapacity_closed_form
    rw [hdiv]
  rw [hcf]
  refine ⟨hrun, hge, ⟨j + 1, hk, rfl⟩, ?_, ?_⟩
  · intro k2 hk2 hge2
    have hjk : j + 1 ≤ k2 := by
      by_contra hcon
      have hk2j : k2 ≤ j := by omega
      have : k2 * buf.unit ≤ j * buf.unit := Nat.mul_le_mul_right _ hk2j
      omega
    have : (j + 1) * buf.unit ≤ k2 * buf.unit := Nat.mul_le_mul_right _ hjk
    omega
  · intro junk
    have hnle : ¬ neosz ≤ buf.maxsize := by omega
    refine ⟨(block buf.data).take (buf.maxsize + (j + 1) * buf.unit) ++
      (List.range (buf.maxsize + (j + 1) * buf.unit - (block buf.data).length)).map junk, ?_⟩
    simp [hbuf_grow, hnle, hrun, realloc]

theorem hbuf_grow_loop_closed_form_witness :
    hbuf_grow_neoasz (lowdown_buf.mk (some [65, 66, 0, 0]) 2 4 4 0) 9 = some 12 ∧
    ensureCapacity_closed_form 4 4 9 = 12 ∧
    hbuf_grow_neoasz (lowdown_buf.mk (some [65, 66, 0, 0]) 2 4 4 0) 9 =
      some (ensureCapacity_closed_form 4 4 9) :=
  ⟨by decide, by decide,
    (hbuf_grow_loop_closed_form (lowdown_buf.mk (some [65, 66, 0, 0]) 2 4 4 0) 9
      (by decide) (by decide)).1⟩

/-- C4: `hbuf_grow` leaves `size`, `unit` and the stored bytes below `size`
as they are, and with `maxsize >= neosz` it returns 1 and leaves the whole
record as it is. -/
theorem hbuf_grow_frame (a : Alloc) (buf : lowdown_buf) (neosz : Nat) :
    (buf.maxsize ≥ neosz → hbuf_grow a buf neosz = Res.ok (1, buf)) ∧
    ∀ r buf', hbuf_grow a buf neosz = Res.ok (r, buf') →
      buf'.size = buf.size ∧ buf'.unit = buf.unit ∧ buf'.buffer_free = buf.buffer_free ∧
      (∀ i c, i < buf.size → i < buf.maxsize → byteAt buf i = some c →
        byteAt buf' i = some c) ∧
      (buf.size ≤ buf.maxsize → buf.size ≤ allocated buf → content buf' = content buf) := by
  constructor
  · intro hle
    simp [hbuf_grow, hle]
  · intro r buf' h
    unfold hbuf_grow at h
    by_cases hle : buf.maxsize ≥ neosz
    · simp only [hle, if_true] at h
      injection h with h
      injection h with _ h
      subst h
      exact ⟨rfl, rfl, rfl, fun _ _ _ _ hc => hc, fun _ _ => rfl⟩
    · simp only [hle, if_false] at h
      cases hrun : hbuf_grow_neoasz buf neosz with
      | none => simp [hrun] at h
      | some n =>
        have hn : neosz ≤ n := hbuf_grow_loop_ge _ _ _ _ _ hrun
        cases a with
        | fail =>
          simp only [hrun, realloc] at h
          injection h with h
          injection h with _ h
          subst h
          exact ⟨rfl, rfl, rfl, fun _ _ _ _ hc => hc, fun _ _ => rfl⟩
        | grant junk =>
          simp only [hrun] at h
          refine ⟨?_, ?_, ?_, ?_, ?_⟩
          · obtain ⟨pp, hpp, -⟩ := realloc_take junk buf.data n 0 (by omega) (by omega)
            simp only [hpp] at h
            injection h with h
            injection h with _ h
            subst h
            rfl
          · obtain ⟨pp, hpp, -⟩ := realloc_take junk buf.data n 0 (by omega) (by omega)
            simp only [hpp] at h
            injection h with h
            injection h with _ h
            subst h
            rfl
          · obtain ⟨pp, hpp, -⟩ := realloc_take junk buf.data n 0 (by omega) (by omega)
            simp only [hpp] at h
            injection h with h
            injection h with _ h
            subst h
            rfl
          · intro i c _ hi hc
            obtain ⟨pp, hpp, hget⟩ :=
              realloc_getElem junk buf.data n i c (by omega) hc
            simp only [hpp] at h
            injection h with h
            injection h with _ h
            subst h
            exact hget
          · intro hsz hal
            obtain ⟨pp, hpp, -, htake⟩ :=
              realloc_take junk buf.data n buf.size (by omega) hal
            simp only [hpp] at h
            injection h with h
            injection h with _ h
            subst h
            exact htake

theorem hbuf_grow_frame_witness :
    hbuf_grow (Alloc.grant fun _ => 7) (lowdown_buf.mk (some [65, 66, 0, 0]) 2 4 4 0) 4 =
      Res.ok (1, lowdown_buf.mk (some [65, 66, 0, 0]) 2 4 4 0) ∧
    content (lowdown_buf.mk (some [65, 66, 0, 0, 7, 7, 7, 7, 7, 7, 7, 7]) 2 12 4 0) =
      content (lowdown_buf.mk (some [65, 66, 0, 0]) 2 4 4 0) :=
  ⟨(hbuf_grow_frame (Alloc.grant fun _ => 7)
      (lowdown_buf.mk (some [65, 66, 0, 0]) 2 4 4 0) 4).1 (by decide),
   ((hbuf_grow_frame (Alloc.grant fun _ => 7)
      (lowdown_buf.mk (some [65, 66, 0, 0]) 2 4 4 0) 9).2 1
      (lowdown_buf.mk (some [65, 66, 0, 0, 7, 7, 7, 7, 7, 7, 7, 7]) 2 12 4 0)
      (by decide)).2.2.2.2 (by decide) (by decide)⟩

/-! ## Claims about the append family -/

/-- Copying a whole source into a block that has room for it. -/
theorem memcpy_into (blk : List Byte) (off : Nat) (s : List Byte)
    (h : off + s.length ≤ blk.length) :
    memcpy (some blk) off (some s) s.length =
      Res.ok (some (blk.take off ++ s ++ blk.drop (off + s.length))) := by
  simp [memcpy, block, h]

/-- The statement `hbuf_grow(buf, neosz);` with a positive unit and an
allocator that succeeds: storage and capacity afterwards. -/
theorem hbuf_grow_drop_grant (junk : Nat → Byte) (buf : lowdown_buf) (neosz : Nat)
    (hu : 0 < buf.unit) (hlt : buf.maxsize < neosz) (hal : buf.size ≤ allocated buf) :
    ∃ pp k, hbuf_grow_drop (Alloc.grant junk) buf neosz =
        Res.ok { buf with data := some pp, maxsize := buf.maxsize + k * buf.unit } ∧
      1 ≤ k ∧ neosz ≤ buf.maxsize + k * buf.unit ∧
      buf.maxsize + (k - 1) * buf.unit < neosz ∧
      pp.length = buf.maxsize + k * buf.unit ∧
      (buf.size ≤ buf.maxsize → pp.take buf.size = content buf) := by
  rcases hbuf_grow_cases (Alloc.grant junk) buf neosz hu with
    ⟨hle, _⟩ | ⟨_, k, hk, hge, hprev, _, hrun⟩
  · omega
  · rcases hrun with ⟨ha, _⟩ | ⟨junk2, ha, hrun⟩
    · cases ha
    · injection ha with ha
      subst ha
      refine ⟨(block buf.data).take (buf.maxsize + k * buf.unit) ++
        (List.range (buf.maxsize + k * buf.unit - (block buf.data).length)).map junk, k,
        ?_, hk, hge, hprev, ?_, ?_⟩
      · simp [hbuf_grow_drop, hrun, realloc]
      · simp
        omega
      · intro hsz
        unfold allocated at hal
        rw [List.take_append_of_le_length (by simp; omega)]
        rw [List.take_take]
        unfold content
        congr 1
        omega

/-- C5: with a positive unit, `size <= maxsize`, storage that holds the
declared capacity and an allocator that succeeds, `hbuf_put` of a non-empty
sequence `s` returns a buffer whose size grew by the length of `s`, whose old
bytes are unchanged, whose new bytes are `s`, and whose `maxsize` covers the
new size; on an empty buffer the content is `s`. -/
theorem hbuf_put_appends (junk : Nat → Byte) (buf : lowdown_buf) (s : List Byte)
    (hu : 0 < buf.unit) (hsz : buf.size ≤ buf.maxsize) (hal : buf.maxsize ≤ allocated buf)
    (hs : s ≠ []) :
    ∃ buf', hbuf_put (Alloc.grant junk) buf (some s) s.length = Res.ok buf' ∧
      buf'.size = buf.size + s.length ∧
      (block buf'.data).take buf.size = content buf ∧
      ((block buf'.data).drop buf.size).take s.length = s ∧
      content buf' = content buf ++ s ∧
      buf'.size ≤ buf'.maxsize ∧ buf'.maxsize ≤ allocated buf' ∧
      (buf.size = 0 → content buf' = s ∧ buf'.size = s.length) := by
  have hn : s.length ≠ 0 := by
    intro h
    exact hs (List.length_eq_zero.mp h)
  have hu0 : buf.unit ≠ 0 := by omega
  have hclen : (content buf).length = buf.size := by
    unfold content allocated at *
    simp
    omega
  -- the buffer after the capacity step
  obtain ⟨blk, cap, hstep, hcap, hblk, htake⟩ :
      ∃ blk cap,
        (if buf.size + s.length > buf.maxsize then
          hbuf_grow_drop (Alloc.grant junk) buf (buf.size + s.length)
         else Res.ok buf) = Res.ok { buf with data := some blk, maxsize := cap } ∧
        buf.size + s.length ≤ cap ∧ cap ≤ blk.length ∧ blk.take buf.size = content buf := by
    by_cases hg : buf.size + s.length > buf.maxsize
    · obtain ⟨pp, k, hrun, _, hge, _, hlen, htk⟩ :=
        hbuf_grow_drop_grant junk buf (buf.size + s.length) hu (by omega) (by omega)
      exact ⟨pp, _, by simp [hg, hrun], hge, by omega, htk hsz⟩
    · cases hd : buf.data with
      | none =>
        unfold allocated at hal
        rw [hd] at hal
        simp [block] at hal
        omega
      | some blk =>
        refine ⟨blk, buf.maxsize, ?_, by omega, ?_, ?_⟩
        · simp only [hg, if_false]
          congr 1
          cases buf
          simp at hd
          simp [hd]
        · unfold allocated at hal
          rw [hd] at hal
          simpa [block] using hal
        · unfold content
          rw [hd]
          rfl
  have hfit : buf.size + s.length ≤ blk.length := by omega
  have hblen : (blk.take buf.size).length = buf.size := by
    rw [htake]
    exact hclen
  refine ⟨{ buf with
      data := some (blk.take buf.size ++ s ++ blk.drop (buf.size + s.length))
      size := buf.size + s.length
      maxsize := cap }, ?_, rfl, ?_, ?_, ?_, hcap, ?_, ?_⟩
  · unfold hbuf_put
    simp only [hu0, if_false, hn, or_false, reduceCtorEq, hstep]
    simp [memcpy_into blk buf.size s hfit]
  · show ((blk.take buf.size ++ s ++ blk.drop (buf.size + s.length))).take buf.size = _
    rw [List.append_assoc, List.take_append_of_le_length (by omega)]
    rw [List.take_of_length_le (by omega)]
    exact htake
  · show ((blk.take buf.size ++ s ++ blk.drop (buf.size + s.length)).drop buf.size).take
      s.length = s
    rw [List.append_assoc, List.drop_append_of_le_length (by omega)]
    rw [List.drop_of_length_le (by omega)]
    simp
  · show (blk.take buf.size ++ s ++ blk.drop (buf.size + s.length)).take
      (buf.size + s.length) = content buf ++ s
    rw [List.take_append_of_le_length (by simp; omega)]
    rw [List.take_of_length_le (by simp)]
    rw [htake]
  · show cap ≤ (blk.take buf.size ++ s ++ blk.drop (buf.size + s.length)).length
    simp
    omega
  · intro h0
    constructor
    · show (blk.take buf.size ++ s ++ blk.drop (buf.size + s.length)).take
        (buf.size + s.length) = s
      rw [List.take_append_of_le_length (by simp; omega)]
      rw [List.take_of_length_le (by simp)]
      simp [h0]
    · show buf.size + s.length = s.length
      omega

theorem hbuf_put_appends_witness :
    hbuf_put (Alloc.grant fun _ => 7) (lowdown_buf.mk (some [65, 66, 0, 0]) 2 4 4 0)
        (some [67, 68, 69]) 3 =
      Res.ok (lowdown_buf.mk (some [65, 66, 67, 68, 69, 7, 7, 7]) 5 8 4 0) ∧
    ∃ buf', hbuf_put (Alloc.grant fun _ => 7) (lowdown_buf.mk (some [65, 66, 0, 0]) 2 4 4 0)
        (some [67, 68, 69]) [(67 : Byte), 68, 69].length = Res.ok buf' ∧
      buf'.size = 2 + 3 ∧
      (block buf'.data).take 2 = content (lowdown_buf.mk (some [65, 66, 0, 0]) 2 4 4 0) ∧
      ((block buf'.data).drop 2).take 3 = [67, 68, 69] ∧
      content buf' = content (lowdown_buf.mk (some [65, 66, 0, 0]) 2 4 4 0) ++ [67, 68, 69] ∧
      buf'.size ≤ buf'.maxsize ∧ buf'.maxsize ≤ allocated buf' ∧
      ((2 : Nat) = 0 → content buf' = [67, 68, 69] ∧ buf'.size = 3) :=
  ⟨by decide,
    hbuf_put_appends (fun _ => 7) (lowdown_buf.mk (some [65, 66, 0, 0]) 2 4 4 0)
      [67, 68, 69] (by decide) (by decide) (by decide) (by decide)⟩

/-- After a failed `hbuf_grow` step `hbuf_put` still copies and still advances
`size`: whatever the buffer, it never returns with the size it started from. -/
theorem hbuf_put_after_failed_grow (buf : lowdown_buf) (s : List Byte) (hu : 0 < buf.unit)
    (hs : s ≠ []) (hneed : buf.maxsize < buf.size + s.length) :
    hbuf_put Alloc.fail buf (some s) s.length = Res.fault Fault.bounds ∨
    ∃ buf', hbuf_put Alloc.fail buf (some s) s.length = Res.ok buf' ∧
      buf'.size = buf.size + s.length ∧ buf'.maxsize = buf.maxsize ∧
      buf'.maxsize < buf'.size := by
  have hn : s.length ≠ 0 := by
    intro h
    exact hs (List.length_eq_zero.mp h)
  have hu0 : buf.unit ≠ 0 := by omega
  have hgrow : hbuf_grow_drop Alloc.fail buf (buf.size + s.length) = Res.ok buf := by
    rcases hbuf_grow_cases Alloc.fail buf (buf.size + s.length) hu with
      ⟨hle, _⟩ | ⟨_, k, _, _, _, _, hrun⟩
    · omega
    · rcases hrun with ⟨_, hrun⟩ | ⟨junk, ha, _⟩
      · simp [hbuf_grow_drop, hrun]
      · cases ha
  unfold hbuf_put
  simp only [hu0, if_false, hn, or_false, reduceCtorEq, gt_iff_lt, hneed, if_true, hgrow]
  cases hm : memcpy buf.data buf.size (some s) s.length with
  | fault f =>
    left
    unfold memcpy at hm
    split at hm
    · cases hm
    · injection hm with hm
      rw [hm]
  | ok d =>
    right
    exact ⟨_, rfl, rfl, rfl, hneed⟩

/-- C6 (the code breaks it): the buffer holds "ABCD" in 4 allocated bytes with
`size = maxsize = 4`, `unit = 4`, and `realloc` fails. `hbuf_put` of one byte
and `hbuf_putc` go on to write at offset 4, outside the storage; `hbuf_printf`
of a one-byte text returns with `size = 5` above `maxsize = 4`. None of them
leaves the buffer as it was. -/
theorem append_after_failed_grow :
    hbuf_grow Alloc.fail (lowdown_buf.mk (some [65, 66, 67, 68]) 4 4 4 0) 5 =
      Res.ok (0, lowdown_buf.mk (some [65, 66, 67, 68]) 4 4 4 0) ∧
    hbuf_put Alloc.fail (lowdown_buf.mk (some [65, 66, 67, 68]) 4 4 4 0) (some [69]) 1 =
      Res.fault Fault.bounds ∧
    hbuf_putc Alloc.fail (lowdown_buf.mk (some [65, 66, 67, 68]) 4 4 4 0) 69 =
      Res.fault Fault.bounds ∧
    hbuf_printf Alloc.fail Alloc.fail (lowdown_buf.mk (some [65, 66, 67, 68]) 4 4 4 0)
        (some [69]) =
      Res.ok (lowdown_buf.mk (some [65, 66, 67, 68]) 5 4 4 0) := by
  decide

/-- C7: with a positive unit, `hbuf_put` with a NULL source or a zero length,
`hbuf_putb` with a source of size 0 and `hbuf_puts` with a string that starts
with its NUL return the buffer as it was; `hbuf_putb(buf, b)` is
`hbuf_put(buf, b->data, b->size)`. -/
theorem append_empty_source (a : Alloc) (buf : lowdown_buf) (hu : 0 < buf.unit) :
    (∀ n, hbuf_put a buf none n = Res.ok buf) ∧
    (∀ d, hbuf_put a buf d 0 = Res.ok buf) ∧
    (∀ b : lowdown_buf, b.size = 0 → hbuf_putb a buf b = Res.ok buf) ∧
    (∀ rest, hbuf_puts a buf (some (0 :: rest)) = Res.ok buf) ∧
    (∀ b : lowdown_buf, hbuf_putb a buf b = hbuf_put a buf b.data b.size) := by
  have hu0 : buf.unit ≠ 0 := by omega
  refine ⟨?_, ?_, ?_, ?_, ?_⟩
  · intro n
    simp [hbuf_put, hu0]
  · intro d
    simp [hbuf_put, hu0]
  · intro b hb
    simp [hbuf_putb, hbuf_put, hu0, hb]
  · intro rest
    simp [hbuf_puts, strlen, hbuf_put, hu0]
  · intro b
    rfl

theorem append_empty_source_witness :
    hbuf_put Alloc.fail (lowdown_buf.mk (some [65, 66, 67, 68]) 4 4 4 0) none 3 =
      Res.ok (lowdown_buf.mk (some [65, 66, 67, 68]) 4 4 4 0) ∧
    hbuf_puts Alloc.fail (lowdown_buf.mk (some [65, 66, 67, 68]) 4 4 4 0) (some [0, 70]) =
      Res.ok (lowdown_buf.mk (some [65, 66, 67, 68]) 4 4 4 0) :=
  ⟨(append_empty_source Alloc.fail (lowdown_buf.mk (some [65, 66, 67, 68]) 4 4 4 0)
      (by decide)).1 3,
   (append_empty_source Alloc.fail (lowdown_buf.mk (some [65, 66, 67, 68]) 4 4 4 0)
      (by decide)).2.2.2.1 [70]⟩

/-! ## Comparison and cloning -/

/-- On sequences of one length `memcmp` yields 0 exactly for equal ones. -/
theorem memcmp_bytes_eq_zero :
    ∀ xs ys : List Byte, xs.length = ys.length → (memcmp_bytes xs ys = 0 ↔ xs = ys) := by
  intro xs
  induction xs with
  | nil =>
    intro ys h
    cases ys with
    | nil => simp [memcmp_bytes]
    | cons y ys => simp at h
  | cons x xs ih =>
    intro ys h
    cases ys with
    | nil => simp at h
    | cons y ys =>
      have hl : xs.length = ys.length := by simpa using h
      unfold memcmp_bytes
      by_cases h1 : x < y
      · simp only [h1, if_true]
        constructor
        · intro h0
          exact absurd h0 (by decide)
        · intro he
          injection he with he _
          exact absurd h1 (by rw [he]; exact lt_irrefl y)
      · by_cases h2 : y < x
        · simp only [h1, h2, if_true, if_false]
          constructor
          · intro h0
            exact absurd h0 (by decide)
          · intro he
            injection he with he _
            exact absurd h2 (by rw [he]; exact lt_irrefl y)
        · have hxy : x = y := le_antisymm (not_lt.mp h2) (not_lt.mp h1)
          simp only [h1, h2, if_false]
          rw [ih ys hl]
          constructor
          · intro he
            rw [hxy, he]
          · intro he
            injection he

/-- The function `hbuf_eq` in terms of the sizes and of the stored bytes below
them: nothing else of the two records is looked at. -/
theorem hbuf_eq_content (a b : lowdown_buf) :
    hbuf_eq a b =
      if a.size = b.size then
        if a.size ≤ (content a).length ∧ b.size ≤ (content b).length then
          Res.ok (if content a = content b then 1 else 0)
        else Res.fault Fault.bounds
      else Res.ok 0 := by
  unfold hbuf_eq
  by_cases hs : a.size = b.size
  · simp only [hs, if_true]
    unfold memcmp content
    rw [hs]
    by_cases hb : b.size ≤ (block a.data).length ∧ b.size ≤ (block b.data).length
    · have hb2 : b.size ≤ (List.take b.size (block a.data)).length ∧
          b.size ≤ (List.take b.size (block b.data)).length := by
        simp
        exact hb
      simp only [hb, hb2, and_self, if_true]
      have hlen : (List.take b.size (block a.data)).length =
          (List.take b.size (block b.data)).length := by
        simp
        omega
      by_cases he : List.take b.size (block a.data) = List.take b.size (block b.data)
      · simp [he, (memcmp_bytes_eq_zero _ _ rfl).mpr rfl]
      · have hne : memcmp_bytes (List.take b.size (block a.data))
            (List.take b.size (block b.data)) ≠ 0 := by
          intro h0
          exact he ((memcmp_bytes_eq_zero _ _ hlen).mp h0)
        simp [he, hne]
    · have hb2 : ¬ (b.size ≤ (List.take b.size (block a.data)).length ∧
          b.size ≤ (List.take b.size (block b.data)).length) := by
        simp
        simpa using hb
      simp only [hb, hb2, if_false]
  · simp only [hs, if_false]

/-- Below `size` the content and the storage hold the same bytes. -/
theorem content_getElem (buf : lowdown_buf) (i : Nat) (hi : i < buf.size) :
    (content buf)[i]? = byteAt buf i := by
  unfold content byteAt
  exact List.getElem?_take_of_lt hi

/-- The content is `size` bytes long exactly when the storage holds `size` bytes. -/
theorem content_length (buf : lowdown_buf) :
    buf.size ≤ (content buf).length ↔ buf.size ≤ allocated buf := by
  unfold content allocated
  simp

/-- C10: `hbuf_eq` returns 1 exactly when the sizes are equal and every offset
below the size holds the same byte in both buffers; on buffers whose storage
holds their `size` bytes it returns 1 or 0 accordingly; and its result is a
function of the sizes and the bytes below them alone. -/
theorem hbuf_eq_iff (a b : lowdown_buf) :
    (hbuf_eq a b = Res.ok 1 ↔
      a.size = b.size ∧ ∀ i, i < a.size → ∃ c, byteAt a i = some c ∧ byteAt b i = some c) ∧
    (a.size ≤ allocated a → b.size ≤ allocated b →
      hbuf_eq a b = Res.ok (if a.size = b.size ∧ content a = content b then 1 else 0)) ∧
    (∀ a2 b2 : lowdown_buf, a2.size = a.size → content a2 = content a →
      b2.size = b.size → content b2 = content b → hbuf_eq a2 b2 = hbuf_eq a b) := by
  refine ⟨?_, ?_, ?_⟩
  · rw [hbuf_eq_content]
    constructor
    · intro h
      by_cases hs : a.size = b.size
      · simp only [hs, if_true] at h
        by_cases hl : b.size ≤ (content a).length ∧ b.size ≤ (content b).length
        · simp only [hl, and_self, if_true] at h
          by_cases hc : content a = content b
          · refine ⟨hs, ?_⟩
            intro i hi
            have hia : i < (content a).length := by omega
            refine ⟨(content a)[i], ?_, ?_⟩
            · rw [← content_getElem a i hi]
              exact List.getElem?_eq_getElem hia
            · rw [← content_getElem b i (by omega), ← hc]
              exact List.getElem?_eq_getElem hia
          · simp [hc] at h
        · simp only [hl, if_false] at h
          cases h
      · simp [hs] at h
    · rintro ⟨hs, hall⟩
      have hla : a.size ≤ allocated a := by
        by_contra hcon
        have hlt : allocated a < a.size := by omega
        obtain ⟨c, hc, _⟩ := hall (allocated a) hlt
        unfold byteAt allocated at *
        rw [List.getElem?_eq_none (le_refl _)] at hc
        cases hc
      have hlb : b.size ≤ allocated b := by
        by_contra hcon
        have hlt : allocated b < a.size := by omega
        obtain ⟨c, _, hc⟩ := hall (allocated b) hlt
        unfold byteAt allocated at *
        rw [List.getElem?_eq_none (le_refl _)] at hc
        cases hc
      have hca : (content a).length = a.size := by
        have := (content_length a).mpr hla
        unfold content at *
        simp at *
        omega
      have hcb : (content b).length = b.size := by
        have := (content_length b).mpr hlb
        unfold content at *
        simp at *
        omega
      have hc : content a = content b := by
        apply List.ext_getElem?
        intro i
        by_cases hi : i < a.size
        · obtain ⟨c, h1, h2⟩ := hall i hi
          rw [content_getElem a i hi, content_getElem b i (by omega), h1, h2]
        · rw [List.getElem?_eq_none (by omega), List.getElem?_eq_none (by omega)]
      have hl : b.size ≤ (content a).length ∧ b.size ≤ (content b).length := by
        constructor <;> omega
      simp [hs, hl, hc]
  · intro hla hlb
    rw [hbuf_eq_content]
    have h1 := (content_length a).mpr hla
    have h2 := (content_length b).mpr hlb
    by_cases hs : a.size = b.size
    · simp only [hs, true_and, if_true]
      rw [hs] at h1
      simp [h1, h2]
    · simp [hs]
  · intro a2 b2 h1 h2 h3 h4
    rw [hbuf_eq_content, hbuf_eq_content, h1, h2, h3, h4]

theorem hbuf_eq_iff_witness :
    hbuf_eq (lowdown_buf.mk (some [65, 66, 0, 0]) 2 4 4 0)
        (lowdown_buf.mk (some [65, 66, 9]) 2 3 1 1) = Res.ok 1 ∧
    hbuf_eq (lowdown_buf.mk (some [65, 66, 0, 0]) 2 4 4 0)
        (lowdown_buf.mk (some [65, 67, 0, 0]) 2 4 4 0) = Res.ok 0 :=
  ⟨by decide,
   (hbuf_eq_iff (lowdown_buf.mk (some [65, 66, 0, 0]) 2 4 4 0)
      (lowdown_buf.mk (some [65, 67, 0, 0]) 2 4 4 0)).2.1 (by decide) (by decide)⟩

/-- What a call of `hbuf_clone` that returns has done: the source's bytes
below `size` lie in its storage, and `*v` holds a copy of exactly these. -/
theorem hbuf_clone_ok (a : Alloc) (b v b' v' : lowdown_buf)
    (h : hbuf_clone a b v = Res.ok (b', v')) :
    b' = b ∧ b.size ≤ allocated b ∧
    v' = { v with
      data := if b.size = 0 then none else some (content b)
      size := b.size
      maxsize := b.maxsize
      unit := b.unit
      buffer_free := b.buffer_free } := by
  unfold hbuf_clone at h
  by_cases h0 : b.size = 0
  · simp only [h0, ne_eq, not_true_eq_false, if_false] at h
    injection h with h
    injection h with h1 h2
    refine ⟨h1.symm, by omega, ?_⟩
    rw [← h2]
    simp [h0]
  · cases a with
    | fail => simp [h0, xmalloc] at h
    | grant junk =>
      simp only [ne_eq, h0, not_false_eq_true, if_true, xmalloc] at h
      unfold memcpy at h
      by_cases hl : 0 + b.size ≤ (block (some ((List.range b.size).map junk))).length ∧
          b.size ≤ (block b.data).length
      · simp only [hl, and_self, if_true] at h
        injection h with h
        injection h with h1 h2
        refine ⟨h1.symm, hl.2, ?_⟩
        rw [← h2]
        simp [h0, content]
      · simp only [hl, if_false] at h
        cases h

/-- C8: a call of `hbuf_clone` that returns leaves `*buf` as it was and gives
`*v` the size, unit and `buffer_free` of the source and the same bytes below
`size`, so `hbuf_eq(v, buf)` is 1. It returns for every source of size 0, and
for every source whose bytes lie in its storage when `xmalloc` gets memory. -/
theorem hbuf_clone_equal (a : Alloc) (b v : lowdown_buf) :
    (b.size = 0 → ∃ v', hbuf_clone a b v = Res.ok (b, v')) ∧
    (∀ junk, b.size ≤ allocated b → ∃ v', hbuf_clone (Alloc.grant junk) b v = Res.ok (b, v')) ∧
    (∀ b' v', hbuf_clone a b v = Res.ok (b', v') →
      b' = b ∧ v'.size = b.size ∧ v'.unit = b.unit ∧ v'.buffer_free = b.buffer_free ∧
      content v' = content b ∧
      (∀ i, i < b.size → ∃ c, byteAt v' i = some c ∧ byteAt b i = some c) ∧
      hbuf_eq v' b = Res.ok 1) := by
  refine ⟨?_, ?_, ?_⟩
  · intro h0
    exact ⟨lowdown_buf.mk none 0 b.maxsize b.unit b.buffer_free, by simp [hbuf_clone, h0]⟩
  · intro junk hal
    by_cases h0 : b.size = 0
    · exact ⟨lowdown_buf.mk none 0 b.maxsize b.unit b.buffer_free,
        by simp [hbuf_clone, h0]⟩
    · have hl : b.size ≤ (block b.data).length := hal
      refine ⟨lowdown_buf.mk (some (content b)) b.size b.maxsize b.unit b.buffer_free, ?_⟩
      simp [hbuf_clone, h0, xmalloc, memcpy, hl, content]
      simp [block]
  · intro b' v' h
    obtain ⟨hb, hal, hv⟩ := hbuf_clone_ok a b v b' v' h
    have hlen : (content b).length = b.size := by
      have := (content_length b).mpr hal
      unfold content at *
      simp at *
      omega
    have hcv : content v' = content b := by
      rw [hv]
      unfold content
      by_cases h0 : b.size = 0
      · simp [h0]
      · simp only [h0, if_false, block]
        rw [List.take_take]
        simp
    have hsz : v'.size = b.size := by rw [hv]
    have heq : hbuf_eq v' b = Res.ok 1 := by
      rw [hbuf_eq_content, hcv, hsz]
      simp [hlen]
    refine ⟨hb, hsz, by rw [hv], by rw [hv], hcv, ?_, heq⟩
    intro i hi
    have hib : i < (content b).length := by omega
    refine ⟨(content b)[i], ?_, ?_⟩
    · rw [← content_getElem v' i (by omega), hcv]
      exact List.getElem?_eq_getElem hib
    · rw [← content_getElem b i hi]
      exact List.getElem?_eq_getElem hib

theorem hbuf_clone_equal_witness :
    hbuf_clone (Alloc.grant fun _ => 7) (lowdown_buf.mk (some [65, 66, 0, 0]) 2 4 4 1)
        (lowdown_buf.mk none 0 0 1 0) =
      Res.ok (lowdown_buf.mk (some [65, 66, 0, 0]) 2 4 4 1,
        lowdown_buf.mk (some [65, 66]) 2 4 4 1) ∧
    hbuf_eq (lowdown_buf.mk (some [65, 66]) 2 4 4 1)
      (lowdown_buf.mk (some [65, 66, 0, 0]) 2 4 4 1) = Res.ok 1 :=
  ⟨by decide,
   ((hbuf_clone_equal (Alloc.grant fun _ => 7) (lowdown_buf.mk (some [65, 66, 0, 0]) 2 4 4 1)
      (lowdown_buf.mk none 0 0 1 0)).2.2 (lowdown_buf.mk (some [65, 66, 0, 0]) 2 4 4 1)
      (lowdown_buf.mk (some [65, 66]) 2 4 4 1) (by decide)).2.2.2.2.2.2⟩

/-- C9 (the code breaks it): `hbuf_clone` copies `maxsize` from the source
although it allocates `size` bytes. Cloning a buffer that holds "AB" with
`maxsize = 4` gives a clone with two allocated bytes and `maxsize = 4`;
cloning the same buffer after `hbuf_truncate` gives a NULL `data` with
`maxsize = 4`. A following `hbuf_putc` sees room, does not grow, and writes
outside the storage. -/
theorem hbuf_clone_maxsize_not_allocated :
    hbuf_clone (Alloc.grant fun _ => 7) (lowdown_buf.mk (some [65, 66, 0, 0]) 2 4 4 1)
        (lowdown_buf.mk none 0 0 1 0) =
      Res.ok (lowdown_buf.mk (some [65, 66, 0, 0]) 2 4 4 1,
        lowdown_buf.mk (some [65, 66]) 2 4 4 1) ∧
    allocated (lowdown_buf.mk (some [65, 66]) 2 4 4 1) = 2 ∧
    (lowdown_buf.mk (some [65, 66]) 2 4 4 1).maxsize = 4 ∧
    hbuf_putc (Alloc.grant fun _ => 7) (lowdown_buf.mk (some [65, 66]) 2 4 4 1) 67 =
      Res.fault Fault.bounds ∧
    hbuf_clone (Alloc.grant fun _ => 7)
        (hbuf_truncate (lowdown_buf.mk (some [65, 66, 0, 0]) 2 4 4 1))
        (lowdown_buf.mk none 0 0 1 0) =
      Res.ok (lowdown_buf.mk (some [65, 66, 0, 0]) 0 4 4 1, lowdown_buf.mk none 0 4 4 1) ∧
    hbuf_putc (Alloc.grant fun _ => 7) (lowdown_buf.mk none 0 4 4 1) 67 =
      Res.fault Fault.bounds := by
  decide

/-! ## Comparison with a string -/

/-- Two lists hold the same byte at every index below `n` exactly when both
are at least `n` long and their first `n` elements are equal. -/
theorem take_eq_pointwise (xs ys : List Byte) (n : Nat) :
    (n ≤ xs.length ∧ n ≤ ys.length ∧ xs.take n = ys.take n) ↔
      ∀ i, i < n → ∃ c, xs[i]? = some c ∧ ys[i]? = some c := by
  constructor
  · rintro ⟨hx, hy, he⟩ i hi
    have hix : i < xs.length := by omega
    refine ⟨xs[i], List.getElem?_eq_getElem hix, ?_⟩
    rw [← List.getElem?_take_of_lt hi, ← he, List.getElem?_take_of_lt hi]
    exact List.getElem?_eq_getElem hix
  · intro h
    have hx : n ≤ xs.length := by
      by_contra hcon
      obtain ⟨c, hc, _⟩ := h xs.length (by omega)
      rw [List.getElem?_eq_none (le_refl _)] at hc
      cases hc
    have hy : n ≤ ys.length := by
      by_contra hcon
      obtain ⟨c, _, hc⟩ := h ys.length (by omega)
      rw [List.getElem?_eq_none (le_refl _)] at hc
      cases hc
    refine ⟨hx, hy, ?_⟩
    apply List.ext_getElem?
    intro i
    by_cases hi : i < n
    · obtain ⟨c, h1, h2⟩ := h i hi
      rw [List.getElem?_take_of_lt hi, List.getElem?_take_of_lt hi, h1, h2]
    · rw [List.getElem?_eq_none (by simp; omega), List.getElem?_eq_none (by simp; omega)]

/-- The call `memcmp(p, q, n)` returns 0 exactly when both blocks hold `n`
bytes and these are equal. -/
theorem memcmp_eq_zero (p q : Option (List Byte)) (n : Nat) :
    memcmp p q n = Res.ok 0 ↔
      n ≤ (block p).length ∧ n ≤ (block q).length ∧ (block p).take n = (block q).take n := by
  unfold memcmp
  by_cases hb : n ≤ (block p).length ∧ n ≤ (block q).length
  · simp only [hb, and_self, if_true, true_and]
    have hlen : ((block p).take n).length = ((block q).take n).length := by
      simp
      omega
    constructor
    · intro h
      injection h with h
      exact (memcmp_bytes_eq_zero _ _ hlen).mp h
    · intro h
      rw [(memcmp_bytes_eq_zero _ _ hlen).mpr h]
  · simp only [hb, if_false]
    constructor
    · intro h
      cases h
    · rintro ⟨h1, h2, _⟩
      exact absurd ⟨h1, h2⟩ hb

/-- The call `memcmp` returns a value whenever both blocks hold `n` bytes. -/
theorem memcmp_total (p q : Option (List Byte)) (n : Nat) (hp : n ≤ (block p).length)
    (hq : n ≤ (block q).length) :
    memcmp p q n = Res.ok (memcmp_bytes ((block p).take n) ((block q).take n)) := by
  simp [memcmp, hp, hq]

/-- A string of length `L` has its NUL at index `L`, inside the block. -/
theorem strlen_lt : ∀ (s : List Byte) (L : Nat), strlen s = Res.ok L →
    L < s.length ∧ s[L]? = some 0 ∧ ∀ i, i < L → s[i]? ≠ some 0 := by
  intro s
  induction s with
  | nil =>
    intro L h
    simp [strlen] at h
  | cons c cs ih =>
    intro L h
    unfold strlen at h
    by_cases hc : c = 0
    · simp only [hc, if_true] at h
      injection h with h
      subst h
      refine ⟨by simp, by simp [hc], by intro i hi; omega⟩
    · simp only [hc, if_false] at h
      cases hs : strlen cs with
      | fault f => simp [hs] at h
      | ok n =>
        simp only [hs] at h
        injection h with h
        subst h
        obtain ⟨h1, h2, h3⟩ := ih n hs
        refine ⟨by simp; omega, by simpa using h2, ?_⟩
        intro i hi
        cases i with
        | zero => simpa using hc
        | succ i => simpa using h3 i (by omega)

/-- The value `size-test && memcmp(..) == 0` is 1 exactly when `memcmp` gave 0. -/
theorem cmp_result_one (m : Res Int) :
    (match m with
      | Res.fault f => Res.fault f
      | Res.ok r => Res.ok (if r = 0 then (1 : Int) else 0)) = Res.ok 1 ↔ m = Res.ok 0 := by
  cases m with
  | fault f => simp
  | ok r =>
    by_cases hr : r = 0
    · simp [hr]
    · simp [hr]

/-- C11: for a string `text` with `strlen(text) = L`, `hbuf_streq` returns 1
exactly when `size = L` and the first `L` bytes of the buffer are those of
`text`, and `hbuf_strprefix` returns 1 exactly when `size >= L` and the first `L`
bytes are those of `text`; on a buffer whose `size` bytes lie in its storage
both return 1 or 0; for the empty string `hbuf_strprefix` returns 1 on every
buffer and `hbuf_streq` returns 1 exactly when `size = 0`. -/
theorem hbuf_streq_strprefix_iff (buf : lowdown_buf) (text : List Byte) (L : Nat)
    (hL : strlen text = Res.ok L) :
    (hbuf_streq buf text = Res.ok 1 ↔
      buf.size = L ∧ ∀ i, i < L → ∃ c, byteAt buf i = some c ∧ text[i]? = some c) ∧
    ( hbuf_strprefix buf text = Res.ok 1 ↔
      buf.size ≥ L ∧ ∀ i, i < L → ∃ c, byteAt buf i = some c ∧ text[i]? = some c) ∧
    (buf.size ≤ allocated buf →
      (hbuf_streq buf text = Res.ok 1 ∨ hbuf_streq buf text = Res.ok 0) ∧
      ( hbuf_strprefix buf text = Res.ok 1 ∨ hbuf_strprefix buf text = Res.ok 0)) ∧
    (∀ (b : lowdown_buf) (rest : List Byte), hbuf_strprefix b (0 :: rest) = Res.ok 1) ∧
    (∀ (b : lowdown_buf) (rest : List Byte),
      hbuf_streq b (0 :: rest) = Res.ok 1 ↔ b.size = 0) := by
  have hlen := (strlen_lt text L hL).1
  have hpt : (memcmp buf.data (some text) L = Res.ok 0) ↔
      ∀ i, i < L → ∃ c, byteAt buf i = some c ∧ text[i]? = some c := by
    rw [memcmp_eq_zero]
    exact take_eq_pointwise (block buf.data) text L
  refine ⟨?_, ?_, ?_, ?_, ?_⟩
  · unfold hbuf_streq
    simp only [hL]
    by_cases hs : buf.size = L
    · simp only [hs, if_true, true_and]
      rw [cmp_result_one]
      exact hpt
    · simp [hs]
  · unfold hbuf_strprefix
    simp only [hL]
    by_cases hs : buf.size ≥ L
    · simp only [hs, if_true, true_and]
      rw [cmp_result_one]
      exact hpt
    · simp [hs]
  · intro hal
    unfold allocated at hal
    constructor
    · unfold hbuf_streq
      simp only [hL]
      by_cases hs : buf.size = L
      · simp only [hs, if_true]
        rw [memcmp_total buf.data (some text) L (by omega) (by simp [block]; omega)]
        by_cases h0 : memcmp_bytes ((block buf.data).take L) ((block (some text)).take L) = 0
        · simp [h0]
        · simp [h0]
      · simp [hs]
    · unfold hbuf_strprefix
      simp only [hL]
      by_cases hs : buf.size ≥ L
      · simp only [hs, if_true]
        rw [memcmp_total buf.data (some text) L (by omega) (by simp [block]; omega)]
        by_cases h0 : memcmp_bytes ((block buf.data).take L) ((block (some text)).take L) = 0
        · simp [h0]
        · simp [h0]
      · simp [hs]
  · intro b rest
    simp [ hbuf_strprefix, strlen, memcmp, memcmp_bytes]
  · intro b rest
    by_cases h0 : b.size = 0
    · simp [hbuf_streq, strlen, memcmp, memcmp_bytes, h0]
    · simp [hbuf_streq, strlen, h0]

theorem hbuf_streq_strprefix_iff_witness :
    strlen [65, 66, 0, 70] = Res.ok 2 ∧
    hbuf_streq (lowdown_buf.mk (some [65, 66, 67, 9]) 2 4 4 0) [65, 66, 0, 70] = Res.ok 1 ∧
    hbuf_streq (lowdown_buf.mk (some [65, 66, 67, 9]) 3 4 4 0) [65, 66, 0, 70] = Res.ok 0 ∧
    ( hbuf_strprefix (lowdown_buf.mk (some [65, 66, 67, 9]) 3 4 4 0) [65, 66, 0, 70] =
      Res.ok 1) ∧
    ( hbuf_strprefix (lowdown_buf.mk none 0 0 4 0) [0] = Res.ok 1) ∧
    ( hbuf_strprefix (lowdown_buf.mk (some [65, 66, 67, 9]) 3 4 4 0) [65, 66, 0, 70] =
        Res.ok 1 ↔
      (lowdown_buf.mk (some [65, 66, 67, 9]) 3 4 4 0).size ≥ 2 ∧
        ∀ i, i < 2 → ∃ c, byteAt (lowdown_buf.mk (some [65, 66, 67, 9]) 3 4 4 0) i = some c ∧
          [(65 : Byte), 66, 0, 70][i]? = some c) :=
  ⟨by decide, by decide, by decide, by decide, by decide,
    (hbuf_streq_strprefix_iff (lowdown_buf.mk (some [65, 66, 67, 9]) 3 4 4 0)
      [65, 66, 0, 70] 2 (by decide)).2.1⟩

/-! ## Appending into spare capacity, and single bytes -/

/-- When the bytes to append fit into the declared capacity and the storage,
`hbuf_put` does not consult the allocator and writes in place. -/
theorem hbuf_put_fits (a : Alloc) (buf : lowdown_buf) (s : List Byte) (hu : 0 < buf.unit)
    (hs : s ≠ []) (hfit : buf.size + s.length ≤ buf.maxsize)
    (hal : buf.size + s.length ≤ allocated buf) :
    hbuf_put a buf (some s) s.length =
      Res.ok { buf with
        data := some ((block buf.data).take buf.size ++ s ++
          (block buf.data).drop (buf.size + s.length))
        size := buf.size + s.length } := by
  have hn : s.length ≠ 0 := by
    intro h
    exact hs (List.length_eq_zero.mp h)
  have hu0 : buf.unit ≠ 0 := by omega
  have hg : ¬ buf.size + s.length > buf.maxsize := by omega
  unfold allocated at hal
  cases hd : buf.data with
  | none =>
    rw [hd] at hal
    have hal0 : buf.size + s.length ≤ 0 := hal
    omega
  | some blk =>
    rw [hd] at hal
    have hal2 : buf.size + s.length ≤ blk.length := hal
    unfold hbuf_put
    simp only [hu0, if_false, hn, or_false, reduceCtorEq, hg, hd]
    simp [memcpy_into blk buf.size s hal2, block]

/-- When the bytes to append need more than the declared capacity and the
allocator succeeds, `hbuf_put` writes into the block `realloc` returned. -/
theorem hbuf_put_grows (junk : Nat → Byte) (buf : lowdown_buf) (s : List Byte)
    (hu : 0 < buf.unit) (hs : s ≠ []) (hneed : buf.maxsize < buf.size + s.length)
    (hal : buf.size ≤ allocated buf) :
    ∃ (pp : List Byte) (k : Nat), hbuf_put (Alloc.grant junk) buf (some s) s.length =
        Res.ok { buf with
          data := some (pp.take buf.size ++ s ++ pp.drop (buf.size + s.length))
          size := buf.size + s.length
          maxsize := buf.maxsize + k * buf.unit } ∧
      1 ≤ k ∧ buf.size + s.length ≤ buf.maxsize + k * buf.unit ∧
      buf.maxsize + (k - 1) * buf.unit < buf.size + s.length ∧
      pp.length = buf.maxsize + k * buf.unit ∧
      (buf.size ≤ buf.maxsize → pp.take buf.size = content buf) := by
  have hn : s.length ≠ 0 := by
    intro h
    exact hs (List.length_eq_zero.mp h)
  have hu0 : buf.unit ≠ 0 := by omega
  obtain ⟨pp, k, hrun, hk, hge, hprev, hlen, htk⟩ :=
    hbuf_grow_drop_grant junk buf (buf.size + s.length) hu hneed hal
  refine ⟨pp, k, ?_, hk, hge, hprev, hlen, htk⟩
  unfold hbuf_put
  simp only [hu0, if_false, hn, or_false, reduceCtorEq, gt_iff_lt, hneed, if_true, hrun]
  simp [memcpy_into pp buf.size s (by omega)]

/-- The function `hbuf_putc` does what `hbuf_put` does with a one-byte source. -/
theorem hbuf_putc_eq_put (a : Alloc) (buf : lowdown_buf) (c : Byte) :
    hbuf_putc a buf c = hbuf_put a buf (some [c]) 1 := by
  unfold hbuf_putc hbuf_put
  by_cases hu0 : buf.unit = 0
  · simp [hu0]
  · simp only [hu0, if_false, reduceCtorEq, one_ne_zero, or_self]
    have hcond : (buf.size ≥ buf.maxsize) = (buf.size + 1 > buf.maxsize) := by
      apply propext
      constructor <;> intro h <;> omega
    simp only [hcond]
    cases hstep : (if buf.size + 1 > buf.maxsize then hbuf_grow_drop a buf (buf.size + 1)
        else Res.ok buf) with
    | fault f => rfl
    | ok buf1 =>
      simp only []
      unfold store memcpy
      by_cases hlt : buf1.size < (block buf1.data).length
      · have h2 : buf1.size + 1 ≤ (block buf1.data).length ∧ 1 ≤ (block (some [c])).length :=
          ⟨hlt, Nat.le_refl 1⟩
        simp only [hlt, h2, and_self, if_true]
        cases hd : buf1.data with
        | none =>
          rw [hd] at hlt
          exact absurd hlt (Nat.not_lt_zero _)
        | some blk =>
          rw [hd] at hlt
          have hlt2 : buf1.size < blk.length := hlt
          simp [block, List.set_eq_take_append_cons_drop, hlt2]
      · have h2 : ¬ (buf1.size + 1 ≤ (block buf1.data).length ∧
            1 ≤ (block (some [c])).length) := fun h => hlt h.1
        simp only [hlt, h2, if_false]

/-- The block after `s` has been written at offset `off` of `blk`. -/
theorem written_block (blk s : List Byte) (off : Nat) (h : off + s.length ≤ blk.length) :
    (blk.take off ++ s ++ blk.drop (off + s.length)).length = blk.length ∧
    (blk.take off ++ s ++ blk.drop (off + s.length)).take off = blk.take off ∧
    (blk.take off ++ s ++ blk.drop (off + s.length)).take (off + s.length) =
      blk.take off ++ s ∧
    ((blk.take off ++ s ++ blk.drop (off + s.length)).drop off).take s.length = s ∧
    (blk.take off ++ s ++ blk.drop (off + s.length)).drop (off + s.length) =
      blk.drop (off + s.length) := by
  have hl : (blk.take off).length = off := by
    simp
    omega
  refine ⟨?_, ?_, ?_, ?_, ?_⟩
  · simp
    omega
  · rw [List.append_assoc, List.take_append_of_le_length (by omega)]
    rw [List.take_of_length_le (by omega)]
  · rw [List.take_append_of_le_length (by simp; omega)]
    rw [List.take_of_length_le (by simp)]
  · rw [List.append_assoc, List.drop_append_of_le_length (by omega)]
    rw [List.drop_of_length_le (by omega)]
    simp
  · have e : off + s.length = (blk.take off ++ s).length := by
      simp
      omega
    nth_rewrite 1 [e]
    rw [List.drop_left]

/-- C12: `hbuf_truncate` sets `size` to 0 and leaves the other fields; a
following `hbuf_put` of `s` with `length(s) <= maxsize` does not enter the
growth branch, gives the same result whatever the allocator would do, keeps
`maxsize` and the amount of storage, and yields `size = length(s)` and
content `s`. -/
theorem truncate_then_put (a : Alloc) (buf : lowdown_buf) (s : List Byte) (hu : 0 < buf.unit)
    (hal : buf.maxsize ≤ allocated buf) (hs : s.length ≤ buf.maxsize) :
    hbuf_truncate buf =
      lowdown_buf.mk buf.data 0 buf.maxsize buf.unit buf.buffer_free ∧
    ¬ ((hbuf_truncate buf).size + s.length > (hbuf_truncate buf).maxsize) ∧
    ∃ buf', hbuf_put a (hbuf_truncate buf) (some s) s.length = Res.ok buf' ∧
      hbuf_put Alloc.fail (hbuf_truncate buf) (some s) s.length = Res.ok buf' ∧
      buf'.size = s.length ∧ content buf' = s ∧
      buf'.maxsize = buf.maxsize ∧ allocated buf' = allocated buf ∧
      (block buf'.data).drop s.length = (block buf.data).drop s.length ∧
      buf'.unit = buf.unit ∧ buf'.buffer_free = buf.buffer_free := by
  refine ⟨rfl, ?_, ?_⟩
  · show ¬ (0 + s.length > buf.maxsize)
    omega
  · have hu0 : buf.unit ≠ 0 := by omega
    by_cases hs0 : s = []
    · subst hs0
      refine ⟨hbuf_truncate buf, ?_, ?_, rfl, ?_, rfl, rfl, rfl, rfl, rfl⟩
      · simp [hbuf_put, hbuf_truncate, hu0]
      · simp [hbuf_put, hbuf_truncate, hu0]
      · simp [content, hbuf_truncate]
    · have hfit : (hbuf_truncate buf).size + s.length ≤ (hbuf_truncate buf).maxsize := by
        show 0 + s.length ≤ buf.maxsize
        omega
      have hal2 : (hbuf_truncate buf).size + s.length ≤ allocated (hbuf_truncate buf) := by
        show 0 + s.length ≤ allocated buf
        omega
      have hlen : 0 + s.length ≤ (block buf.data).length := by
        unfold allocated at hal
        omega
      obtain ⟨w1, _, w3, _, w5⟩ := written_block (block buf.data) s 0 hlen
      refine ⟨_, hbuf_put_fits a (hbuf_truncate buf) s hu hs0 hfit hal2,
        hbuf_put_fits Alloc.fail (hbuf_truncate buf) s hu hs0 hfit hal2, ?_, ?_, rfl, ?_, ?_,
        rfl, rfl⟩
      · show 0 + s.length = s.length
        omega
      · show ((block buf.data).take 0 ++ s ++
          (block buf.data).drop (0 + s.length)).take (0 + s.length) = s
        rw [w3]
        simp
      · show ((block buf.data).take 0 ++ s ++
          (block buf.data).drop (0 + s.length)).length = (block buf.data).length
        exact w1
      · show ((block buf.data).take 0 ++ s ++
          (block buf.data).drop (0 + s.length)).drop s.length =
            (block buf.data).drop s.length
        have e : 0 + s.length = s.length := by omega
        rw [e] at w5 ⊢
        exact w5

theorem truncate_then_put_witness :
    hbuf_put Alloc.fail (hbuf_truncate (lowdown_buf.mk (some [65, 66, 67, 68]) 3 4 4 0))
        (some [69, 70]) 2 =
      Res.ok (lowdown_buf.mk (some [69, 70, 67, 68]) 2 4 4 0) ∧
    ∃ buf', hbuf_put (Alloc.grant fun _ => 7)
        (hbuf_truncate (lowdown_buf.mk (some [65, 66, 67, 68]) 3 4 4 0))
        (some [69, 70]) [(69 : Byte), 70].length = Res.ok buf' ∧
      hbuf_put Alloc.fail (hbuf_truncate (lowdown_buf.mk (some [65, 66, 67, 68]) 3 4 4 0))
        (some [69, 70]) [(69 : Byte), 70].length = Res.ok buf' ∧
      buf'.size = 2 ∧ content buf' = [69, 70] ∧
      buf'.maxsize = 4 ∧
      allocated buf' = allocated (lowdown_buf.mk (some [65, 66, 67, 68]) 3 4 4 0) ∧
      (block buf'.data).drop 2 = List.drop 2 [(65 : Byte), 66, 67, 68] ∧
      buf'.unit = 4 ∧ buf'.buffer_free = 0 :=
  ⟨by decide,
    (truncate_then_put (Alloc.grant fun _ => 7) (lowdown_buf.mk (some [65, 66, 67, 68]) 3 4 4 0)
      [69, 70] (by decide) (by decide) (by decide)).2.2⟩

/-- C14: the trace with growth unit 4. From `hbuf_init`, `hbuf_puts("AB")`
gives size 2 and maxsize 4; `hbuf_putc` of 'C' and of 'D' give sizes 3 and 4
with maxsize 4 whatever the allocator would do; `hbuf_putc('E')` grows to
size 5, maxsize 8; `hbuf_streq(buf, "ABCDE")` is 1; `hbuf_truncate` gives
size 0, maxsize 8; `hbuf_puts("ABCDE")` then gives size 5, maxsize 8 in the
same storage, whatever the allocator would do. -/
theorem trace_unit_four (j1 j2 : Nat → Byte) (a : Alloc) :
    (hbuf_init 4 0).size = 0 ∧ (hbuf_init 4 0).maxsize = 0 ∧
    hbuf_puts (Alloc.grant j1) (hbuf_init 4 0) (some [65, 66, 0]) =
      Res.ok (lowdown_buf.mk (some [65, 66, j1 2, j1 3]) 2 4 4 0) ∧
    hbuf_putc a (lowdown_buf.mk (some [65, 66, j1 2, j1 3]) 2 4 4 0) 67 =
      Res.ok (lowdown_buf.mk (some [65, 66, 67, j1 3]) 3 4 4 0) ∧
    hbuf_putc a (lowdown_buf.mk (some [65, 66, 67, j1 3]) 3 4 4 0) 68 =
      Res.ok (lowdown_buf.mk (some [65, 66, 67, 68]) 4 4 4 0) ∧
    hbuf_putc (Alloc.grant j2) (lowdown_buf.mk (some [65, 66, 67, 68]) 4 4 4 0) 69 =
      Res.ok (lowdown_buf.mk (some [65, 66, 67, 68, 69, j2 1, j2 2, j2 3]) 5 8 4 0) ∧
    hbuf_streq (lowdown_buf.mk (some [65, 66, 67, 68, 69, j2 1, j2 2, j2 3]) 5 8 4 0)
      [65, 66, 67, 68, 69, 0] = Res.ok 1 ∧
    hbuf_truncate (lowdown_buf.mk (some [65, 66, 67, 68, 69, j2 1, j2 2, j2 3]) 5 8 4 0) =
      lowdown_buf.mk (some [65, 66, 67, 68, 69, j2 1, j2 2, j2 3]) 0 8 4 0 ∧
    hbuf_puts a (lowdown_buf.mk (some [65, 66, 67, 68, 69, j2 1, j2 2, j2 3]) 0 8 4 0)
        (some [65, 66, 67, 68, 69, 0]) =
      Res.ok (lowdown_buf.mk (some [65, 66, 67, 68, 69, j2 1, j2 2, j2 3]) 5 8 4 0) :=
  ⟨rfl, rfl, rfl, rfl, rfl, rfl, rfl, rfl, rfl⟩

/-- Over the naturals: with a positive unit, `size <= maxsize`, storage that
holds the declared capacity and an allocator that succeeds, `hbuf_putc` returns
a buffer with size + 1, the old bytes and `c` at the old size; `maxsize` is
unchanged when `size < maxsize` and `maxsize + unit` otherwise; it is the
result of `hbuf_put` with the one-byte source `c`. -/
theorem hbuf_putc_grant (junk : Nat → Byte) (buf : lowdown_buf) (c : Byte)
    (hu : 0 < buf.unit) (hsz : buf.size ≤ buf.maxsize) (hal : buf.maxsize ≤ allocated buf) :
    ∃ buf', hbuf_putc (Alloc.grant junk) buf c = Res.ok buf' ∧
      buf'.size = buf.size + 1 ∧
      (block buf'.data).take buf.size = content buf ∧
      byteAt buf' buf.size = some c ∧
      content buf' = content buf ++ [c] ∧
      (buf.size < buf.maxsize → buf'.maxsize = buf.maxsize) ∧
      (¬ buf.size < buf.maxsize → buf'.maxsize = buf.maxsize + buf.unit) ∧
      buf'.unit = buf.unit ∧
      hbuf_put (Alloc.grant junk) buf (some [c]) 1 = Res.ok buf' := by
  rw [hbuf_putc_eq_put]
  have hne : [c] ≠ [] := by simp
  have hone : [c].length = 1 := rfl
  by_cases hlt : buf.size < buf.maxsize
  · have hrun := hbuf_put_fits (Alloc.grant junk) buf [c] hu hne (by rw [hone]; omega)
      (by rw [hone]; omega)
    rw [hone] at hrun
    have hlen : buf.size + [c].length ≤ (block buf.data).length := by
      unfold allocated at hal
      rw [hone]
      omega
    obtain ⟨_, w2, w3, w4, _⟩ := written_block (block buf.data) [c] buf.size hlen
    rw [hone] at w2 w3 w4
    refine ⟨_, hrun, rfl, w2, ?_, w3, fun _ => rfl, fun h => absurd hlt h, rfl, hrun⟩
    show ((block buf.data).take buf.size ++ [c] ++ (block buf.data).drop (buf.size + 1))[buf.size]?
      = some c
    have h4 := congrArg (fun l : List Byte => l[0]?) w4
    simpa using h4
  · obtain ⟨pp, k, hrun, hk, hge, hprev, hplen, htk⟩ :=
      hbuf_put_grows junk buf [c] hu hne (by rw [hone]; omega) (by omega)
    rw [hone] at hrun hge hprev
    have hk1 : k = 1 := by
      by_contra hcon
      have h2 : 2 ≤ k := by omega
      have : 1 * buf.unit ≤ (k - 1) * buf.unit := Nat.mul_le_mul_right _ (by omega)
      omega
    subst hk1
    have hlen : buf.size + [c].length ≤ pp.length := by
      rw [hone]
      omega
    obtain ⟨_, w2, w3, w4, _⟩ := written_block pp [c] buf.size hlen
    rw [hone] at w2 w3 w4
    refine ⟨_, hrun, rfl, ?_, ?_, ?_, fun h => absurd h hlt, fun _ => ?_, rfl, hrun⟩
    · show (pp.take buf.size ++ [c] ++ pp.drop (buf.size + 1)).take buf.size = content buf
      rw [w2]
      exact htk hsz
    · show (pp.take buf.size ++ [c] ++ pp.drop (buf.size + 1))[buf.size]? = some c
      have h4 := congrArg (fun l : List Byte => l[0]?) w4
      simpa using h4
    · show (pp.take buf.size ++ [c] ++ pp.drop (buf.size + 1)).take (buf.size + 1) =
        content buf ++ [c]
      rw [w3, htk hsz]
    · show buf.maxsize + 1 * buf.unit = buf.maxsize + buf.unit
      omega

/-! ## Formatted printing -/

/-- The subtraction of `size_t` values is the ordinary one when it does not
go below zero. -/
theorem size_sub_of_le (a b : Nat) (h : b ≤ a) : size_sub a b = a - b := by
  simp [size_sub, h]

/-- A call of `vsnprintf` with `avail >= 1` bytes of room inside the block:
it returns the length of the text, keeps the length of the block and the
bytes before `off`, and stores the whole text when it is shorter than `avail`. -/
theorem vsnprintf_room (blk f : List Byte) (off avail : Nat) (ha : 0 < avail)
    (hroom : off + avail ≤ blk.length) :
    ∃ blk2 : List Byte,
      vsnprintf (some blk) off avail (some f) = Res.ok ((f.length : Int), some blk2) ∧
      blk2.length = blk.length ∧ blk2.take off = blk.take off ∧
      (f.length < avail → blk2.take (off + f.length) = blk.take off ++ f) := by
  have ha0 : avail ≠ 0 := by omega
  have hk : min f.length (avail - 1) + 1 ≤ avail := by omega
  have hcond : off + min f.length (avail - 1) + 1 ≤ (block (some blk)).length := by
    show off + min f.length (avail - 1) + 1 ≤ blk.length
    omega
  have hslen : (f.take (min f.length (avail - 1)) ++ [(0 : Byte)]).length =
      min f.length (avail - 1) + 1 := by
    simp
  have hw := written_block blk (f.take (min f.length (avail - 1)) ++ [(0 : Byte)]) off
    (by rw [hslen]; omega)
  rw [hslen] at hw
  obtain ⟨w1, w2, _, _, _⟩ := hw
  have hassoc : blk.take off ++ f.take (min f.length (avail - 1)) ++ [(0 : Byte)] ++
      blk.drop (off + min f.length (avail - 1) + 1) =
      blk.take off ++ (f.take (min f.length (avail - 1)) ++ [(0 : Byte)]) ++
        blk.drop (off + (min f.length (avail - 1) + 1)) := by
    simp [List.append_assoc, Nat.add_assoc]
  refine ⟨blk.take off ++ f.take (min f.length (avail - 1)) ++ [(0 : Byte)] ++
      blk.drop (off + min f.length (avail - 1) + 1), ?_, ?_, ?_, ?_⟩
  · unfold vsnprintf
    simp only [ha0, if_false, hcond, if_true]
    rfl
  · rw [hassoc]
    exact w1
  · rw [hassoc]
    exact w2
  · intro hlt
    have hmin : min f.length (avail - 1) = f.length := by omega
    have hoff : (blk.take off).length = off := by
      simp
      omega
    rw [hmin, List.take_of_length_le (le_refl _), List.append_assoc (blk.take off ++ f)]
    rw [List.take_append_of_le_length (by simp; omega)]
    rw [List.take_of_length_le (by simp)]

/-- A record is equal to itself with `data` and `maxsize` written back. -/
theorem lowdown_buf_with_self (buf : lowdown_buf) (blk : List Byte) (hd : buf.data = some blk) :
    buf = { buf with data := some blk, maxsize := buf.maxsize } := by
  cases buf
  simp at hd
  simp [hd]

/-- With a positive unit, `size <= maxsize`, storage that holds the declared
capacity and an allocator that succeeds, `hbuf_printf` appends the whole text. -/
theorem hbuf_printf_grant (j1 j2 : Nat → Byte) (buf : lowdown_buf) (f : List Byte)
    (hu : 0 < buf.unit) (hsz : buf.size ≤ buf.maxsize) (hal : buf.maxsize ≤ allocated buf) :
    ∃ buf', hbuf_printf (Alloc.grant j1) (Alloc.grant j2) buf (some f) = Res.ok buf' ∧
      buf'.size = buf.size + f.length ∧ content buf' = content buf ++ f ∧
      buf'.size < buf'.maxsize ∧ buf'.maxsize ≤ allocated buf' ∧ buf'.unit = buf.unit ∧
      ∃ k, buf'.maxsize = buf.maxsize + k * buf.unit := by
  have hu0 : buf.unit ≠ 0 := by omega
  -- the buffer after the first capacity step
  obtain ⟨blk1, k1, hstep, hcap1, hblk1, htake1⟩ :
      ∃ (blk1 : List Byte) (k1 : Nat),
        (if buf.size ≥ buf.maxsize then hbuf_grow_drop (Alloc.grant j1) buf (buf.size + 1)
         else Res.ok buf) =
          Res.ok { buf with data := some blk1, maxsize := buf.maxsize + k1 * buf.unit } ∧
        buf.size < buf.maxsize + k1 * buf.unit ∧ buf.maxsize + k1 * buf.unit ≤ blk1.length ∧
        blk1.take buf.size = content buf := by
    by_cases hg : buf.size ≥ buf.maxsize
    · obtain ⟨pp, k, hrun, _, hge, _, hlen, htk⟩ :=
        hbuf_grow_drop_grant j1 buf (buf.size + 1) hu (by omega) (by omega)
      exact ⟨pp, k, by simp [hg, hrun], by omega, by omega, htk hsz⟩
    · cases hd : buf.data with
      | none =>
        unfold allocated at hal
        rw [hd] at hal
        have hal0 : buf.maxsize ≤ 0 := hal
        omega
      | some blk =>
        refine ⟨blk, 0, ?_, by omega, ?_, ?_⟩
        · simp only [hg, if_false, Nat.zero_mul, Nat.add_zero]
          congr 1
          exact lowdown_buf_with_self buf blk hd
        · unfold allocated at hal
          rw [hd] at hal
          have hal2 : buf.maxsize ≤ blk.length := hal
          omega
        · unfold content
          rw [hd]
          rfl
  have hsub1 : size_sub (buf.maxsize + k1 * buf.unit) buf.size =
      buf.maxsize + k1 * buf.unit - buf.size := size_sub_of_le _ _ (by omega)
  obtain ⟨blk2, hv1, hlen2, htake2, hall2⟩ :=
    vsnprintf_room blk1 f buf.size (buf.maxsize + k1 * buf.unit - buf.size) (by omega)
      (by omega)
  have hneg : ¬ ((f.length : Int) < 0) := by omega
  by_cases hfit : f.length < buf.maxsize + k1 * buf.unit - buf.size
  · -- the text fits: no second call of `hbuf_grow`
    have hge : ¬ (buf.maxsize + k1 * buf.unit - buf.size ≤ f.length) := by omega
    refine ⟨{ buf with
        data := some blk2
        size := buf.size + f.length
        maxsize := buf.maxsize + k1 * buf.unit }, ?_, rfl, ?_, ?_, ?_, rfl, ⟨k1, rfl⟩⟩
    · unfold hbuf_printf
      simp only [hu0, if_false, hstep, hsub1, hv1]
      simp [hge]
    · show blk2.take (buf.size + f.length) = content buf ++ f
      rw [hall2 hfit, htake1]
    · show buf.size + f.length < buf.maxsize + k1 * buf.unit
      omega
    · show buf.maxsize + k1 * buf.unit ≤ blk2.length
      omega
  · -- the text was cut: grow to `size + n + 1` and print again
    have hge : buf.maxsize + k1 * buf.unit - buf.size ≤ f.length := by omega
    have hal3 : ({ buf with data := some blk2, maxsize := buf.maxsize + k1 * buf.unit } :
        lowdown_buf).size ≤
        allocated { buf with data := some blk2, maxsize := buf.maxsize + k1 * buf.unit } := by
      show buf.size ≤ blk2.length
      omega
    obtain ⟨pp, k2, hrun2, _, hge2, _, hplen, hptake⟩ :=
      hbuf_grow_drop_grant j2
        { buf with data := some blk2, maxsize := buf.maxsize + k1 * buf.unit }
        (buf.size + f.length + 1) hu
        (by show buf.maxsize + k1 * buf.unit < buf.size + f.length + 1; omega) hal3
    have hge2b : buf.size + f.length + 1 ≤ buf.maxsize + k1 * buf.unit + k2 * buf.unit := hge2
    have hplen2 : pp.length = buf.maxsize + k1 * buf.unit + k2 * buf.unit := hplen
    have hptake2 : pp.take buf.size = blk2.take buf.size :=
      hptake (by show buf.size ≤ buf.maxsize + k1 * buf.unit; omega)
    have hsub2 : size_sub (buf.maxsize + k1 * buf.unit + k2 * buf.unit) buf.size =
        buf.maxsize + k1 * buf.unit + k2 * buf.unit - buf.size := size_sub_of_le _ _ (by omega)
    obtain ⟨blk3, hv3, hlen3, _, hall3⟩ :=
      vsnprintf_room pp f buf.size (buf.maxsize + k1 * buf.unit + k2 * buf.unit - buf.size)
        (by omega) (by omega)
    refine ⟨{ buf with
        data := some blk3
        size := buf.size + f.length
        maxsize := buf.maxsize + k1 * buf.unit + k2 * buf.unit }, ?_, rfl, ?_, ?_, ?_, rfl,
        ⟨k1 + k2, ?_⟩⟩
    · unfold hbuf_printf
      simp only [hu0, if_false, hstep, hsub1, hv1]
      simp only [hneg, if_false, Int.toNat_ofNat, ge_iff_le, hge, if_true, hrun2, hsub2, hv3]
    · show blk3.take (buf.size + f.length) = content buf ++ f
      rw [hall3 (by omega), hptake2, htake2, htake1]
    · show buf.size + f.length < buf.maxsize + k1 * buf.unit + k2 * buf.unit
      omega
    · show buf.maxsize + k1 * buf.unit + k2 * buf.unit ≤ blk3.length
      omega
    · show buf.maxsize + k1 * buf.unit + k2 * buf.unit = buf.maxsize + (k1 + k2) * buf.unit
      rw [Nat.add_mul]
      omega

/-- C13: with `vsnprintf` as the primitive that stores `min n (avail - 1)`
bytes of the text and a NUL and returns `n`: for a buffer with a positive
unit, `size <= maxsize`, storage that holds the declared capacity and an
allocator that succeeds, `hbuf_printf` returns size + n, the old content
followed by the whole text, and `maxsize` above the new size; a second
buffer with the same content and another capacity ends with the same size
and content. -/
theorem hbuf_printf_appends (j1 j2 j3 j4 : Nat → Byte) (buf buf2 : lowdown_buf)
    (f : List Byte)
    (hu : 0 < buf.unit) (hsz : buf.size ≤ buf.maxsize) (hal : buf.maxsize ≤ allocated buf)
    (hu2 : 0 < buf2.unit) (hsz2 : buf2.size ≤ buf2.maxsize)
    (hal2 : buf2.maxsize ≤ allocated buf2)
    (hsize : buf2.size = buf.size) (hcontent : content buf2 = content buf) :
    ∃ r r2, hbuf_printf (Alloc.grant j1) (Alloc.grant j2) buf (some f) = Res.ok r ∧
      r.size = buf.size + f.length ∧ content r = content buf ++ f ∧ r.size < r.maxsize ∧
      hbuf_printf (Alloc.grant j3) (Alloc.grant j4) buf2 (some f) = Res.ok r2 ∧
      r2.size = r.size ∧ content r2 = content r := by
  obtain ⟨r, hr, h1, h2, h3, _⟩ := hbuf_printf_grant j1 j2 buf f hu hsz hal
  obtain ⟨r2, hr2, g1, g2, _⟩ := hbuf_printf_grant j3 j4 buf2 f hu2 hsz2 hal2
  refine ⟨r, r2, hr, h1, h2, h3, hr2, ?_, ?_⟩
  · rw [g1, h1, hsize]
  · rw [g2, h2, hcontent]

theorem hbuf_printf_appends_witness :
    hbuf_printf (Alloc.grant fun _ => 7) (Alloc.grant fun _ => 8)
        (lowdown_buf.mk (some [65, 66, 1, 2, 3, 4, 5, 6]) 2 8 4 0) (some [67, 68, 69]) =
      Res.ok (lowdown_buf.mk (some [65, 66, 67, 68, 69, 0, 5, 6]) 5 8 4 0) ∧
    hbuf_printf (Alloc.grant fun _ => 7) (Alloc.grant fun _ => 8)
        (lowdown_buf.mk (some [65, 66, 9, 9]) 2 4 4 0) (some [67, 68, 69]) =
      Res.ok (lowdown_buf.mk (some [65, 66, 67, 68, 69, 0, 8, 8]) 5 8 4 0) ∧
    ∃ r r2, hbuf_printf (Alloc.grant fun _ => 7) (Alloc.grant fun _ => 8)
        (lowdown_buf.mk (some [65, 66, 1, 2, 3, 4, 5, 6]) 2 8 4 0) (some [67, 68, 69]) =
        Res.ok r ∧
      r.size = 2 + 3 ∧
      content r = content (lowdown_buf.mk (some [65, 66, 1, 2, 3, 4, 5, 6]) 2 8 4 0) ++
        [67, 68, 69] ∧
      r.size < r.maxsize ∧
      hbuf_printf (Alloc.grant fun _ => 7) (Alloc.grant fun _ => 8)
        (lowdown_buf.mk (some [65, 66, 9, 9]) 2 4 4 0) (some [67, 68, 69]) = Res.ok r2 ∧
      r2.size = r.size ∧ content r2 = content r :=
  ⟨by decide, by decide,
    hbuf_printf_appends (fun _ => 7) (fun _ => 8) (fun _ => 7) (fun _ => 8)
      (lowdown_buf.mk (some [65, 66, 1, 2, 3, 4, 5, 6]) 2 8 4 0)
      (lowdown_buf.mk (some [65, 66, 9, 9]) 2 4 4 0) [67, 68, 69]
      (by decide) (by decide) (by decide) (by decide) (by decide) (by decide)
      (by decide) (by decide)⟩

/-! ## Capacity changes by whole units -/

theorem grown_by_units_refl (buf : lowdown_buf) : grown_by_units buf buf :=
  ⟨rfl, 0, by simp⟩

theorem grown_by_units_trans (b1 b2 b3 : lowdown_buf) (h12 : grown_by_units b1 b2)
    (h23 : grown_by_units b2 b3) : grown_by_units b1 b3 := by
  obtain ⟨u12, k1, m12⟩ := h12
  obtain ⟨u23, k2, m23⟩ := h23
  refine ⟨by rw [u23, u12], k1 + k2, ?_⟩
  rw [m23, m12, u12, Nat.add_mul]
  omega

/-- What `hbuf_grow` may change: `data` and `maxsize`, the latter by whole units. -/
theorem hbuf_grow_units (a : Alloc) (buf : lowdown_buf) (neosz : Nat) (r : Int)
    (buf2 : lowdown_buf) (hu : 0 < buf.unit) (h : hbuf_grow a buf neosz = Res.ok (r, buf2)) :
    grown_by_units buf buf2 ∧ buf2.size = buf.size ∧ (r = 0 ∨ r = 1) := by
  rcases hbuf_grow_cases a buf neosz hu with ⟨_, hrun⟩ | ⟨_, k, _, _, _, _, hrun⟩
  · rw [hrun] at h
    injection h with h
    injection h with h1 h2
    subst h2
    exact ⟨grown_by_units_refl buf, rfl, Or.inr h1.symm⟩
  · rcases hrun with ⟨_, hrun⟩ | ⟨junk, _, hrun⟩
    · rw [hrun] at h
      injection h with h
      injection h with h1 h2
      subst h2
      exact ⟨grown_by_units_refl buf, rfl, Or.inl h1.symm⟩
    · rw [hrun] at h
      injection h with h
      injection h with h1 h2
      subst h2
      exact ⟨⟨rfl, k, rfl⟩, rfl, Or.inr h1.symm⟩

theorem hbuf_grow_drop_units (a : Alloc) (buf : lowdown_buf) (neosz : Nat)
    (buf2 : lowdown_buf) (hu : 0 < buf.unit) (h : hbuf_grow_drop a buf neosz = Res.ok buf2) :
    grown_by_units buf buf2 ∧ buf2.size = buf.size := by
  unfold hbuf_grow_drop at h
  cases hg : hbuf_grow a buf neosz with
  | fault f => simp [hg] at h
  | ok p =>
    obtain ⟨r, b⟩ := p
    simp only [hg] at h
    injection h with h
    subst h
    exact ⟨(hbuf_grow_units a buf neosz r b hu hg).1, (hbuf_grow_units a buf neosz r b hu hg).2.1⟩

/-- The capacity step at the head of the append functions. -/
theorem grow_step_units (a : Alloc) (buf : lowdown_buf) (c : Prop) [Decidable c] (neosz : Nat)
    (buf2 : lowdown_buf) (hu : 0 < buf.unit)
    (h : (if c then hbuf_grow_drop a buf neosz else Res.ok buf) = Res.ok buf2) :
    grown_by_units buf buf2 ∧ buf2.size = buf.size := by
  by_cases hc : c
  · simp only [hc, if_true] at h
    exact hbuf_grow_drop_units a buf neosz buf2 hu h
  · simp only [hc, if_false] at h
    injection h with h
    subst h
    exact ⟨grown_by_units_refl buf, rfl⟩

theorem hbuf_put_units (a : Alloc) (buf : lowdown_buf) (d : Option (List Byte)) (n : Nat)
    (buf2 : lowdown_buf) (hu : 0 < buf.unit) (h : hbuf_put a buf d n = Res.ok buf2) :
    grown_by_units buf buf2 := by
  have hu0 : buf.unit ≠ 0 := by omega
  unfold hbuf_put at h
  simp only [hu0, if_false] at h
  by_cases hnull : d = none ∨ n = 0
  · simp only [hnull, if_true] at h
    injection h with h
    subst h
    exact grown_by_units_refl buf
  · simp only [hnull, if_false] at h
    cases hstep : (if buf.size + n > buf.maxsize then hbuf_grow_drop a buf (buf.size + n)
        else Res.ok buf) with
    | fault f => simp [hstep] at h
    | ok buf1 =>
      simp only [hstep] at h
      cases hm : memcpy buf1.data buf1.size d n with
      | fault f => simp [hm] at h
      | ok d2 =>
        simp only [hm] at h
        injection h with h
        subst h
        exact (grow_step_units a buf _ _ buf1 hu hstep).1

theorem hbuf_putf_loop_units (alloc : Nat → Alloc) :
    ∀ (fuel i : Nat) (buf : lowdown_buf) (file : FILE) (run : putf_run), 0 < buf.unit →
      hbuf_putf_loop alloc fuel i buf file = Res.ok run → grown_by_units buf run.buf := by
  intro fuel
  induction fuel with
  | zero =>
    intro i buf file run _ h
    unfold hbuf_putf_loop at h
    by_cases hend : (feof file || ferror file) = true
    · simp only [hend, if_true] at h
      injection h with h
      subst h
      exact grown_by_units_refl buf
    · simp [hend] at h
  | succ fuel ih =>
    intro i buf file run hu h
    unfold hbuf_putf_loop at h
    by_cases hend : (feof file || ferror file) = true
    · simp only [hend, if_true] at h
      injection h with h
      subst h
      exact grown_by_units_refl buf
    · simp only [hend] at h
      cases hg : hbuf_grow (alloc i) buf (buf.size + buf.unit) with
      | fault f => simp [hg] at h
      | ok p =>
        obtain ⟨r, buf1⟩ := p
        have h1 := (hbuf_grow_units (alloc i) buf _ r buf1 hu hg).1
        simp only [hg] at h
        by_cases hr : r = 0
        · simp only [hr, if_true] at h
          injection h with h
          subst h
          exact h1
        · simp only [hr, if_false] at h
          cases hf : fread buf1.data buf1.size buf1.unit file with
          | fault f => simp [hf] at h
          | ok q =>
            obtain ⟨k, d, file1⟩ := q
            simp only [hf] at h
            cases hrec : hbuf_putf_loop alloc fuel (i + 1)
                { buf1 with data := d, size := buf1.size + k } file1 with
            | fault f => simp [hrec] at h
            | ok run1 =>
              simp only [hrec] at h
              injection h with h
              subst h
              have hu1 : 0 < ({ buf1 with data := d, size := buf1.size + k } :
                  lowdown_buf).unit := by
                show 0 < buf1.unit
                rw [h1.1]
                exact hu
              have h2 := ih (i + 1) _ file1 run1 hu1 hrec
              exact grown_by_units_trans buf { buf1 with data := d, size := buf1.size + k }
                run1.buf h1 h2

/-! ## Reading a stream -/

/-- Once an indicator of the stream is set the loop of `hbuf_putf` is over. -/
theorem hbuf_putf_loop_ended (alloc : Nat → Alloc) (fuel i : Nat) (buf : lowdown_buf)
    (file : FILE) (h : (feof file || ferror file) = true) :
    hbuf_putf_loop alloc fuel i buf file =
      Res.ok { ret := if ferror file then 0 else 1, buf := buf, file := file, grows := [] } := by
  cases fuel <;> simp [hbuf_putf_loop, h]

/-- A call of `hbuf_grow` for a positive target on a buffer whose storage
holds the declared capacity: it fails and changes nothing, or it returns 1
with storage and capacity that cover the target and the old content in place. -/
theorem hbuf_grow_room (a : Alloc) (buf : lowdown_buf) (neosz : Nat) (hu : 0 < buf.unit)
    (hpos : 0 < neosz) (hsz : buf.size ≤ buf.maxsize) (hal : buf.maxsize ≤ allocated buf) :
    (a = Alloc.fail ∧ buf.maxsize < neosz ∧ hbuf_grow a buf neosz = Res.ok (0, buf)) ∨
    ∃ (blk1 : List Byte) (k1 : Nat),
      hbuf_grow a buf neosz =
        Res.ok (1, { buf with data := some blk1, maxsize := buf.maxsize + k1 * buf.unit }) ∧
      (a = Alloc.fail → neosz ≤ buf.maxsize) ∧
      neosz ≤ buf.maxsize + k1 * buf.unit ∧ buf.maxsize + k1 * buf.unit ≤ blk1.length ∧
      blk1.take buf.size = content buf := by
  rcases hbuf_grow_cases a buf neosz hu with ⟨hle, hrun⟩ | ⟨hlt, k, _, hge, _, _, hrun⟩
  · right
    cases hd : buf.data with
    | none =>
      unfold allocated at hal
      rw [hd] at hal
      have hal0 : buf.maxsize ≤ 0 := hal
      omega
    | some blk =>
      refine ⟨blk, 0, ?_, fun _ => hle, by omega, ?_, ?_⟩
      · rw [hrun]
        simp only [Nat.zero_mul, Nat.add_zero]
        congr 2
        exact lowdown_buf_with_self buf blk hd
      · unfold allocated at hal
        rw [hd] at hal
        have hal2 : buf.maxsize ≤ blk.length := hal
        omega
      · unfold content
        rw [hd]
        rfl
  · rcases hrun with ⟨ha, hrun⟩ | ⟨junk, ha, hrun⟩
    · left
      exact ⟨ha, hlt, hrun⟩
    · right
      have halloc : buf.size ≤ (block buf.data).length := by
        unfold allocated at hal
        omega
      obtain ⟨pp, hpp, hlen, htake⟩ :=
        realloc_take junk buf.data (buf.maxsize + k * buf.unit) buf.size (by omega) halloc
      refine ⟨pp, k, ?_, ?_, hge, by omega, htake⟩
      · rw [hrun, hpp]
      · intro hf
        rw [hf] at ha
        cases ha

/-- A call of `fread` whose bytes fit into the block. -/
theorem fread_into (blk : List Byte) (off n : Nat) (file : FILE)
    (h : off + min n file.rest.length ≤ blk.length) :
    fread (some blk) off n file =
      Res.ok (min n file.rest.length,
        some (blk.take off ++ file.rest.take (min n file.rest.length) ++
          blk.drop (off + min n file.rest.length)),
        { file with
          rest := file.rest.drop (min n file.rest.length)
          eof := file.eof || (decide (file.rest.length < n) && !file.fails)
          err := file.err || (decide (file.rest.length < n) && file.fails) }) := by
  unfold fread
  have h2 : off + min n file.rest.length ≤ (block (some blk)).length := h
  simp only [h2, if_true]
  rfl

/-- One execution of the loop body of `hbuf_putf` in which `hbuf_grow` returns 1. -/
theorem hbuf_putf_loop_step (alloc : Nat → Alloc) (fuel i : Nat) (buf buf1 : lowdown_buf)
    (file file1 : FILE) (k : Nat) (d : Option (List Byte)) (run1 : putf_run)
    (hnotend : (feof file || ferror file) = false)
    (hg : hbuf_grow (alloc i) buf (buf.size + buf.unit) = Res.ok (1, buf1))
    (hf : fread buf1.data buf1.size buf1.unit file = Res.ok (k, d, file1))
    (hrec : hbuf_putf_loop alloc fuel (i + 1) { buf1 with data := d, size := buf1.size + k }
      file1 = Res.ok run1) :
    hbuf_putf_loop alloc (fuel + 1) i buf file =
      Res.ok { run1 with grows := 1 :: run1.grows } := by
  unfold hbuf_putf_loop
  simp [hnotend, hg, hf, hrec]

/-- The loop of `hbuf_putf` on a buffer with a positive unit, `size <= maxsize`
and storage that holds the declared capacity, reading a stream none of whose
indicators is set: it returns; if a call of `hbuf_grow` returned 0 it returns
0; otherwise it returns 1 exactly when the stream ends without an error, and
the buffer holds its old content followed by all bytes of the stream. -/
theorem hbuf_putf_loop_spec (alloc : Nat → Alloc) :
    ∀ (fuel i : Nat) (buf : lowdown_buf) (file : FILE), 0 < buf.unit →
      buf.size ≤ buf.maxsize → buf.maxsize ≤ allocated buf →
      file.eof = false → file.err = false → file.rest.length < fuel →
      ∃ run, hbuf_putf_loop alloc fuel i buf file = Res.ok run ∧
        (run.ret = 0 ∨ run.ret = 1) ∧
        (0 ∈ run.grows → run.ret = 0) ∧
        (0 ∉ run.grows →
          (run.ret = 1 ↔ file.fails = false) ∧
          run.buf.size = buf.size + file.rest.length ∧
          content run.buf = content buf ++ file.rest ∧
          run.buf.size ≤ run.buf.maxsize) ∧
        ((∀ j, i ≤ j → alloc j ≠ Alloc.fail) → 0 ∉ run.grows) := by
  intro fuel
  induction fuel with
  | zero =>
    intro i buf file _ _ _ _ _ hfuel
    omega
  | succ fuel ih =>
    intro i buf file hu hsz hal he hr hfuel
    have hnotend : (feof file || ferror file) = false := by simp [feof, ferror, he, hr]
    rcases hbuf_grow_room (alloc i) buf (buf.size + buf.unit) hu (by omega) hsz hal with
      ⟨ha, _, hrun⟩ | ⟨blk1, k1, hrun, _, hge, hlen, htake⟩
    · -- `hbuf_grow` fails: `return 0`
      refine ⟨{ ret := 0, buf := buf, file := file, grows := [0] }, ?_, Or.inl rfl,
        fun _ => rfl, ?_, ?_⟩
      · unfold hbuf_putf_loop
        simp [hnotend, hrun]
      · intro h
        exact absurd (List.mem_singleton_self (0 : Int)) h
      · intro hall
        exact absurd ha (hall i (le_refl i))
    · have hroom : buf.size + min buf.unit file.rest.length ≤ blk1.length := by omega
      have hfr := fread_into blk1 buf.size buf.unit file hroom
      have htl : (file.rest.take (min buf.unit file.rest.length)).length =
          min buf.unit file.rest.length := by
        simp
      have hw := written_block blk1 (file.rest.take (min buf.unit file.rest.length)) buf.size
        (by rw [htl]; exact hroom)
      rw [htl] at hw
      obtain ⟨w1, _, w3, _, _⟩ := hw
      by_cases hshort : file.rest.length < buf.unit
      · -- the stream runs out in this read: an indicator is set
        have hmin : min buf.unit file.rest.length = file.rest.length := by omega
        rw [hmin] at hfr w1 w3
        rw [List.take_of_length_le (le_refl _)] at hfr w3
        have hend1 : (feof { file with
              rest := file.rest.drop file.rest.length
              eof := file.eof || (decide (file.rest.length < buf.unit) && !file.fails)
              err := file.err || (decide (file.rest.length < buf.unit) && file.fails) } ||
            ferror { file with
              rest := file.rest.drop file.rest.length
              eof := file.eof || (decide (file.rest.length < buf.unit) && !file.fails)
              err := file.err || (decide (file.rest.length < buf.unit) && file.fails) }) =
            true := by
          simp [feof, ferror, he, hr, hshort]
        have hrec := hbuf_putf_loop_ended alloc fuel (i + 1)
          { buf with
            data := some (blk1.take buf.size ++ file.rest ++
              blk1.drop (buf.size + file.rest.length))
            size := buf.size + file.rest.length
            maxsize := buf.maxsize + k1 * buf.unit } _ hend1
        have hstep := hbuf_putf_loop_step alloc fuel i buf _ file _ _ _ _ hnotend hrun hfr hrec
        refine ⟨_, hstep, ?_, ?_, ?_, ?_⟩
        · show (if (file.err || (decide (file.rest.length < buf.unit) && file.fails)) = true
            then (0 : Int) else 1) = 0 ∨ _ = 1
          by_cases hf : file.fails = true <;> simp [ferror, hr, hshort, hf]
        · intro hmem
          simp at hmem
        · intro _
          refine ⟨?_, rfl, ?_, ?_⟩
          · show (if (file.err || (decide (file.rest.length < buf.unit) && file.fails)) = true
              then (0 : Int) else 1) = 1 ↔ _
            by_cases hf : file.fails = true <;> simp [ferror, hr, hshort, hf]
          · show (blk1.take buf.size ++ file.rest ++
              blk1.drop (buf.size + file.rest.length)).take (buf.size + file.rest.length) = _
            rw [w3, htake]
          · show buf.size + file.rest.length ≤ buf.maxsize + k1 * buf.unit
            omega
        · intro _ hmem
          simp at hmem
      · -- a full read of `unit` bytes: go round again
        have hmin : min buf.unit file.rest.length = buf.unit := by omega
        rw [hmin] at hfr w1 w3
        have hflag : decide (file.rest.length < buf.unit) = false := by simp [hshort]
        obtain ⟨run1, hrec, hret, hzero, hgood, hall⟩ := ih (i + 1)
          { buf with
            data := some (blk1.take buf.size ++ file.rest.take buf.unit ++
              blk1.drop (buf.size + buf.unit))
            size := buf.size + buf.unit
            maxsize := buf.maxsize + k1 * buf.unit }
          { file with
            rest := file.rest.drop buf.unit
            eof := file.eof || (decide (file.rest.length < buf.unit) && !file.fails)
            err := file.err || (decide (file.rest.length < buf.unit) && file.fails) }
          hu (by show buf.size + buf.unit ≤ buf.maxsize + k1 * buf.unit; omega)
          (by
            show buf.maxsize + k1 * buf.unit ≤ (blk1.take buf.size ++
              file.rest.take buf.unit ++ blk1.drop (buf.size + buf.unit)).length
            omega)
          (by simp [he, hflag]) (by simp [hr, hflag])
          (by
            show (file.rest.drop buf.unit).length < fuel
            simp
            omega)
        have hstep := hbuf_putf_loop_step alloc fuel i buf _ file _ _ _ run1 hnotend hrun hfr
          hrec
        refine ⟨_, hstep, hret, ?_, ?_, ?_⟩
        · intro hmem
          have hmem1 : (0 : Int) ∈ run1.grows := by
            rcases List.mem_cons.mp hmem with h | h
            · exact absurd h (by decide)
            · exact h
          exact hzero hmem1
        · intro hnot
          have hnot1 : (0 : Int) ∉ run1.grows := fun h => hnot (List.mem_cons_of_mem _ h)
          obtain ⟨g1, g2, g3, g4⟩ := hgood hnot1
          refine ⟨g1, ?_, ?_, g4⟩
          · show run1.buf.size = buf.size + file.rest.length
            rw [g2]
            show buf.size + buf.unit + (file.rest.drop buf.unit).length = _
            simp
            omega
          · show content run1.buf = content buf ++ file.rest
            rw [g3]
            show (blk1.take buf.size ++ file.rest.take buf.unit ++
              blk1.drop (buf.size + buf.unit)).take (buf.size + buf.unit) ++
              file.rest.drop buf.unit = _
            rw [w3, htake, List.append_assoc, List.take_append_drop]
        · intro hallj hmem
          have hmem1 : (0 : Int) ∈ run1.grows := by
            rcases List.mem_cons.mp hmem with h | h
            · exact absurd h (by decide)
            · exact h
          exact hall (fun j hj => hallj j (by omega)) hmem1

/-! ## The invariant `size <= maxsize` -/

/-- C15 (the code breaks it): a buffer holds "ABCD" with `size = maxsize = 4`,
so `size <= maxsize`, and the allocator fails. `hbuf_printf` of a one-byte
text drops the 0 that `hbuf_grow` returns and comes back with `size = 5` and
`maxsize = 4`; `hbuf_put` and `hbuf_putc` write outside the storage. The
sibling `hbuf_putf` tests the value, returns 0 and keeps the buffer. -/
theorem size_le_maxsize_after_failed_grow :
    (lowdown_buf.mk (some [65, 66, 67, 68]) 4 4 4 0).size ≤
      (lowdown_buf.mk (some [65, 66, 67, 68]) 4 4 4 0).maxsize ∧
    hbuf_printf Alloc.fail Alloc.fail (lowdown_buf.mk (some [65, 66, 67, 68]) 4 4 4 0)
        (some [69]) =
      Res.ok (lowdown_buf.mk (some [65, 66, 67, 68]) 5 4 4 0) ∧
    ¬ ((lowdown_buf.mk (some [65, 66, 67, 68]) 5 4 4 0).size ≤
      (lowdown_buf.mk (some [65, 66, 67, 68]) 5 4 4 0).maxsize) ∧
    hbuf_put Alloc.fail (lowdown_buf.mk (some [65, 66, 67, 68]) 4 4 4 0) (some [69]) 1 =
      Res.fault Fault.bounds ∧
    hbuf_putc Alloc.fail (lowdown_buf.mk (some [65, 66, 67, 68]) 4 4 4 0) 69 =
      Res.fault Fault.bounds ∧
    hbuf_putf (fun _ => Alloc.fail) (lowdown_buf.mk (some [65, 66, 67, 68]) 4 4 4 0)
        (stream [69] false) =
      Res.ok (putf_run.mk 0 (lowdown_buf.mk (some [65, 66, 67, 68]) 4 4 4 0)
        (stream [69] false) [0]) := by
  decide

/-! ## Bytes from `size` on are not read -/

/-- The first `n <= size` bytes of the storage are the first `n` bytes of the
content. -/
theorem take_block_eq_take_content (b : lowdown_buf) (n : Nat) (hn : n ≤ b.size) :
    (block b.data).take n = (content b).take n := by
  unfold content
  rw [List.take_take, Nat.min_eq_left hn]

/-- A call of `memcmp` on the first `n <= size` bytes gives the same on two
buffers that agree below `size`. -/
theorem memcmp_same (b1 b2 : lowdown_buf) (h : same_below_size b1 b2)
    (q : Option (List Byte)) (n : Nat) (hn : n ≤ b1.size) :
    memcmp b1.data q n = memcmp b2.data q n := by
  obtain ⟨hs, _, _, ha, hc⟩ := h
  unfold memcmp
  have hlen : (block b1.data).length = (block b2.data).length := ha
  rw [take_block_eq_take_content b1 n hn, take_block_eq_take_content b2 n (by omega), hc, hlen]

/-- Two buffers that agree below `size` give `hbuf_grow` the same returned
value and come back agreeing below `size`. -/
theorem hbuf_grow_same (a : Alloc) (b1 b2 : lowdown_buf) (neosz : Nat)
    (h : same_below_size b1 b2) (hsz : b1.size ≤ b1.maxsize) (hal : b1.size ≤ allocated b1) :
    (∃ f, hbuf_grow a b1 neosz = Res.fault f ∧ hbuf_grow a b2 neosz = Res.fault f) ∨
    ∃ r c1 c2, hbuf_grow a b1 neosz = Res.ok (r, c1) ∧ hbuf_grow a b2 neosz = Res.ok (r, c2) ∧
      same_below_size c1 c2 ∧ c1.size = b1.size ∧ c1.size ≤ allocated c1 ∧
      content c1 = content b1 := by
  obtain ⟨hs, hm, hun, ha, hc⟩ := h
  have hneo : hbuf_grow_neoasz b2 neosz = hbuf_grow_neoasz b1 neosz := by
    unfold hbuf_grow_neoasz
    rw [hm, hun]
  unfold hbuf_grow
  rw [hneo, ← hm]
  by_cases hle : b1.maxsize ≥ neosz
  · right
    simp only [hle, if_true]
    exact ⟨1, b1, b2, rfl, rfl, ⟨hs, hm, hun, ha, hc⟩, rfl, hal, rfl⟩
  · simp only [hle, if_false]
    cases hrun : hbuf_grow_neoasz b1 neosz with
    | none =>
      left
      exact ⟨Fault.hang, rfl, rfl⟩
    | some nn =>
      right
      have hnn : neosz ≤ nn := hbuf_grow_loop_ge _ _ _ _ _ hrun
      cases a with
      | fail =>
        simp only [realloc]
        exact ⟨0, b1, b2, rfl, rfl, ⟨hs, hm, hun, ha, hc⟩, rfl, hal, rfl⟩
      | grant junk =>
        have hal2 : b2.size ≤ (block b2.data).length := by
          unfold allocated at ha hal
          omega
        obtain ⟨p1, hp1, hl1, ht1⟩ := realloc_take junk b1.data nn b1.size (by omega) hal
        obtain ⟨p2, hp2, hl2, ht2⟩ := realloc_take junk b2.data nn b2.size (by omega) hal2
        simp only [hp1, hp2]
        refine ⟨1, _, _, rfl, rfl, ⟨hs, rfl, hun, ?_, ?_⟩, rfl, ?_, ?_⟩
        · show p1.length = p2.length
          rw [hl1, hl2]
        · show p1.take b1.size = p2.take b2.size
          rw [ht1, ht2]
          exact hc
        · show b1.size ≤ p1.length
          omega
        · show p1.take b1.size = content b1
          exact ht1

/-- What a reader sees after the copy step of `hbuf_put`: it depends on the
size, the amount of storage and the content of the buffer only. -/
theorem put_tail_view (c : lowdown_buf) (d : Option (List Byte)) (n : Nat) (hn : n ≠ 0) :
    Res.map view
      (match memcpy c.data c.size d n with
        | Res.fault f => Res.fault f
        | Res.ok dd => Res.ok { c with data := dd, size := c.size + n }) =
      if c.size + n ≤ allocated c ∧ n ≤ (block d).length then
        Res.ok (c.size + n, content c ++ (block d).take n)
      else Res.fault Fault.bounds := by
  unfold memcpy allocated
  by_cases hcond : c.size + n ≤ (block c.data).length ∧ n ≤ (block d).length
  · simp only [hcond, and_self, if_true]
    cases hd : c.data with
    | none =>
      rw [hd] at hcond
      have h0 : c.size + n ≤ 0 := hcond.1
      omega
    | some blk =>
      rw [hd] at hcond
      have hfit : c.size + n ≤ blk.length := hcond.1
      have hsl : ((block d).take n).length = n := by
        simp
        exact hcond.2
      have hw := written_block blk ((block d).take n) c.size (by rw [hsl]; exact hfit)
      rw [hsl] at hw
      obtain ⟨_, _, w3, _, _⟩ := hw
      show Res.ok (c.size + n,
        (blk.take c.size ++ (block d).take n ++ blk.drop (c.size + n)).take (c.size + n)) = _
      rw [w3]
      unfold content
      rw [hd]
      rfl
  · simp only [hcond, if_false]
    rfl

/-- Two buffers that agree below `size` look the same after `hbuf_put`. -/
theorem hbuf_put_same (a : Alloc) (b1 b2 : lowdown_buf) (d : Option (List Byte)) (n : Nat)
    (h : same_below_size b1 b2) (hsz : b1.size ≤ b1.maxsize) (hal : b1.size ≤ allocated b1) :
    Res.map view (hbuf_put a b1 d n) = Res.map view (hbuf_put a b2 d n) := by
  have hview : ∀ c1 c2 : lowdown_buf, same_below_size c1 c2 → view c1 = view c2 := by
    intro c1 c2 hc
    unfold view
    rw [hc.1, hc.2.2.2.2]
  have htail : ∀ c1 c2 : lowdown_buf, same_below_size c1 c2 → n ≠ 0 →
      Res.map view
        (match memcpy c1.data c1.size d n with
          | Res.fault f => Res.fault f
          | Res.ok dd => Res.ok { c1 with data := dd, size := c1.size + n }) =
      Res.map view
        (match memcpy c2.data c2.size d n with
          | Res.fault f => Res.fault f
          | Res.ok dd => Res.ok { c2 with data := dd, size := c2.size + n }) := by
    intro c1 c2 hc hn
    rw [put_tail_view c1 d n hn, put_tail_view c2 d n hn, hc.1, hc.2.2.2.1, hc.2.2.2.2]
  obtain ⟨hs, hm, hun, ha, hc⟩ := h
  unfold hbuf_put
  rw [← hun, ← hs, ← hm]
  by_cases hu0 : b1.unit = 0
  · simp [hu0]
  · simp only [hu0, if_false]
    by_cases hnull : d = none ∨ n = 0
    · simp only [hnull, if_true]
      show Res.ok (view b1) = Res.ok (view b2)
      rw [hview b1 b2 ⟨hs, hm, hun, ha, hc⟩]
    · simp only [hnull, if_false]
      have hn : n ≠ 0 := fun h0 => hnull (Or.inr h0)
      by_cases hg : b1.size + n > b1.maxsize
      · simp only [hg, if_true]
        unfold hbuf_grow_drop
        rcases hbuf_grow_same a b1 b2 (b1.size + n) ⟨hs, hm, hun, ha, hc⟩ hsz hal with
          ⟨f, h1, h2⟩ | ⟨r, c1, c2, h1, h2, hcc, _, _, _⟩
        · rw [h1, h2]
        · rw [h1, h2]
          exact htail c1 c2 hcc hn
      · simp only [hg, if_false]
        exact htail b1 b2 ⟨hs, hm, hun, ha, hc⟩ hn

/-- Two buffers that agree below `size` look the same to a reader. -/
theorem view_same (c1 c2 : lowdown_buf) (h : same_below_size c1 c2) : view c1 = view c2 := by
  unfold view
  rw [h.1, h.2.2.2.2]

/-- Two sources that agree below `size` give clones that look the same. -/
theorem hbuf_clone_same (a : Alloc) (b1 b2 v : lowdown_buf) (h : same_below_size b1 b2) :
    Res.map (fun p => view p.2) (hbuf_clone a b1 v) =
      Res.map (fun p => view p.2) (hbuf_clone a b2 v) := by
  obtain ⟨hs, hm, hun, ha, hc⟩ := h
  have hlen : (block b1.data).length = (block b2.data).length := ha
  have htk : (block b1.data).take b2.size = (block b2.data).take b2.size := by
    have := hc
    unfold content at this
    rw [hs] at this
    exact this
  unfold hbuf_clone
  rw [hs]
  by_cases h0 : b2.size = 0
  · simp [h0, Res.map, view, content]
  · simp only [ne_eq, h0, not_false_eq_true, if_true]
    cases a with
    | fail => simp [xmalloc, Res.map]
    | grant junk =>
      simp only [xmalloc]
      unfold memcpy
      rw [hlen, htk]
      by_cases hcond : 0 + b2.size ≤ (block (some ((List.range b2.size).map junk))).length ∧
          b2.size ≤ (block b2.data).length
      · simp only [hcond, and_self, if_true]
        simp [Res.map, view, content]
      · simp only [hcond, if_false]

/-- C19: two buffers agree on `size`, `maxsize`, `unit`, the amount of storage
and every byte below `size`, and differ at will from `size` on. Then
`hbuf_eq`, `hbuf_streq` and `hbuf_strprefix` return the same on both, the
clones of both have the same size and bytes, and (for `size <= maxsize`, bytes
below `size` in storage) `hbuf_put`, `hbuf_putc` and `hbuf_grow` with the same
arguments and allocator outcome return the same value and leave the same
size and the same bytes below the new size, or fail alike. -/
theorem bytes_from_size_not_read (b1 b2 : lowdown_buf) (h : same_below_size b1 b2) :
    (∀ x, hbuf_eq b1 x = hbuf_eq b2 x ∧ hbuf_eq x b1 = hbuf_eq x b2) ∧
    (∀ text, hbuf_streq b1 text = hbuf_streq b2 text) ∧
    (∀ text, hbuf_strprefix b1 text = hbuf_strprefix b2 text) ∧
    (∀ a v, Res.map (fun p => view p.2) (hbuf_clone a b1 v) =
      Res.map (fun p => view p.2) (hbuf_clone a b2 v)) ∧
    (b1.size ≤ b1.maxsize → b1.size ≤ allocated b1 →
      (∀ a d n, Res.map view (hbuf_put a b1 d n) = Res.map view (hbuf_put a b2 d n)) ∧
      (∀ a c, Res.map view (hbuf_putc a b1 c) = Res.map view (hbuf_putc a b2 c)) ∧
      (∀ a n, Res.map (fun p => (p.1, view p.2)) (hbuf_grow a b1 n) =
        Res.map (fun p => (p.1, view p.2)) (hbuf_grow a b2 n))) := by
  have hs := h.1
  have hc := h.2.2.2.2
  refine ⟨?_, ?_, ?_, ?_, ?_⟩
  · intro x
    constructor
    · rw [hbuf_eq_content, hbuf_eq_content b2 x, hs, hc]
    · rw [hbuf_eq_content, hbuf_eq_content x b2, hs, hc]
  · intro text
    unfold hbuf_streq
    cases strlen text with
    | fault f => rfl
    | ok sz =>
      simp only []
      rw [← hs]
      by_cases he : b1.size = sz
      · simp only [he, if_true]
        rw [memcmp_same b1 b2 h (some text) sz (by omega)]
      · simp only [he, if_false]
  · intro text
    unfold hbuf_strprefix
    cases strlen text with
    | fault f => rfl
    | ok sz =>
      simp only []
      rw [← hs]
      by_cases he : b1.size ≥ sz
      · simp only [he, if_true]
        rw [memcmp_same b1 b2 h (some text) sz he]
      · simp only [he, if_false]
  · intro a v
    exact hbuf_clone_same a b1 b2 v h
  · intro hsz hal
    refine ⟨?_, ?_, ?_⟩
    · intro a d n
      exact hbuf_put_same a b1 b2 d n h hsz hal
    · intro a c
      rw [hbuf_putc_eq_put, hbuf_putc_eq_put]
      exact hbuf_put_same a b1 b2 (some [c]) 1 h hsz hal
    · intro a n
      rcases hbuf_grow_same a b1 b2 n h hsz hal with
        ⟨f, h1, h2⟩ | ⟨r, c1, c2, h1, h2, hcc, _, _, _⟩
      · rw [h1, h2]
      · rw [h1, h2]
        show Res.ok (r, view c1) = Res.ok (r, view c2)
        rw [view_same c1 c2 hcc]

theorem bytes_from_size_not_read_witness :
    same_below_size (lowdown_buf.mk (some [65, 66, 1, 2]) 2 4 4 0)
      (lowdown_buf.mk (some [65, 66, 8, 9]) 2 4 4 1) ∧
    hbuf_put Alloc.fail (lowdown_buf.mk (some [65, 66, 1, 2]) 2 4 4 0) (some [67]) 1 =
      Res.ok (lowdown_buf.mk (some [65, 66, 67, 2]) 3 4 4 0) ∧
    hbuf_put Alloc.fail (lowdown_buf.mk (some [65, 66, 8, 9]) 2 4 4 1) (some [67]) 1 =
      Res.ok (lowdown_buf.mk (some [65, 66, 67, 9]) 3 4 4 1) ∧
    Res.map view
        (hbuf_put Alloc.fail (lowdown_buf.mk (some [65, 66, 1, 2]) 2 4 4 0) (some [67]) 1) =
      Res.map view
        (hbuf_put Alloc.fail (lowdown_buf.mk (some [65, 66, 8, 9]) 2 4 4 1) (some [67]) 1) :=
  ⟨by decide, by decide, by decide,
    ((bytes_from_size_not_read (lowdown_buf.mk (some [65, 66, 1, 2]) 2 4 4 0)
      (lowdown_buf.mk (some [65, 66, 8, 9]) 2 4 4 1) (by decide)).2.2.2.2
      (by decide) (by decide)).1 Alloc.fail (some [67]) 1⟩

/-! ## The growth loop on 64-bit `size_t` -/

/-- An addition whose sum is below `2 ^ 64` does not wrap around. -/
theorem size_add_small (a b : Nat) (h : a + b < 2 ^ 64) : size_add a b = (a + b, false) := by
  unfold size_add
  rw [Nat.mod_eq_of_lt h]
  have hn : decide (2 ^ 64 ≤ a + b) = false := decide_eq_false (by omega)
  rw [hn]

/-- While `neosz + unit <= 2 ^ 64` the 64-bit loop takes the steps of the loop
over the naturals and no addition wraps around. -/
theorem hbuf_grow_loop64_eq (unit neosz : Nat) (hb : neosz + unit ≤ 2 ^ 64) :
    ∀ (fuel neoasz : Nat) (w : Bool) (r : Nat),
      hbuf_grow_loop unit neosz fuel neoasz = some r →
      hbuf_grow_loop64 unit neosz fuel neoasz w = some (r, w) := by
  intro fuel
  induction fuel with
  | zero =>
    intro neoasz w r h
    by_cases hlt : neoasz < neosz
    · simp [hbuf_grow_loop, hlt] at h
    · simp only [hbuf_grow_loop, hlt, if_false] at h
      injection h with h
      subst h
      simp only [hbuf_grow_loop64, hlt, if_false]
  | succ fuel ih =>
    intro neoasz w r h
    by_cases hlt : neoasz < neosz
    · simp only [hbuf_grow_loop, hlt, if_true] at h
      have hs := size_add_small neoasz unit (by omega)
      simp only [hbuf_grow_loop64, hlt, if_true, hs, Bool.or_false]
      exact ih (neoasz + unit) w r h
    · simp only [hbuf_grow_loop, hlt, if_false] at h
      injection h with h
      subst h
      simp only [hbuf_grow_loop64, hlt, if_false]

/-- The value the loop of `hbuf_grow` reaches, in closed form. -/
theorem hbuf_grow_neoasz_closed (buf : lowdown_buf) (neosz : Nat) (hu : 0 < buf.unit)
    (hlt : buf.maxsize < neosz) :
    hbuf_grow_neoasz buf neosz =
      some (ensureCapacity_closed_form buf.maxsize buf.unit neosz) ∧
    neosz ≤ ensureCapacity_closed_form buf.maxsize buf.unit neosz ∧
    ensureCapacity_closed_form buf.maxsize buf.unit neosz < neosz + buf.unit := by
  obtain ⟨k, hk, hrun, hge, hprev⟩ := hbuf_grow_neoasz_spec buf neosz hu hlt
  obtain ⟨j, rfl⟩ : ∃ j, k = j + 1 := ⟨k - 1, by omega⟩
  simp only [Nat.add_sub_cancel] at hprev
  have e : (j + 1) * buf.unit = j * buf.unit + buf.unit := Nat.succ_mul j buf.unit
  have e2 : (j + 1 + 1) * buf.unit = (j + 1) * buf.unit + buf.unit :=
    Nat.succ_mul (j + 1) buf.unit
  have hdiv : (neosz - buf.maxsize + buf.unit - 1) / buf.unit = j + 1 := by
    apply Nat.div_eq_of_lt_le
    · omega
    · omega
  have hcf : ensureCapacity_closed_form buf.maxsize buf.unit neosz =
      buf.maxsize + (j + 1) * buf.unit := by
    unfold ensureCapacity_closed_form
    rw [hdiv]
  rw [hcf]
  exact ⟨hrun, hge, by omega⟩

/-- C20: with 64-bit `size_t`, a positive unit, `maxsize < neosz` and
`neosz + unit <= 2 ^ 64`, the loop of `hbuf_grow` ends (any fuel from `neosz`
on is enough), no addition in it wraps around, and the capacity it reaches is
the one reached over the naturals, `maxsize + ceil((neosz - maxsize) / unit) * unit`,
which is below `neosz + unit`. -/
theorem hbuf_grow_loop64_no_wrap (buf : lowdown_buf) (neosz : Nat) (hu : 0 < buf.unit)
    (hlt : buf.maxsize < neosz) (hb : neosz + buf.unit ≤ 2 ^ 64) :
    (∀ fuel, neosz ≤ fuel →
      hbuf_grow_neoasz64 buf neosz fuel =
        some (ensureCapacity_closed_form buf.maxsize buf.unit neosz, false)) ∧
    hbuf_grow_neoasz buf neosz =
      some (ensureCapacity_closed_form buf.maxsize buf.unit neosz) ∧
    ensureCapacity_closed_form buf.maxsize buf.unit neosz < neosz + buf.unit ∧
    ensureCapacity_closed_form buf.maxsize buf.unit neosz < 2 ^ 64 := by
  obtain ⟨hrun, _, hup⟩ := hbuf_grow_neoasz_closed buf neosz hu hlt
  refine ⟨?_, hrun, hup, by omega⟩
  intro fuel hfuel
  unfold hbuf_grow_neoasz64
  rw [size_add_small buf.maxsize buf.unit (by omega)]
  apply hbuf_grow_loop64_eq buf.unit neosz hb
  exact hbuf_grow_loop_fuel buf.unit neosz neosz fuel _ _ hfuel hrun

theorem hbuf_grow_loop64_no_wrap_witness :
    hbuf_grow_neoasz64 (lowdown_buf.mk (some [65, 66, 0, 0]) 2 4 4 0) 9 9 = some (12, false) ∧
    ensureCapacity_closed_form 4 4 9 = 12 ∧
    hbuf_grow_neoasz64 (lowdown_buf.mk none 0 0 (2 ^ 64 - 1) 0) 5 1 = some (2 ^ 64 - 1, false) ∧
    ∀ fuel, 9 ≤ fuel →
      hbuf_grow_neoasz64 (lowdown_buf.mk (some [65, 66, 0, 0]) 2 4 4 0) 9 fuel =
        some (ensureCapacity_closed_form 4 4 9, false) :=
  ⟨by decide, by decide, by decide,
    (hbuf_grow_loop64_no_wrap (lowdown_buf.mk (some [65, 66, 0, 0]) 2 4 4 0) 9
      (by decide) (by decide) (by decide)).1⟩

/-- Outside the bound of C20 the 64-bit loop does wrap: with `maxsize = 2 ^ 63`,
`unit = 2 ^ 63` and target `2 ^ 63 + 1` the first sum is 0, and the loop
alternates between `2 ^ 63` and 0 for as long as it is run. -/
theorem hbuf_grow_loop64_wraps :
    size_add (2 ^ 63) (2 ^ 63) = (0, true) ∧
    hbuf_grow_neoasz64 (lowdown_buf.mk none 0 (2 ^ 63) (2 ^ 63) 0) (2 ^ 63 + 1) 8 = none := by
  decide

/-! ## The functions on 64-bit `size_t` -/

/-- More fuel does not change a result the 64-bit loop has reached. -/
theorem hbuf_grow_loop64_fuel (unit neosz : Nat) :
    ∀ (fuel fuel2 neoasz : Nat) (w : Bool) (r : Nat × Bool), fuel ≤ fuel2 →
      hbuf_grow_loop64 unit neosz fuel neoasz w = some r →
      hbuf_grow_loop64 unit neosz fuel2 neoasz w = some r := by
  intro fuel
  induction fuel with
  | zero =>
    intro fuel2 neoasz w r _ h
    by_cases hlt : neoasz < neosz
    · simp [hbuf_grow_loop64, hlt] at h
    · cases fuel2 <;> simpa [hbuf_grow_loop64, hlt] using h
  | succ fuel ih =>
    intro fuel2 neoasz w r hle h
    cases fuel2 with
    | zero => omega
    | succ fuel2 =>
      by_cases hlt : neoasz < neosz
      · simp only [hbuf_grow_loop64, hlt, if_true] at h ⊢
        exact ih fuel2 _ _ r (by omega) h
      · simpa [hbuf_grow_loop64, hlt] using h

/-- The value the 64-bit loop holds after `i + 1` additions. -/
theorem size_add_iterate (x unit i : Nat) :
    ((size_add x unit).1 + i * unit) % 2 ^ 64 = (x + (i + 1) * unit) % 2 ^ 64 := by
  unfold size_add
  rw [Nat.mod_add_mod, Nat.succ_mul]
  congr 1
  omega

/-- A run of the 64-bit loop that ends has met a value at or above the target. -/
theorem hbuf_grow_loop64_reach (unit neosz : Nat) :
    ∀ (fuel neoasz : Nat) (w : Bool) (r : Nat × Bool), neoasz < 2 ^ 64 →
      hbuf_grow_loop64 unit neosz fuel neoasz w = some r →
      ∃ i, i ≤ fuel ∧ neosz ≤ (neoasz + i * unit) % 2 ^ 64 := by
  intro fuel
  induction fuel with
  | zero =>
    intro neoasz w r hx h
    by_cases hlt : neoasz < neosz
    · simp [hbuf_grow_loop64, hlt] at h
    · refine ⟨0, le_refl 0, ?_⟩
      rw [Nat.zero_mul, Nat.add_zero, Nat.mod_eq_of_lt hx]
      omega
  | succ fuel ih =>
    intro neoasz w r hx h
    by_cases hlt : neoasz < neosz
    · simp only [hbuf_grow_loop64, hlt, if_true] at h
      have hx2 : (size_add neoasz unit).1 < 2 ^ 64 := Nat.mod_lt _ (by decide)
      obtain ⟨i, hi, hge⟩ := ih _ _ r hx2 h
      rw [size_add_iterate] at hge
      exact ⟨i + 1, by omega, hge⟩
    · refine ⟨0, Nat.zero_le _, ?_⟩
      rw [Nat.zero_mul, Nat.add_zero, Nat.mod_eq_of_lt hx]
      omega

/-- The 64-bit loop ends within the fuel if one of the values it goes
through within the fuel is at or above the target. -/
theorem hbuf_grow_loop64_stop (unit neosz : Nat) :
    ∀ (fuel neoasz : Nat) (w : Bool) (i : Nat), neoasz < 2 ^ 64 → i ≤ fuel →
      neosz ≤ (neoasz + i * unit) % 2 ^ 64 →
      ∃ r, hbuf_grow_loop64 unit neosz fuel neoasz w = some r := by
  intro fuel
  induction fuel with
  | zero =>
    intro neoasz w i hx hi hge
    have hi0 : i = 0 := by omega
    subst hi0
    rw [Nat.zero_mul, Nat.add_zero, Nat.mod_eq_of_lt hx] at hge
    have hlt : ¬ neoasz < neosz := by omega
    exact ⟨(neoasz, w), by simp [hbuf_grow_loop64, hlt]⟩
  | succ fuel ih =>
    intro neoasz w i hx hi hge
    by_cases hlt : neoasz < neosz
    · cases i with
      | zero =>
        rw [Nat.zero_mul, Nat.add_zero, Nat.mod_eq_of_lt hx] at hge
        omega
      | succ j =>
        have hx2 : (size_add neoasz unit).1 < 2 ^ 64 := Nat.mod_lt _ (by decide)
        rw [← size_add_iterate] at hge
        obtain ⟨r, hr⟩ := ih (size_add neoasz unit).1 (w || (size_add neoasz unit).2) j hx2
          (by omega) hge
        exact ⟨r, by simp only [hbuf_grow_loop64, hlt, if_true]; exact hr⟩
    · exact ⟨(neoasz, w), by simp [hbuf_grow_loop64, hlt]⟩

/-- The loop returns to a value after `2 ^ 64` additions. -/
theorem size_add_period (x unit i : Nat) :
    (x + i * unit) % 2 ^ 64 = (x + (i % 2 ^ 64) * unit) % 2 ^ 64 := by
  have hi : i = i % 2 ^ 64 + 2 ^ 64 * (i / 2 ^ 64) := (Nat.mod_add_div i (2 ^ 64)).symm
  have hmul : i * unit = (i % 2 ^ 64) * unit + 2 ^ 64 * ((i / 2 ^ 64) * unit) := by
    nth_rewrite 1 [hi]
    rw [Nat.add_mul, Nat.mul_assoc]
  rw [hmul, ← Nat.add_assoc, Nat.add_mul_mod_self_left]

/-- The fuel inside `hbuf_grow64` never cuts a run short: whatever the 64-bit
loop returns with some amount of fuel it returns with fuel `2 ^ 64`. -/
theorem hbuf_grow_neoasz64_complete (buf : lowdown_buf) (neosz fuel : Nat) (r : Nat × Bool)
    (h : hbuf_grow_neoasz64 buf neosz fuel = some r) :
    hbuf_grow_neoasz64 buf neosz (2 ^ 64) = some r := by
  unfold hbuf_grow_neoasz64 at h ⊢
  have hx : (size_add buf.maxsize buf.unit).1 < 2 ^ 64 := Nat.mod_lt _ (by decide)
  by_cases hf : fuel ≤ 2 ^ 64
  · exact hbuf_grow_loop64_fuel _ _ fuel (2 ^ 64) _ _ r hf h
  · obtain ⟨i, _, hge⟩ := hbuf_grow_loop64_reach _ _ fuel _ _ r hx h
    rw [size_add_period] at hge
    obtain ⟨r2, hr2⟩ := hbuf_grow_loop64_stop buf.unit neosz (2 ^ 64) _
      (size_add buf.maxsize buf.unit).2 (i % 2 ^ 64) hx
      (Nat.le_of_lt (Nat.mod_lt _ (by decide))) hge
    have hup := hbuf_grow_loop64_fuel _ _ (2 ^ 64) fuel _ _ r2 (by omega) hr2
    rw [h] at hup
    rw [hr2, hup]

/-- While `neosz + unit <= 2 ^ 64` the 64-bit loop and the loop over the
naturals are the same function, and the wrap flag is left as it is. -/
theorem hbuf_grow_loop64_map (unit neosz : Nat) (hb : neosz + unit ≤ 2 ^ 64) :
    ∀ (fuel neoasz : Nat) (w : Bool),
      hbuf_grow_loop64 unit neosz fuel neoasz w =
        (hbuf_grow_loop unit neosz fuel neoasz).map (fun r => (r, w)) := by
  intro fuel
  induction fuel with
  | zero =>
    intro neoasz w
    by_cases hlt : neoasz < neosz
    · simp [hbuf_grow_loop, hbuf_grow_loop64, hlt]
    · simp [hbuf_grow_loop, hbuf_grow_loop64, hlt]
  | succ fuel ih =>
    intro neoasz w
    by_cases hlt : neoasz < neosz
    · have hs := size_add_small neoasz unit (by omega)
      simp only [hbuf_grow_loop, hbuf_grow_loop64, hlt, if_true, hs, Bool.or_false]
      exact ih (neoasz + unit) w
    · simp [hbuf_grow_loop, hbuf_grow_loop64, hlt]

/-- The value `hbuf_grow64` passes to `realloc` is the one of `hbuf_grow` as
long as `neosz + unit <= 2 ^ 64`. -/
theorem hbuf_grow_neoasz64_eq (buf : lowdown_buf) (neosz : Nat) (hlt : buf.maxsize < neosz)
    (hb : neosz + buf.unit ≤ 2 ^ 64) :
    hbuf_grow_neoasz64 buf neosz (2 ^ 64) =
      (hbuf_grow_neoasz buf neosz).map (fun r => (r, false)) := by
  unfold hbuf_grow_neoasz64
  rw [size_add_small buf.maxsize buf.unit (by omega), hbuf_grow_loop64_map _ _ hb]
  congr 1
  cases hrun : hbuf_grow_neoasz buf neosz with
  | some r =>
    unfold hbuf_grow_neoasz at hrun
    exact hbuf_grow_loop_fuel _ _ neosz (2 ^ 64) _ r (by omega) hrun
  | none =>
    by_cases hu : buf.unit = 0
    · rw [hu]
      exact hbuf_grow_loop_zero neosz (2 ^ 64) _ (by omega)
    · obtain ⟨k, _, hsome, _, _⟩ :=
        hbuf_grow_neoasz_spec buf neosz (Nat.pos_of_ne_zero hu) hlt
      rw [hsome] at hrun
      cases hrun

/-- The function `hbuf_grow64` is `hbuf_grow` whenever the target is within
the capacity or `neosz + unit <= 2 ^ 64`. -/
theorem hbuf_grow64_eq (a : Alloc) (buf : lowdown_buf) (neosz : Nat)
    (hb : neosz ≤ buf.maxsize ∨ neosz + buf.unit ≤ 2 ^ 64) :
    hbuf_grow64 a buf neosz = hbuf_grow a buf neosz := by
  unfold hbuf_grow64 hbuf_grow
  by_cases hle : buf.maxsize ≥ neosz
  · simp only [hle, if_true]
  · simp only [hle, if_false]
    have hb2 : neosz + buf.unit ≤ 2 ^ 64 := by
      rcases hb with h | h
      · omega
      · exact h
    rw [hbuf_grow_neoasz64_eq buf neosz (by omega) hb2]
    cases hbuf_grow_neoasz buf neosz with
    | none => rfl
    | some r => rfl

/-- The statement `hbuf_grow(buf, neosz);` on the 64-bit machine, likewise. -/
theorem hbuf_grow_drop64_eq (a : Alloc) (buf : lowdown_buf) (neosz : Nat)
    (hb : neosz ≤ buf.maxsize ∨ neosz + buf.unit ≤ 2 ^ 64) :
    hbuf_grow_drop64 a buf neosz = hbuf_grow_drop a buf neosz := by
  unfold hbuf_grow_drop64 hbuf_grow_drop
  rw [hbuf_grow64_eq a buf neosz hb]

/-- C1 as stated fails: a fresh buffer with `unit = 2 ^ 63 + 1` is asked for
`2 ^ 63 + 2` bytes. The sums of the loop are `2 ^ 63 + 1`, then 2 after a wrap,
then `2 ^ 63 + 3`; `realloc` is asked for that and, granted, `hbuf_grow`
returns 1 with a `maxsize` that is no whole number of units. -/
theorem hbuf_grow64_wrapped_capacity :
    hbuf_grow_neoasz64 (hbuf_init (2 ^ 63 + 1) 0) (2 ^ 63 + 2) (2 ^ 64) =
      some (2 ^ 63 + 3, true) ∧
    hbuf_grow64 (Alloc.grant fun _ => 0) (hbuf_init (2 ^ 63 + 1) 0) (2 ^ 63 + 2) =
      Res.ok (1, lowdown_buf.mk
        (some ((block none).take (2 ^ 63 + 3) ++
          (List.range (2 ^ 63 + 3 - (block none).length)).map fun _ => 0))
        0 (2 ^ 63 + 3) (2 ^ 63 + 1) 0) ∧
    ¬ ∃ k, 2 ^ 63 + 3 = (hbuf_init (2 ^ 63 + 1) 0).maxsize + k * (hbuf_init (2 ^ 63 + 1) 0).unit := by
  have hn : hbuf_grow_neoasz64 (hbuf_init (2 ^ 63 + 1) 0) (2 ^ 63 + 2) (2 ^ 64) =
      some (2 ^ 63 + 3, true) := by decide
  refine ⟨hn, ?_, ?_⟩
  · unfold hbuf_grow64
    rw [if_neg (by decide), hn]
    rfl
  · rintro ⟨k, hk⟩
    change 2 ^ 63 + 3 = 0 + k * (2 ^ 63 + 1) at hk
    omega

/-- C1 (amended): with a positive unit, and the target within the capacity or
`neosz + unit <= 2 ^ 64`, `hbuf_grow` returns, and when it returns 1 the new
`maxsize` is at least the target and is the old `maxsize` plus a whole number
of units. -/
theorem hbuf_grow64_success_capacity (a : Alloc) (buf : lowdown_buf) (neosz : Nat)
    (hu : 0 < buf.unit) (hb : neosz ≤ buf.maxsize ∨ neosz + buf.unit ≤ 2 ^ 64) :
    (∃ r buf', hbuf_grow64 a buf neosz = Res.ok (r, buf')) ∧
    ∀ buf', hbuf_grow64 a buf neosz = Res.ok (1, buf') →
      neosz ≤ buf'.maxsize ∧ ∃ k, buf'.maxsize = buf.maxsize + k * buf.unit := by
  rw [hbuf_grow64_eq a buf neosz hb]
  rcases hbuf_grow_cases a buf neosz hu with ⟨hle, hrun⟩ | ⟨_, k, _, hge, _, _, hrun⟩
  · refine ⟨⟨1, buf, hrun⟩, ?_⟩
    intro buf' h
    rw [hrun] at h
    injection h with h
    injection h with _ h
    subst h
    exact ⟨hle, 0, by simp⟩
  · rcases hrun with ⟨_, hrun⟩ | ⟨junk, _, hrun⟩
    · refine ⟨⟨0, buf, hrun⟩, ?_⟩
      intro buf' h
      rw [hrun] at h
      injection h with h
      injection h with h _
      exact absurd h (by decide)
    · refine ⟨⟨1, _, hrun⟩, ?_⟩
      intro buf' h
      rw [hrun] at h
      injection h with h
      injection h with _ h
      subst h
      exact ⟨hge, k, rfl⟩

theorem hbuf_grow64_success_capacity_witness :
    0 < (lowdown_buf.mk (some [65, 66, 0, 0]) 2 4 4 0).unit ∧
    ((9 : Nat) ≤ (lowdown_buf.mk (some [65, 66, 0, 0]) 2 4 4 0).maxsize ∨
      9 + (lowdown_buf.mk (some [65, 66, 0, 0]) 2 4 4 0).unit ≤ 2 ^ 64) ∧
    hbuf_grow64 (Alloc.grant fun _ => 7) (lowdown_buf.mk (some [65, 66, 0, 0]) 2 4 4 0) 9 =
      Res.ok (1, lowdown_buf.mk (some [65, 66, 0, 0, 7, 7, 7, 7, 7, 7, 7, 7]) 2 12 4 0) ∧
    (9 ≤ 12 ∧ ∃ k, 12 = 4 + k * 4) :=
  ⟨by decide, by decide, by decide,
    (hbuf_grow64_success_capacity (Alloc.grant fun _ => 7)
      (lowdown_buf.mk (some [65, 66, 0, 0]) 2 4 4 0) 9 (by decide) (by decide)).2
      (lowdown_buf.mk (some [65, 66, 0, 0, 7, 7, 7, 7, 7, 7, 7, 7]) 2 12 4 0) (by decide)⟩

/-- With `unit = 2 ^ 63` the sums of the 64-bit loop alternate between
`2 ^ 63` and 0 and never reach `2 ^ 63 + 1`. -/
theorem hbuf_grow_loop64_alternates :
    ∀ (fuel : Nat) (w : Bool),
      hbuf_grow_loop64 (2 ^ 63) (2 ^ 63 + 1) fuel 0 w = none ∧
      hbuf_grow_loop64 (2 ^ 63) (2 ^ 63 + 1) fuel (2 ^ 63) w = none := by
  intro fuel
  induction fuel with
  | zero =>
    intro w
    exact ⟨by simp [hbuf_grow_loop64], by simp [hbuf_grow_loop64]⟩
  | succ fuel ih =>
    intro w
    have h0 : size_add 0 (2 ^ 63) = (2 ^ 63, false) := by decide
    have h1 : size_add (2 ^ 63) (2 ^ 63) = (0, true) := by decide
    constructor
    · have hlt : (0 : Nat) < 2 ^ 63 + 1 := by decide
      simp only [hbuf_grow_loop64, hlt, if_true, h0]
      exact (ih _).2
    · have hlt : (2 ^ 63 : Nat) < 2 ^ 63 + 1 := by decide
      simp only [hbuf_grow_loop64, hlt, if_true, h1]
      exact (ih _).1

/-- C3 as stated fails: a fresh buffer with `unit = 2 ^ 63` is asked for
`2 ^ 63 + 1` bytes and `realloc` would fail. The target exceeds `maxsize`, yet
`hbuf_grow` does not return 0: its loop goes `2 ^ 63`, 0, `2 ^ 63`, ... and
does not end, whatever the fuel. -/
theorem hbuf_grow64_never_returns :
    (hbuf_init (2 ^ 63) 0).maxsize < 2 ^ 63 + 1 ∧
    (∀ fuel, hbuf_grow_neoasz64 (hbuf_init (2 ^ 63) 0) (2 ^ 63 + 1) fuel = none) ∧
    hbuf_grow64 Alloc.fail (hbuf_init (2 ^ 63) 0) (2 ^ 63 + 1) = Res.fault Fault.hang ∧
    ¬ ∃ buf', hbuf_grow64 Alloc.fail (hbuf_init (2 ^ 63) 0) (2 ^ 63 + 1) = Res.ok (0, buf') := by
  have hall : ∀ fuel, hbuf_grow_neoasz64 (hbuf_init (2 ^ 63) 0) (2 ^ 63 + 1) fuel = none := by
    intro fuel
    unfold hbuf_grow_neoasz64
    have h0 : size_add (hbuf_init (2 ^ 63) 0).maxsize (hbuf_init (2 ^ 63) 0).unit =
        (2 ^ 63, false) := by decide
    rw [h0]
    exact (hbuf_grow_loop64_alternates fuel false).2
  have hrun : hbuf_grow64 Alloc.fail (hbuf_init (2 ^ 63) 0) (2 ^ 63 + 1) =
      Res.fault Fault.hang := by
    unfold hbuf_grow64
    rw [if_neg (by decide), hall]
  refine ⟨by decide, hall, hrun, ?_⟩
  rintro ⟨buf', h⟩
  rw [hrun] at h
  cases h

/-- C3 (amended): with a positive unit, and the target within the capacity or
`neosz + unit <= 2 ^ 64`, `hbuf_grow` returns 0 exactly when the target exceeds
`maxsize` and the allocator fails, and then `*buf` is what it was. -/
theorem hbuf_grow64_failure (a : Alloc) (buf : lowdown_buf) (neosz : Nat) (hu : 0 < buf.unit)
    (hb : neosz ≤ buf.maxsize ∨ neosz + buf.unit ≤ 2 ^ 64) :
    ((∃ buf', hbuf_grow64 a buf neosz = Res.ok (0, buf')) ↔
      (buf.maxsize < neosz ∧ a = Alloc.fail)) ∧
    ∀ buf', hbuf_grow64 a buf neosz = Res.ok (0, buf') → buf' = buf := by
  rw [hbuf_grow64_eq a buf neosz hb]
  rcases hbuf_grow_cases a buf neosz hu with ⟨hle, hrun⟩ | ⟨hlt, k, _, _, _, _, hrun⟩
  · rw [hrun]
    constructor
    · constructor
      · rintro ⟨buf', h⟩
        injection h with h
        injection h with h _
        exact absurd h (by decide)
      · rintro ⟨h, _⟩
        omega
    · intro buf' h
      injection h with h
      injection h with h _
      exact absurd h (by decide)
  · rcases hrun with ⟨ha, hrun⟩ | ⟨junk, ha, hrun⟩
    · rw [hrun]
      refine ⟨⟨fun _ => ⟨hlt, ha⟩, fun _ => ⟨buf, rfl⟩⟩, ?_⟩
      intro buf' h
      injection h with h
      injection h with _ h
      exact h.symm
    · rw [hrun]
      constructor
      · constructor
        · rintro ⟨buf', h⟩
          injection h with h
          injection h with h _
          exact absurd h (by decide)
        · rintro ⟨_, h⟩
          rw [ha] at h
          cases h
      · intro buf' h
        injection h with h
        injection h with h _
        exact absurd h (by decide)

theorem hbuf_grow64_failure_witness :
    hbuf_grow64 Alloc.fail (lowdown_buf.mk (some [65, 66, 0, 0]) 2 4 4 0) 9 =
      Res.ok (0, lowdown_buf.mk (some [65, 66, 0, 0]) 2 4 4 0) ∧
    ((∃ buf', hbuf_grow64 Alloc.fail (lowdown_buf.mk (some [65, 66, 0, 0]) 2 4 4 0) 9 =
        Res.ok (0, buf')) ↔
      ((lowdown_buf.mk (some [65, 66, 0, 0]) 2 4 4 0).maxsize < 9 ∧ Alloc.fail = Alloc.fail)) :=
  ⟨by decide,
    (hbuf_grow64_failure Alloc.fail (lowdown_buf.mk (some [65, 66, 0, 0]) 2 4 4 0) 9
      (by decide) (by decide)).1⟩

/-- The statement `hbuf_grow(buf, neosz);` leaves `size` and `unit` alone. -/
theorem hbuf_grow_drop_size (a : Alloc) (buf : lowdown_buf) (neosz : Nat)
    (buf1 : lowdown_buf) (hu : 0 < buf.unit) (h : hbuf_grow_drop a buf neosz = Res.ok buf1) :
    buf1.size = buf.size ∧ buf1.unit = buf.unit :=
  ⟨(hbuf_grow_drop_units a buf neosz buf1 hu h).2,
    (hbuf_grow_drop_units a buf neosz buf1 hu h).1.1⟩

/-- The function `hbuf_put64` is `hbuf_put` as long as
`size + n + unit <= 2 ^ 64`. -/
theorem hbuf_put64_eq (a : Alloc) (buf : lowdown_buf) (d : Option (List Byte)) (n : Nat)
    (hb : buf.size + n + buf.unit ≤ 2 ^ 64) :
    hbuf_put64 a buf d n = hbuf_put a buf d n := by
  unfold hbuf_put64 hbuf_put
  by_cases hu0 : buf.unit = 0
  · simp only [hu0, if_true]
  · have hu : 0 < buf.unit := Nat.pos_of_ne_zero hu0
    have hs : (size_add buf.size n).1 = buf.size + n := by
      rw [size_add_small _ _ (by omega)]
    simp only [hu0, if_false, hs]
    by_cases hnull : d = none ∨ n = 0
    · simp only [hnull, if_true]
    · simp only [hnull, if_false]
      by_cases hg : buf.size + n > buf.maxsize
      · simp only [hg, if_true]
        rw [hbuf_grow_drop64_eq a buf (buf.size + n) (Or.inr hb)]
        cases hstep : hbuf_grow_drop a buf (buf.size + n) with
        | fault f => rfl
        | ok buf1 =>
          have hsz1 := (hbuf_grow_drop_size a buf _ buf1 hu hstep).1
          have hs1 : (size_add buf1.size n).1 = buf1.size + n := by
            rw [size_add_small _ _ (by omega)]
          simp only [hs1]
      · simp only [hg, if_false, hs]

/-- The function `hbuf_putc64` is `hbuf_putc` as long as
`size + 1 + unit <= 2 ^ 64`. -/
theorem hbuf_putc64_eq (a : Alloc) (buf : lowdown_buf) (c : Byte)
    (hb : buf.size + 1 + buf.unit ≤ 2 ^ 64) :
    hbuf_putc64 a buf c = hbuf_putc a buf c := by
  unfold hbuf_putc64 hbuf_putc
  by_cases hu0 : buf.unit = 0
  · simp only [hu0, if_true]
  · have hu : 0 < buf.unit := Nat.pos_of_ne_zero hu0
    have hs : (size_add buf.size 1).1 = buf.size + 1 := by
      rw [size_add_small _ _ (by omega)]
    simp only [hu0, if_false, hs]
    by_cases hg : buf.size ≥ buf.maxsize
    · simp only [hg, if_true]
      rw [hbuf_grow_drop64_eq a buf (buf.size + 1) (Or.inr hb)]
      cases hstep : hbuf_grow_drop a buf (buf.size + 1) with
      | fault f => rfl
      | ok buf1 =>
        have hsz1 := (hbuf_grow_drop_size a buf _ buf1 hu hstep).1
        have hs1 : (size_add buf1.size 1).1 = buf1.size + 1 := by
          rw [size_add_small _ _ (by omega)]
        simp only [hs1]
    · simp only [hg, if_false, hs]

/-- The function `hbuf_put64` is `hbuf_put` when the bytes fit into a
capacity that is a `size_t` value: nothing grows and no sum wraps. -/
theorem hbuf_put64_fits (a : Alloc) (buf : lowdown_buf) (d : Option (List Byte)) (n : Nat)
    (hfit : buf.size + n ≤ buf.maxsize) (hrep : buf.maxsize < 2 ^ 64) :
    hbuf_put64 a buf d n = hbuf_put a buf d n := by
  unfold hbuf_put64 hbuf_put
  have hs : (size_add buf.size n).1 = buf.size + n := by
    rw [size_add_small _ _ (by omega)]
  have hg : ¬ buf.size + n > buf.maxsize := by omega
  by_cases hu0 : buf.unit = 0
  · simp only [hu0, if_true]
  · simp only [hu0, if_false, hs]
    by_cases hnull : d = none ∨ n = 0
    · simp only [hnull, if_true]
    · simp only [hnull, if_false, hg, hs]

/-- The function `hbuf_putc64` is `hbuf_putc` when the buffer is not full and
its capacity is a `size_t` value. -/
theorem hbuf_putc64_fits (a : Alloc) (buf : lowdown_buf) (c : Byte)
    (hfit : buf.size < buf.maxsize) (hrep : buf.maxsize < 2 ^ 64) :
    hbuf_putc64 a buf c = hbuf_putc a buf c := by
  unfold hbuf_putc64 hbuf_putc
  have hs : (size_add buf.size 1).1 = buf.size + 1 := by
    rw [size_add_small _ _ (by omega)]
  have hg : ¬ buf.size ≥ buf.maxsize := by omega
  by_cases hu0 : buf.unit = 0
  · simp only [hu0, if_true]
  · simp only [hu0, if_false, hg, hs]

/-- The function `hbuf_putc64` on a full buffer, once the capacity step has
returned a buffer with room for the byte. -/
theorem hbuf_putc64_grown (a : Alloc) (buf : lowdown_buf) (c : Byte) (buf1 : lowdown_buf)
    (hu0 : buf.unit ≠ 0) (hfull : buf.size ≥ buf.maxsize)
    (hg : hbuf_grow_drop64 a buf (size_add buf.size 1).1 = Res.ok buf1)
    (hroom : buf1.size < allocated buf1) :
    hbuf_putc64 a buf c =
      Res.ok { buf1 with
        data := buf1.data.map (fun blk => blk.set buf1.size c)
        size := (size_add buf1.size 1).1 } := by
  have hroom2 : buf1.size < (block buf1.data).length := hroom
  unfold hbuf_putc64 store
  simp only [hu0, if_false, hfull, if_true, hg, hroom2]

/-- C17 as stated fails: the buffer holds "ABCD" with `size = maxsize = 4` and
`unit = 2 ^ 64 - 1`. The sums of the loop of `hbuf_grow` wrap: 3, 2, 1, 0 and
then `2 ^ 64 - 1`; with `realloc` granting that, `hbuf_putc` returns with
`maxsize = 2 ^ 64 - 1`, which is not old `maxsize + unit` (and not that sum
modulo `2 ^ 64` either). -/
theorem hbuf_putc64_wrapped_capacity :
    (lowdown_buf.mk (some [65, 66, 67, 68]) 4 4 (2 ^ 64 - 1) 0).size ≤
      (lowdown_buf.mk (some [65, 66, 67, 68]) 4 4 (2 ^ 64 - 1) 0).maxsize ∧
    ¬ (lowdown_buf.mk (some [65, 66, 67, 68]) 4 4 (2 ^ 64 - 1) 0).size <
      (lowdown_buf.mk (some [65, 66, 67, 68]) 4 4 (2 ^ 64 - 1) 0).maxsize ∧
    hbuf_grow_neoasz64 (lowdown_buf.mk (some [65, 66, 67, 68]) 4 4 (2 ^ 64 - 1) 0) 5 (2 ^ 64) =
      some (2 ^ 64 - 1, true) ∧
    (∃ d, hbuf_putc64 (Alloc.grant fun _ => 0)
        (lowdown_buf.mk (some [65, 66, 67, 68]) 4 4 (2 ^ 64 - 1) 0) 69 =
      Res.ok (lowdown_buf.mk d 5 (2 ^ 64 - 1) (2 ^ 64 - 1) 0)) ∧
    (2 ^ 64 - 1 : Nat) ≠ 4 + (2 ^ 64 - 1) ∧ (2 ^ 64 - 1 : Nat) ≠ (4 + (2 ^ 64 - 1)) % 2 ^ 64 := by
  have hn : hbuf_grow_neoasz64 (lowdown_buf.mk (some [65, 66, 67, 68]) 4 4 (2 ^ 64 - 1) 0) 5
      (2 ^ 64) = some (2 ^ 64 - 1, true) := by decide
  have h5 : (size_add (lowdown_buf.mk (some [65, 66, 67, 68]) 4 4 (2 ^ 64 - 1) 0).size 1).1 = 5 := by
    decide
  have hgrow : hbuf_grow_drop64 (Alloc.grant fun _ => 0)
      (lowdown_buf.mk (some [65, 66, 67, 68]) 4 4 (2 ^ 64 - 1) 0)
      (size_add (lowdown_buf.mk (some [65, 66, 67, 68]) 4 4 (2 ^ 64 - 1) 0).size 1).1 =
      Res.ok (lowdown_buf.mk
        (some ((block (some [65, 66, 67, 68])).take (2 ^ 64 - 1) ++
          (List.range (2 ^ 64 - 1 - (block (some [65, 66, 67, 68])).length)).map
            fun _ => (0 : Byte)))
        4 (2 ^ 64 - 1) (2 ^ 64 - 1) 0) := by
    rw [h5]
    unfold hbuf_grow_drop64 hbuf_grow64
    rw [if_neg (by decide), hn]
    rfl
  have hlen : (lowdown_buf.mk
        (some ((block (some [65, 66, 67, 68])).take (2 ^ 64 - 1) ++
          (List.range (2 ^ 64 - 1 - (block (some [65, 66, 67, 68])).length)).map
            fun _ => (0 : Byte)))
        4 (2 ^ 64 - 1) (2 ^ 64 - 1) 0).size <
      allocated (lowdown_buf.mk
        (some ((block (some [65, 66, 67, 68])).take (2 ^ 64 - 1) ++
          (List.range (2 ^ 64 - 1 - (block (some [65, 66, 67, 68])).length)).map
            fun _ => (0 : Byte)))
        4 (2 ^ 64 - 1) (2 ^ 64 - 1) 0) := by
    show 4 < ((block (some [65, 66, 67, 68])).take (2 ^ 64 - 1) ++
      (List.range (2 ^ 64 - 1 - (block (some [65, 66, 67, 68])).length)).map
        fun _ => (0 : Byte)).length
    rw [List.length_append, List.length_map, List.length_range]
    exact Nat.lt_add_left _ (by decide)
  have hrun := hbuf_putc64_grown (Alloc.grant fun _ => 0)
    (lowdown_buf.mk (some [65, 66, 67, 68]) 4 4 (2 ^ 64 - 1) 0) 69 _ (by decide) (by decide)
    hgrow hlen
  exact ⟨by decide, by decide, hn, ⟨_, hrun⟩, by decide, by decide⟩

/-- C17 (amended): with a positive unit, `size <= maxsize < 2 ^ 64`, storage
that holds the declared capacity, `maxsize + unit < 2 ^ 64` when the buffer is
full, and an allocator that succeeds, `hbuf_putc(buf, c)` returns a buffer
with size + 1, the old bytes unchanged and `c` at the old size; `maxsize` is
unchanged when `size < maxsize` and `maxsize + unit` otherwise; the result is
the one of `hbuf_put` with the one-byte source `c`. -/
theorem hbuf_putc64_appends (junk : Nat → Byte) (buf : lowdown_buf) (c : Byte)
    (hu : 0 < buf.unit) (hsz : buf.size ≤ buf.maxsize) (hal : buf.maxsize ≤ allocated buf)
    (hrep : buf.maxsize < 2 ^ 64)
    (hb : buf.size < buf.maxsize ∨ buf.maxsize + buf.unit < 2 ^ 64) :
    ∃ buf', hbuf_putc64 (Alloc.grant junk) buf c = Res.ok buf' ∧
      buf'.size = buf.size + 1 ∧
      (block buf'.data).take buf.size = content buf ∧
      byteAt buf' buf.size = some c ∧
      content buf' = content buf ++ [c] ∧
      (buf.size < buf.maxsize → buf'.maxsize = buf.maxsize) ∧
      (¬ buf.size < buf.maxsize → buf'.maxsize = buf.maxsize + buf.unit) ∧
      buf'.unit = buf.unit ∧
      hbuf_put64 (Alloc.grant junk) buf (some [c]) 1 = Res.ok buf' := by
  have h1 : hbuf_putc64 (Alloc.grant junk) buf c = hbuf_putc (Alloc.grant junk) buf c := by
    rcases hb with hlt | hb
    · exact hbuf_putc64_fits _ _ _ hlt hrep
    · exact hbuf_putc64_eq _ _ _ (by omega)
  have h2 : hbuf_put64 (Alloc.grant junk) buf (some [c]) 1 =
      hbuf_put (Alloc.grant junk) buf (some [c]) 1 := by
    rcases hb with hlt | hb
    · exact hbuf_put64_fits _ _ _ _ (by omega) hrep
    · exact hbuf_put64_eq _ _ _ _ (by omega)
  rw [h1, h2]
  exact hbuf_putc_grant junk buf c hu hsz hal

theorem hbuf_putc64_appends_witness :
    hbuf_putc64 (Alloc.grant fun _ => 7) (lowdown_buf.mk (some [65, 66, 67, 68]) 4 4 4 0) 69 =
      Res.ok (lowdown_buf.mk (some [65, 66, 67, 68, 69, 7, 7, 7]) 5 8 4 0) ∧
    hbuf_putc64 Alloc.fail (lowdown_buf.mk (some [65, 66, 9, 9]) 2 4 (2 ^ 64 - 1) 0) 67 =
      Res.ok (lowdown_buf.mk (some [65, 66, 67, 9]) 3 4 (2 ^ 64 - 1) 0) ∧
    ∃ buf', hbuf_putc64 (Alloc.grant fun _ => 7)
        (lowdown_buf.mk (some [65, 66, 67, 68]) 4 4 4 0) 69 = Res.ok buf' ∧
      buf'.size = 4 + 1 ∧
      (block buf'.data).take 4 = content (lowdown_buf.mk (some [65, 66, 67, 68]) 4 4 4 0) ∧
      byteAt buf' 4 = some 69 ∧
      content buf' = content (lowdown_buf.mk (some [65, 66, 67, 68]) 4 4 4 0) ++ [69] ∧
      ((4 : Nat) < 4 → buf'.maxsize = 4) ∧
      (¬ (4 : Nat) < 4 → buf'.maxsize = 4 + 4) ∧
      buf'.unit = 4 ∧
      hbuf_put64 (Alloc.grant fun _ => 7) (lowdown_buf.mk (some [65, 66, 67, 68]) 4 4 4 0)
        (some [69]) 1 = Res.ok buf' :=
  ⟨by decide, by decide,
    hbuf_putc64_appends (fun _ => 7) (lowdown_buf.mk (some [65, 66, 67, 68]) 4 4 4 0) 69
      (by decide) (by decide) (by decide) (by decide) (Or.inr (by decide))⟩

/-- The loop of `hbuf_putf64` is the loop of `hbuf_putf` as long as
`size + (bytes not read yet) + 2 * unit <= 2 ^ 64`. -/
theorem hbuf_putf_loop64_eq (alloc : Nat → Alloc) :
    ∀ (fuel i : Nat) (buf : lowdown_buf) (file : FILE), 0 < buf.unit →
      buf.size + file.rest.length + 2 * buf.unit ≤ 2 ^ 64 →
      hbuf_putf_loop64 alloc fuel i buf file = hbuf_putf_loop alloc fuel i buf file := by
  intro fuel
  induction fuel with
  | zero =>
    intro i buf file _ _
    simp only [hbuf_putf_loop64, hbuf_putf_loop]
  | succ fuel ih =>
    intro i buf file hu hb
    have hs : (size_add buf.size buf.unit).1 = buf.size + buf.unit := by
      rw [size_add_small _ _ (by omega)]
    unfold hbuf_putf_loop64 hbuf_putf_loop
    by_cases hend : (feof file || ferror file) = true
    · simp only [hend, if_true]
    · simp only [hend, hs]
      rw [hbuf_grow64_eq (alloc i) buf (buf.size + buf.unit) (Or.inr (by omega))]
      cases hg : hbuf_grow (alloc i) buf (buf.size + buf.unit) with
      | fault f => rfl
      | ok p =>
        obtain ⟨r, buf1⟩ := p
        obtain ⟨hgu, hsz1, _⟩ := hbuf_grow_units (alloc i) buf _ r buf1 hu hg
        simp only []
        by_cases hr : r = 0
        · simp only [hr, if_true]
        · simp only [hr, if_false]
          cases hf : fread buf1.data buf1.size buf1.unit file with
          | fault f => rfl
          | ok q =>
            obtain ⟨k, d, file1⟩ := q
            have hk : k ≤ file.rest.length ∧ file1.rest.length = file.rest.length - k := by
              unfold fread at hf
              split at hf
              · injection hf with hf
                injection hf with h1 h2
                injection h2 with _ h3
                subst h1
                subst h3
                constructor
                · exact Nat.min_le_right _ _
                · simp
              · cases hf
            have hs1 : (size_add buf1.size k).1 = buf1.size + k := by
              rw [size_add_small _ _ (by omega)]
            simp only [hs1]
            rw [ih (i + 1) { buf1 with data := d, size := buf1.size + k } file1
              (by show 0 < buf1.unit; rw [hgu.1]; exact hu)
              (by
                show buf1.size + k + file1.rest.length + 2 * buf1.unit ≤ 2 ^ 64
                rw [hgu.1, hsz1, hk.2]
                omega)]

/-- The function `hbuf_putf64` is `hbuf_putf` as long as
`size + (bytes of the stream) + 2 * unit <= 2 ^ 64`. -/
theorem hbuf_putf64_eq (alloc : Nat → Alloc) (buf : lowdown_buf) (file : FILE)
    (hb : buf.size + file.rest.length + 2 * buf.unit ≤ 2 ^ 64) :
    hbuf_putf64 alloc buf file = hbuf_putf alloc buf file := by
  unfold hbuf_putf64 hbuf_putf
  by_cases hu0 : buf.unit = 0
  · simp only [hu0, if_true]
  · simp only [hu0, if_false]
    exact hbuf_putf_loop64_eq alloc _ 0 buf file (Nat.pos_of_ne_zero hu0) hb

/-- C18 as stated fails: a buffer has 4 bytes of storage, `size = 2`,
`maxsize = 4` and `unit = 2 ^ 64 - 1`, and the stream holds 6 bytes. The sum
`size + unit` wraps to 1, so `hbuf_grow(buf, 1)` returns 1 without growing,
and `fread` is told to store up to `unit` bytes where 2 bytes are left: the
6 bytes go past the storage, while every call of `hbuf_grow` succeeded. -/
theorem hbuf_putf64_overruns :
    (size_add (lowdown_buf.mk (some [65, 66, 9, 9]) 2 4 (2 ^ 64 - 1) 0).size
      (lowdown_buf.mk (some [65, 66, 9, 9]) 2 4 (2 ^ 64 - 1) 0).unit).1 = 1 ∧
    hbuf_grow64 (Alloc.grant fun _ => 7) (lowdown_buf.mk (some [65, 66, 9, 9]) 2 4 (2 ^ 64 - 1) 0)
        1 =
      Res.ok (1, lowdown_buf.mk (some [65, 66, 9, 9]) 2 4 (2 ^ 64 - 1) 0) ∧
    hbuf_putf64 (fun _ => Alloc.grant fun _ => 7)
        (lowdown_buf.mk (some [65, 66, 9, 9]) 2 4 (2 ^ 64 - 1) 0)
        (stream [1, 2, 3, 4, 5, 6] false) =
      Res.fault Fault.bounds := by
  decide

/-- C18 (amended): the stream delivers the bytes `s` and then ends or
reports an error (`fails`). For a buffer with a positive unit, `size <= maxsize`,
storage that holds the declared capacity and
`size + length(s) + 2 * unit <= 2 ^ 64`, `hbuf_putf` returns; if one of its
calls of `hbuf_grow` returned 0 it returns 0; if none did, it returns 1 exactly
when the stream reported no error, and the buffer then has size
`size + length(s)` and the old content followed by `s`; no call of `hbuf_grow`
returns 0 when the allocator always succeeds. -/
theorem hbuf_putf64_reads (alloc : Nat → Alloc) (buf : lowdown_buf) (s : List Byte)
    (fails : Bool) (hu : 0 < buf.unit) (hsz : buf.size ≤ buf.maxsize)
    (hal : buf.maxsize ≤ allocated buf) (hb : buf.size + s.length + 2 * buf.unit ≤ 2 ^ 64) :
    ∃ run, hbuf_putf64 alloc buf (stream s fails) = Res.ok run ∧
      (0 ∈ run.grows → run.ret = 0) ∧
      (0 ∉ run.grows →
        (run.ret = 1 ↔ fails = false) ∧
        run.buf.size = buf.size + s.length ∧
        content run.buf = content buf ++ s ∧
        run.buf.size ≤ run.buf.maxsize) ∧
      ((∀ j, alloc j ≠ Alloc.fail) → 0 ∉ run.grows) := by
  have hu0 : buf.unit ≠ 0 := by omega
  obtain ⟨run, hrun, _, hzero, hgood, hall⟩ :=
    hbuf_putf_loop_spec alloc ((stream s fails).rest.length + 1) 0 buf (stream s fails)
      hu hsz hal rfl rfl (Nat.lt_succ_self _)
  refine ⟨run, ?_, hzero, hgood, fun h => hall (fun j _ => h j)⟩
  rw [hbuf_putf64_eq alloc buf (stream s fails) hb]
  unfold hbuf_putf
  simp only [hu0, if_false]
  exact hrun

theorem hbuf_putf64_reads_witness :
    hbuf_putf64 (fun _ => Alloc.grant fun _ => 7) (lowdown_buf.mk (some [65, 66, 9, 9]) 2 4 4 0)
        (stream [1, 2, 3, 4, 5, 6] false) =
      Res.ok (putf_run.mk 1
        (lowdown_buf.mk (some [65, 66, 1, 2, 3, 4, 5, 6, 7, 7, 7, 7]) 8 12 4 0)
        (FILE.mk [] false true false) [1, 1]) ∧
    hbuf_putf64 (fun _ => Alloc.grant fun _ => 7) (lowdown_buf.mk (some [65, 66, 9, 9]) 2 4 4 0)
        (stream [1, 2, 3, 4, 5, 6] true) =
      Res.ok (putf_run.mk 0
        (lowdown_buf.mk (some [65, 66, 1, 2, 3, 4, 5, 6, 7, 7, 7, 7]) 8 12 4 0)
        (FILE.mk [] true false true) [1, 1]) ∧
    hbuf_putf64 (fun i => if i = 0 then Alloc.grant fun _ => 7 else Alloc.fail)
        (lowdown_buf.mk (some [65, 66, 9, 9]) 2 4 4 0) (stream [1, 2, 3, 4, 5, 6] false) =
      Res.ok (putf_run.mk 0
        (lowdown_buf.mk (some [65, 66, 1, 2, 3, 4, 7, 7]) 6 8 4 0)
        (FILE.mk [5, 6] false false false) [1, 0]) ∧
    ∃ run, hbuf_putf64 (fun _ => Alloc.grant fun _ => 7)
        (lowdown_buf.mk (some [65, 66, 9, 9]) 2 4 4 0) (stream [1, 2, 3, 4, 5, 6] false) =
        Res.ok run ∧
      (0 ∈ run.grows → run.ret = 0) ∧
      (0 ∉ run.grows →
        (run.ret = 1 ↔ false = false) ∧
        run.buf.size = 2 + 6 ∧
        content run.buf =
          content (lowdown_buf.mk (some [65, 66, 9, 9]) 2 4 4 0) ++ [1, 2, 3, 4, 5, 6] ∧
        run.buf.size ≤ run.buf.maxsize) ∧
      ((∀ j : Nat, (fun _ => Alloc.grant fun _ => 7) j ≠ Alloc.fail) → 0 ∉ run.grows) :=
  ⟨by decide, by decide, by decide,
    hbuf_putf64_reads (fun _ => Alloc.grant fun _ => 7)
      (lowdown_buf.mk (some [65, 66, 9, 9]) 2 4 4 0) [1, 2, 3, 4, 5, 6] false
      (by decide) (by decide) (by decide) (by decide)⟩

/-- What `hbuf_grow64` may change, as long as no sum of its loop wraps. -/
theorem hbuf_grow64_units (a : Alloc) (buf : lowdown_buf) (neosz : Nat) (r : Int)
    (buf2 : lowdown_buf) (hu : 0 < buf.unit)
    (hb : neosz ≤ buf.maxsize ∨ neosz + buf.unit ≤ 2 ^ 64)
    (h : hbuf_grow64 a buf neosz = Res.ok (r, buf2)) :
    grown_by_units buf buf2 ∧ buf2.size = buf.size ∧ (r = 0 ∨ r = 1) := by
  rw [hbuf_grow64_eq a buf neosz hb] at h
  exact hbuf_grow_units a buf neosz r buf2 hu h

/-- The capacity step at the head of the append functions on the 64-bit
machine. -/
theorem grow_step64_units (a : Alloc) (buf : lowdown_buf) (c : Prop) [Decidable c]
    (neosz : Nat) (buf2 : lowdown_buf) (hu : 0 < buf.unit)
    (hb : neosz ≤ buf.maxsize ∨ neosz + buf.unit ≤ 2 ^ 64)
    (h : (if c then hbuf_grow_drop64 a buf neosz else Res.ok buf) = Res.ok buf2) :
    grown_by_units buf buf2 ∧ buf2.size = buf.size := by
  rw [hbuf_grow_drop64_eq a buf neosz hb] at h
  exact grow_step_units a buf c neosz buf2 hu h

/-- The value `vsnprintf` returns: -1, or the length of the text. -/
theorem vsnprintf_fmt_ret (dst : Option (List Byte)) (off avail : Nat) (out : Fmt) (n : Int)
    (d : Option (List Byte)) (h : vsnprintf_fmt dst off avail out = Res.ok (n, d)) :
    n = -1 ∨ n = (out.length : Int) := by
  cases out with
  | text f =>
    right
    unfold vsnprintf_fmt vsnprintf at h
    simp only [] at h
    split at h
    · injection h with h
      injection h with h1 _
      exact h1.symm
    · split at h
      · injection h with h
        injection h with h1 _
        exact h1.symm
      · cases h
  | error p =>
    left
    unfold vsnprintf_fmt at h
    simp only [] at h
    split at h
    · injection h with h
      injection h with h1 _
      exact h1.symm
    · cases h

/-- A conversion that fails before it stores a byte leaves the storage as it
was: it is `vsnprintf` with `none`. -/
theorem vsnprintf_fmt_error_nil (dst : Option (List Byte)) (off avail : Nat)
    (h : off ≤ (block dst).length) :
    vsnprintf_fmt dst off avail (Fmt.error []) = vsnprintf dst off avail none := by
  unfold vsnprintf_fmt vsnprintf
  cases dst with
  | none => simp [h]
  | some blk => simp [h]

theorem hbuf_printf64_units (a1 a2 : Alloc) (buf : lowdown_buf) (out : Fmt)
    (buf2 : lowdown_buf) (hu : 0 < buf.unit)
    (hb : buf.size + out.length + 1 + buf.unit ≤ 2 ^ 64)
    (h : hbuf_printf64 a1 a2 buf out = Res.ok buf2) :
    grown_by_units buf buf2 := by
  have hu0 : buf.unit ≠ 0 := by omega
  have hs1 : (size_add buf.size 1).1 = buf.size + 1 := by
    rw [size_add_small _ _ (by omega)]
  unfold hbuf_printf64 at h
  simp only [hu0, if_false, hs1] at h
  cases hstep : (if buf.size ≥ buf.maxsize then hbuf_grow_drop64 a1 buf (buf.size + 1)
      else Res.ok buf) with
  | fault f => simp [hstep] at h
  | ok buf1 =>
    obtain ⟨h1, hsz1⟩ := grow_step64_units a1 buf _ _ buf1 hu (Or.inr (by omega)) hstep
    simp only [hstep] at h
    cases hv : vsnprintf_fmt buf1.data buf1.size (size_sub buf1.maxsize buf1.size) out with
    | fault f => simp [hv] at h
    | ok p =>
      obtain ⟨n, d1⟩ := p
      have hret := vsnprintf_fmt_ret _ _ _ _ n d1 hv
      simp only [hv] at h
      by_cases hn : n < 0
      · simp only [hn, if_true] at h
        injection h with h
        subst h
        exact h1
      · simp only [hn, if_false] at h
        have hnl : n = (out.length : Int) := by
          rcases hret with hm | hl
          · rw [hm] at hn
            exact absurd (by decide) hn
          · exact hl
        have hnat : n.toNat = out.length := by
          rw [hnl]
          exact Int.toNat_ofNat _
        have hs2 : (size_add (size_add buf1.size n.toNat).1 1).1 =
            buf.size + out.length + 1 := by
          have hin : (size_add buf.size out.length).1 = buf.size + out.length := by
            rw [size_add_small _ _ (by omega)]
          rw [hnat, hsz1, hin, size_add_small _ _ (by omega)]
        simp only [hs2] at h
        by_cases hcut : n.toNat ≥ size_sub buf1.maxsize buf1.size
        · simp only [hcut, if_true] at h
          cases hg2 : hbuf_grow_drop64 a2 { buf1 with data := d1 }
              (buf.size + out.length + 1) with
          | fault f => simp [hg2] at h
          | ok buf3 =>
            have hu1 : 0 < ({ buf1 with data := d1 } : lowdown_buf).unit := by
              show 0 < buf1.unit
              rw [h1.1]
              exact hu
            have hb3 : buf.size + out.length + 1 ≤
                  ({ buf1 with data := d1 } : lowdown_buf).maxsize ∨
                buf.size + out.length + 1 + ({ buf1 with data := d1 } : lowdown_buf).unit ≤
                  2 ^ 64 := by
              right
              show buf.size + out.length + 1 + buf1.unit ≤ 2 ^ 64
              rw [h1.1]
              exact hb
            rw [hbuf_grow_drop64_eq _ _ _ hb3] at hg2
            have h3 := (hbuf_grow_drop_units a2 _ _ buf3 hu1 hg2).1
            have h13 : grown_by_units buf buf3 :=
              grown_by_units_trans buf { buf1 with data := d1 } buf3 h1 h3
            rw [hbuf_grow_drop64_eq _ _ _ hb3, hg2] at h
            simp only [] at h
            cases hv2 : vsnprintf_fmt buf3.data buf3.size (size_sub buf3.maxsize buf3.size)
                out with
            | fault f => simp [hv2] at h
            | ok p2 =>
              obtain ⟨n2, d2⟩ := p2
              simp only [hv2] at h
              by_cases hn2 : n2 < 0
              · simp only [hn2, if_true] at h
                injection h with h
                subst h
                exact h13
              · simp only [hn2, if_false] at h
                injection h with h
                subst h
                exact h13
        · simp only [hcut, if_false] at h
          injection h with h
          subst h
          exact h1

/-- The value `vsnprintf` returns for a text is its length. -/
theorem vsnprintf_ret (dst : Option (List Byte)) (off avail : Nat) (f : List Byte) (n : Int)
    (d : Option (List Byte)) (h : vsnprintf dst off avail (some f) = Res.ok (n, d)) :
    n = (f.length : Int) := by
  unfold vsnprintf at h
  simp only [] at h
  split at h
  · injection h with h
    injection h with h1 _
    exact h1.symm
  · split at h
    · injection h with h
      injection h with h1 _
      exact h1.symm
    · cases h

/-- The function `hbuf_printf64` on a format that expands to the text `f` is
`hbuf_printf` as long as `size + length(f) + 1 + unit <= 2 ^ 64`. -/
theorem hbuf_printf64_eq (a1 a2 : Alloc) (buf : lowdown_buf) (f : List Byte)
    (hb : buf.size + f.length + 1 + buf.unit ≤ 2 ^ 64) :
    hbuf_printf64 a1 a2 buf (Fmt.text f) = hbuf_printf a1 a2 buf (some f) := by
  by_cases hu0 : buf.unit = 0
  · unfold hbuf_printf64 hbuf_printf
    simp only [hu0, if_true]
  · have hu : 0 < buf.unit := Nat.pos_of_ne_zero hu0
    have hs1 : (size_add buf.size 1).1 = buf.size + 1 := by
      rw [size_add_small _ _ (by omega)]
    have hfmt : ∀ dst off avail,
        vsnprintf_fmt dst off avail (Fmt.text f) = vsnprintf dst off avail (some f) :=
      fun _ _ _ => rfl
    unfold hbuf_printf64 hbuf_printf
    simp only [hu0, if_false, hs1, hfmt]
    rw [hbuf_grow_drop64_eq a1 buf (buf.size + 1) (Or.inr (by omega))]
    cases hstep : (if buf.size ≥ buf.maxsize then hbuf_grow_drop a1 buf (buf.size + 1)
        else Res.ok buf) with
    | fault e => rfl
    | ok buf1 =>
      obtain ⟨h1, hsz1⟩ := grow_step_units a1 buf _ _ buf1 hu hstep
      simp only []
      cases hv : vsnprintf buf1.data buf1.size (size_sub buf1.maxsize buf1.size) (some f) with
      | fault e => rfl
      | ok p =>
        obtain ⟨n, d1⟩ := p
        have hnl := vsnprintf_ret _ _ _ _ n d1 hv
        have hnat : n.toNat = f.length := by
          rw [hnl]
          exact Int.toNat_ofNat _
        have hn : ¬ n < 0 := by
          rw [hnl]
          exact Int.not_lt.mpr (Int.ofNat_nonneg _)
        have hs3 : (size_add buf1.size n.toNat).1 = buf1.size + n.toNat := by
          rw [hnat, hsz1, size_add_small _ _ (by omega)]
        have hs2 : (size_add (buf1.size + n.toNat) 1).1 = buf1.size + n.toNat + 1 := by
          rw [hnat, hsz1, size_add_small _ _ (by omega)]
        simp only [hn, if_false, hs3, hs2]
        by_cases hcut : n.toNat ≥ size_sub buf1.maxsize buf1.size
        · simp only [hcut, if_true]
          have hb3 : buf1.size + n.toNat + 1 ≤
                ({ buf1 with data := d1 } : lowdown_buf).maxsize ∨
              buf1.size + n.toNat + 1 + ({ buf1 with data := d1 } : lowdown_buf).unit ≤
                2 ^ 64 := by
            right
            show buf1.size + n.toNat + 1 + buf1.unit ≤ 2 ^ 64
            rw [h1.1, hsz1, hnat]
            exact hb
          rw [hbuf_grow_drop64_eq _ _ _ hb3]
          cases hg2 : hbuf_grow_drop a2 { buf1 with data := d1 } (buf1.size + n.toNat + 1) with
          | fault e => rfl
          | ok buf3 =>
            have hu1 : 0 < ({ buf1 with data := d1 } : lowdown_buf).unit := by
              show 0 < buf1.unit
              rw [h1.1]
              exact hu
            have hsz3 : buf3.size = buf1.size := (hbuf_grow_drop_units a2 _ _ buf3 hu1 hg2).2
            simp only []
            cases hv2 : vsnprintf buf3.data buf3.size (size_sub buf3.maxsize buf3.size)
                (some f) with
            | fault e => rfl
            | ok p2 =>
              obtain ⟨n2, d2⟩ := p2
              have hnl2 := vsnprintf_ret _ _ _ _ n2 d2 hv2
              have hnat2 : n2.toNat = f.length := by
                rw [hnl2]
                exact Int.toNat_ofNat _
              have hs4 : (size_add buf3.size n2.toNat).1 = buf3.size + n2.toNat := by
                rw [hnat2, hsz3, hsz1, size_add_small _ _ (by omega)]
              simp only [hs4]
        · simp only [hcut, if_false]

/-- C16 as stated fails: a fresh buffer with `unit = 2 ^ 63 + 1` is asked for
`2 ^ 63 + 4` bytes. The sums of the loop are `2 ^ 63 + 1`, 2, `2 ^ 63 + 3`, 4,
`2 ^ 63 + 5` (two of them after a wrap); with `realloc` granting that,
`maxsize` becomes `2 ^ 63 + 5`, which is not the old `maxsize` plus a whole
number of units. -/
theorem hbuf_grow64_not_by_units :
    hbuf_grow_neoasz64 (hbuf_init (2 ^ 63 + 1) 1) (2 ^ 63 + 4) (2 ^ 64) =
      some (2 ^ 63 + 5, true) ∧
    hbuf_grow64 (Alloc.grant fun _ => 0) (hbuf_init (2 ^ 63 + 1) 1) (2 ^ 63 + 4) =
      Res.ok (1, lowdown_buf.mk
        (some ((block none).take (2 ^ 63 + 5) ++
          (List.range (2 ^ 63 + 5 - (block none).length)).map fun _ => 0))
        0 (2 ^ 63 + 5) (2 ^ 63 + 1) 1) ∧
    ¬ ∃ k, 2 ^ 63 + 5 = (hbuf_init (2 ^ 63 + 1) 1).maxsize + k * (hbuf_init (2 ^ 63 + 1) 1).unit := by
  have hn : hbuf_grow_neoasz64 (hbuf_init (2 ^ 63 + 1) 1) (2 ^ 63 + 4) (2 ^ 64) =
      some (2 ^ 63 + 5, true) := by decide
  refine ⟨hn, ?_, ?_⟩
  · unfold hbuf_grow64
    rw [if_neg (by decide), hn]
    rfl
  · rintro ⟨k, hk⟩
    change 2 ^ 63 + 5 = 0 + k * (2 ^ 63 + 1) at hk
    omega

/-- C16 (amended): for a buffer with a positive unit, every call of
`hbuf_grow`, `hbuf_put`, `hbuf_putb`, `hbuf_puts`, `hbuf_putc`, `hbuf_putf`,
`hbuf_printf` that returns and forms no `size_t` sum of `2 ^ 64` or more (the
bound given with each function), and `hbuf_truncate`, leaves `unit` as it was
and `maxsize` equal to the old `maxsize` plus a whole number `k >= 0` of units,
whatever the allocator does. -/
theorem maxsize64_grows_by_units (buf : lowdown_buf) (hu : 0 < buf.unit) :
    (∀ a neosz r buf2, (neosz ≤ buf.maxsize ∨ neosz + buf.unit ≤ 2 ^ 64) →
      hbuf_grow64 a buf neosz = Res.ok (r, buf2) →
      buf2.unit = buf.unit ∧ ∃ k, buf2.maxsize = buf.maxsize + k * buf.unit) ∧
    (∀ a d n buf2, buf.size + n + buf.unit ≤ 2 ^ 64 →
      hbuf_put64 a buf d n = Res.ok buf2 →
      buf2.unit = buf.unit ∧ ∃ k, buf2.maxsize = buf.maxsize + k * buf.unit) ∧
    (∀ a (b : lowdown_buf) buf2, buf.size + b.size + buf.unit ≤ 2 ^ 64 →
      hbuf_putb64 a buf b = Res.ok buf2 →
      buf2.unit = buf.unit ∧ ∃ k, buf2.maxsize = buf.maxsize + k * buf.unit) ∧
    (∀ a str buf2,
      (∀ s n, str = some s → strlen s = Res.ok n → buf.size + n + buf.unit ≤ 2 ^ 64) →
      hbuf_puts64 a buf str = Res.ok buf2 →
      buf2.unit = buf.unit ∧ ∃ k, buf2.maxsize = buf.maxsize + k * buf.unit) ∧
    (∀ a c buf2, buf.size + 1 + buf.unit ≤ 2 ^ 64 →
      hbuf_putc64 a buf c = Res.ok buf2 →
      buf2.unit = buf.unit ∧ ∃ k, buf2.maxsize = buf.maxsize + k * buf.unit) ∧
    (∀ alloc (file : FILE) run, buf.size + file.rest.length + 2 * buf.unit ≤ 2 ^ 64 →
      hbuf_putf64 alloc buf file = Res.ok run →
      run.buf.unit = buf.unit ∧ ∃ k, run.buf.maxsize = buf.maxsize + k * buf.unit) ∧
    (∀ a1 a2 (out : Fmt) buf2, buf.size + out.length + 1 + buf.unit ≤ 2 ^ 64 →
      hbuf_printf64 a1 a2 buf out = Res.ok buf2 →
      buf2.unit = buf.unit ∧ ∃ k, buf2.maxsize = buf.maxsize + k * buf.unit) ∧
    ((hbuf_truncate buf).unit = buf.unit ∧
      ∃ k, (hbuf_truncate buf).maxsize = buf.maxsize + k * buf.unit) := by
  have hu0 : buf.unit ≠ 0 := by omega
  refine ⟨?_, ?_, ?_, ?_, ?_, ?_, ?_, ?_⟩
  · intro a neosz r buf2 hb h
    exact (hbuf_grow64_units a buf neosz r buf2 hu hb h).1
  · intro a d n buf2 hb h
    rw [hbuf_put64_eq a buf d n hb] at h
    exact hbuf_put_units a buf d n buf2 hu h
  · intro a b buf2 hb h
    unfold hbuf_putb64 at h
    rw [hbuf_put64_eq a buf b.data b.size hb] at h
    exact hbuf_put_units a buf b.data b.size buf2 hu h
  · intro a str buf2 hb h
    unfold hbuf_puts64 at h
    cases str with
    | none => simp at h
    | some s =>
      simp only [] at h
      cases hl : strlen s with
      | fault f => simp [hl] at h
      | ok n =>
        simp only [hl] at h
        rw [hbuf_put64_eq a buf (some s) n (hb s n rfl hl)] at h
        exact hbuf_put_units a buf (some s) n buf2 hu h
  · intro a c buf2 hb h
    rw [hbuf_putc64_eq a buf c hb, hbuf_putc_eq_put] at h
    exact hbuf_put_units a buf (some [c]) 1 buf2 hu h
  · intro alloc file run hb h
    rw [hbuf_putf64_eq alloc buf file hb] at h
    unfold hbuf_putf at h
    simp only [hu0, if_false] at h
    exact hbuf_putf_loop_units alloc _ 0 buf file run hu h
  · intro a1 a2 out buf2 hb h
    exact hbuf_printf64_units a1 a2 buf out buf2 hu hb h
  · exact ⟨rfl, 0, by simp [hbuf_truncate]⟩

theorem maxsize64_grows_by_units_witness :
    hbuf_putf64 (fun _ => Alloc.grant fun _ => 7) (lowdown_buf.mk (some [65, 66, 9, 9]) 2 4 4 0)
        (stream [1, 2, 3, 4, 5, 6] false) =
      Res.ok (putf_run.mk 1
        (lowdown_buf.mk (some [65, 66, 1, 2, 3, 4, 5, 6, 7, 7, 7, 7]) 8 12 4 0)
        (FILE.mk [] false true false) [1, 1]) ∧
    hbuf_printf64 (Alloc.grant fun _ => 7) (Alloc.grant fun _ => 8)
        (lowdown_buf.mk (some [65, 66, 9, 9]) 2 4 4 0) (Fmt.text [67, 68, 69]) =
      Res.ok (lowdown_buf.mk (some [65, 66, 67, 68, 69, 0, 8, 8]) 5 8 4 0) ∧
    hbuf_printf64 (Alloc.grant fun _ => 7) (Alloc.grant fun _ => 8)
        (lowdown_buf.mk (some [65, 66, 9, 9]) 2 4 4 0) (Fmt.error [67, 68, 69]) =
      Res.ok (lowdown_buf.mk (some [65, 66, 67, 68]) 2 4 4 0) ∧
    ((lowdown_buf.mk (some [65, 66, 1, 2, 3, 4, 5, 6, 7, 7, 7, 7]) 8 12 4 0).unit = 4 ∧
      ∃ k, (lowdown_buf.mk (some [65, 66, 1, 2, 3, 4, 5, 6, 7, 7, 7, 7]) 8 12 4 0).maxsize =
        4 + k * 4) :=
  ⟨by decide, by decide, by decide,
    (maxsize64_grows_by_units (lowdown_buf.mk (some [65, 66, 9, 9]) 2 4 4 0)
      (by decide)).2.2.2.2.2.1
      (fun _ => Alloc.grant fun _ => 7) (stream [1, 2, 3, 4, 5, 6] false)
      (putf_run.mk 1 (lowdown_buf.mk (some [65, 66, 1, 2, 3, 4, 5, 6, 7, 7, 7, 7]) 8 12 4 0)
        (FILE.mk [] false true false) [1, 1]) (by decide) (by decide)⟩

end Lowdown
